import Mathlib

/-! Hidden-Markov-model inference of `markovfilter.go`.

A shallow embedding of the inference engine of `src/markovfilter.go` and a
verification of its specification.

Conventions of the embedding.

* `float64` is read over exact arithmetic: a `Distribution` is a list of
  rationals.  Go's `x / 0` yields `NaN` or an infinity and never panics;
  here it is the rational quotient, which is `0`.  The theorems about the
  values of `normalize`, `filter`, `backFilter` and `estimate` are stated
  where no sum is zero.  In `viterbi`, a row of non-negative entries whose
  sum is zero is all zero: Go turns it into a row of `NaN`, the embedding
  leaves it zero, and in both every later comparison `next > maxValue` and
  `v[i] > v[m]` is false, so the backpointers and the path are the same.
* A Go slice is a list.  The in-place methods (`normalize`, `timesModel`,
  `timesDistribution`) return the updated slice.
* A runtime panic (an index out of range, an explicit `panic`) is `none`.
* Observation symbols and the time index of `estimate` have Go type `int`
  and are integers here; a negative index panics.
* The `fmt.Printf` calls do not change any value and are left out.
-/

namespace MarkovFilter

/-! ## Data model (lines 7-10) -/

abbrev Distribution := List ℚ
abbrev Model := List Distribution
abbrev TransitionModel := Model
abbrev SensorModel := Model

/-- Go's `xs[i]` for an `int` index: a panic when `i` is out of range. -/
def index {α : Type} (xs : List α) (i : Int) : Option α :=
  if i < 0 then none else xs[i.toNat]?

/-! ## Vector and matrix algebra (lines 189-303) -/

/-- The method `(r Distribution) normalize()`, lines 274-282: the entries are
summed left to right from `0.0`, then each entry is divided by the sum. -/
def normalize (r : Distribution) : Distribution :=
  let sum := r.foldl (fun sum v => sum + v) 0
  r.map (fun x => x / sum)

/-- The function `flatDistribution`, lines 285-287. -/
def flatDistribution : Distribution := [1/2, 1/2]

/-- The function `dot`, lines 210-219. -/
def dot (d1 d2 : Distribution) : Option ℚ :=
  if d1.length ≠ d2.length then none
  else some ((List.zipWith (fun a b => a * b) d1 d2).foldl (fun sum p => sum + p) 0)

/-- The method `(d Distribution) timesModel(m)`, lines 189-202:
`result[i] = dot(m[i], d)` for every `i < len(d)`. -/
def timesModel (d : Distribution) (m : Model) : Option Distribution :=
  (List.range d.length).mapM (fun i => do
    let row ← m[i]?
    dot row d)

/-- The method `(d Distribution) timesDistribution(other)`, lines 204-208:
`d[i] *= other[i]` for `i` over the indices of `d`; `other[i]` panics when
`other` is shorter than `d`, and a longer `other` is not noticed. -/
def timesDistribution : Distribution → Distribution → Option Distribution
  | [], _ => some []
  | _ :: _, [] => none
  | x :: d, y :: other => (timesDistribution d other).map (fun r => x * y :: r)

/-- The function `reverseArray`, lines 237-244. -/
def reverseArray (xs : List Int) : List Int := xs.reverse

/-- The function `transpose`, lines 247-264.  `len(m[0])` panics on an empty
model, a model with `rows != cols` panics, and `m[c][r]` panics when row `c`
has fewer than `rows` entries. -/
def transpose (m : Model) : Option Model :=
  match m with
  | [] => none
  | row0 :: _ =>
    let rows := m.length
    let cols := row0.length
    if rows ≠ cols then none
    else (List.range rows).mapM (fun r =>
      (List.range cols).mapM (fun c => do
        let mc ← m[c]?
        mc[r]?))

/-- The function `maxIdx`, lines 295-303.  Inside the loop both `i` and `m`
are below `len(v)`, so the default of `getD` is never read. -/
def maxIdx (v : List ℚ) : Nat :=
  (List.range' 1 (v.length - 1)).foldl
    (fun m i => if v.getD i 0 > v.getD m 0 then i else m) 0

/-! ## Forward and backward filters, smoother (lines 131-186) -/

/-- One iteration of the loop of `filter`, lines 159-162. -/
def filterStep (invT invS : Model) (d : Distribution) (e : Int) : Option Distribution := do
  let d1 ← timesModel d invT
  let col ← index invS e
  let d2 ← timesDistribution d1 col
  pure (normalize d2)

/-- The function `filter`, lines 151-166. -/
def filter (observed : List Int) (T : TransitionModel) (S : SensorModel) :
    Option Distribution := do
  let invS ← transpose S
  let invT ← transpose T
  observed.foldlM (filterStep invT invS) flatDistribution

/-- One iteration of the loop of `backFilter`, lines 179-182. -/
def backFilterStep (T invS : Model) (d : Distribution) (e : Int) : Option Distribution := do
  let col ← index invS e
  let d1 ← timesDistribution d col
  let d2 ← timesModel d1 T
  pure (normalize d2)

/-- The function `backFilter`, lines 168-186. -/
def backFilter (observed : List Int) (T : TransitionModel) (S : SensorModel) :
    Option Distribution := do
  let rObs := reverseArray observed
  let invS ← transpose S
  rObs.foldlM (backFilterStep T invS) flatDistribution

/-- The function `estimate`, lines 131-149.  The slices `observed[:at]` and
`observed[at:]` panic when `at` is outside `0..len(observed)` (a slice is
taken with capacity equal to its length). -/
def estimate (at_ : Int) (observed : List Int) (T : TransitionModel) (S : SensorModel) :
    Option Distribution := do
  let dForward ←
    (if at_ > 0 then
      (if at_ ≤ observed.length then filter (observed.take at_.toNat) T S else none)
    else some flatDistribution)
  let dBackward ←
    (if at_ < observed.length then
      (if 0 ≤ at_ then backFilter (observed.drop at_.toNat) T S else none)
    else some flatDistribution)
  let d ← (List.range 2).mapM (fun i => do
    let f ← dForward[i]?
    let b ← dBackward[i]?
    pure (f * b))
  pure (normalize d)

/-! ## Viterbi decoder (lines 68-118) -/

/-- One iteration of the loop over `prev`, lines 85-89, on the pair
`(maxValue, prevState[step][state])`. -/
def bestPrevStep (prevRow : Distribution) (T : TransitionModel) (state : Nat)
    (acc : ℚ × Nat) (prev : Nat) : Option (ℚ × Nat) := do
  let v ← prevRow[prev]?
  let row ← T[prev]?
  let t ← row[state]?
  let next := v * t
  pure (if next > acc.1 then (next, prev) else acc)

/-- The loop over `prev`, lines 83-90, for one `state`: the pair
`(maxValue, prevState[step][state])`, which starts as `(0.0, 0)`. -/
def bestPrev (prevRow : Distribution) (T : TransitionModel) (states state : Nat) :
    Option (ℚ × Nat) :=
  (List.range states).foldlM (bestPrevStep prevRow T state) (0, 0)

/-- The body of the loop over `state`, lines 80-93: the pair
`(values[step][state], prevState[step][state])` before the row is normalized.
`prevRow` is `none` at step `0` and `values[step - 1]` afterwards. -/
def viterbiCell (prevRow : Option Distribution) (T : TransitionModel) (S : SensorModel)
    (e : Int) (state : Nat) : Option (ℚ × Nat) := do
  let cell ← (match prevRow with
    | none => (flatDistribution[state]?).map (fun v => (v, 0))
    | some row => bestPrev row T T.length state)
  let srow ← S[state]?
  let s ← index srow e
  pure (cell.1 * s, cell.2)

/-- One iteration of the loop over `step`, lines 79-95: the rows
`values[step]` and `prevState[step]`; `norm` is the normalization applied to
the row at line 95. -/
def viterbiRow (norm : Distribution → Distribution) (prevRow : Option Distribution)
    (T : TransitionModel) (S : SensorModel) (e : Int) : Option (Distribution × List Nat) := do
  let cells ← (List.range T.length).mapM (viterbiCell prevRow T S e)
  pure (norm (cells.map Prod.fst), cells.map Prod.snd)

/-- The loop over `step`, lines 78-96: the rows of the two tables, one pair
`(values[step], prevState[step])` per observation. -/
def viterbiSteps (norm : Distribution → Distribution) (T : TransitionModel) (S : SensorModel) :
    Option Distribution → List Int → Option (List (Distribution × List Nat))
  | _, [] => some []
  | prevRow, e :: rest => do
    let r ← viterbiRow norm prevRow T S e
    let rs ← viterbiSteps norm T S (some r.1) rest
    pure (r :: rs)

/-- The tables `values` and `prevState` after line 96. -/
def viterbiTables (norm : Distribution → Distribution) (observed : List Int)
    (T : TransitionModel) (S : SensorModel) : Option (List Distribution × List (List Nat)) :=
  (viterbiSteps norm T S none observed).map (fun rows => (rows.map Prod.fst, rows.map Prod.snd))

/-- The traceback, lines 114-116, over the rows `prevState[steps-1]`, ...,
`prevState[1]` (in this order), from `bestPath[at] = cur`: the states
`bestPath[0..at]`. -/
def traceback : List (List Nat) → Nat → Option (List Nat)
  | [], cur => some [cur]
  | row :: rest, cur => do
    let p ← row[cur]?
    let path ← traceback rest p
    pure (path ++ [cur])

/-- The function `viterbi`, lines 68-118, with the normalization of line 95
as a parameter.  `values[steps - 1]` panics for an empty `observed`. -/
def viterbiWith (norm : Distribution → Distribution) (observed : List Int)
    (T : TransitionModel) (S : SensorModel) : Option (List Nat) := do
  let (values, prevState) ← viterbiTables norm observed T S
  let lastRow ← values.getLast?
  traceback (prevState.drop 1).reverse (maxIdx lastRow)

/-- The function `viterbi`, lines 68-118. -/
def viterbi (observed : List Int) (T : TransitionModel) (S : SensorModel) : Option (List Nat) :=
  viterbiWith normalize observed T S

/-- The variant of `viterbi` without line 95 (`values[step].normalize()`). -/
def viterbiUnnormalized (observed : List Int) (T : TransitionModel) (S : SensorModel) :
    Option (List Nat) :=
  viterbiWith id observed T S

/-! ## Vocabulary of the specification -/

/-- The models of the assignment example of `main`, lines 14-21. -/
def exampleT : TransitionModel := [[7/10, 3/10], [4/10, 6/10]]

/-- The sensor model of the assignment example of `main`, lines 18-21. -/
def exampleS : SensorModel := [[8/10, 2/10], [3/10, 7/10]]

/-- A sensor model with two states and three symbols (the Wikipedia example
of `main`, lines 47-50). -/
def wideS : SensorModel := [[5/10, 4/10, 1/10], [1/10, 3/10, 6/10]]

/-- A transition model with three states. -/
def threeT : TransitionModel := [[1/3, 1/3, 1/3], [1/3, 1/3, 1/3], [1/3, 1/3, 1/3]]

/-- The loop over `prev` (lines 83-90) unrolled for two states, on the
candidates `x = values[step-1][0] * T[0][state]` and
`y = values[step-1][1] * T[1][state]`. -/
def bestOfTwo (x y : ℚ) : ℚ × Nat :=
  let acc : ℚ × Nat := if x > 0 then (x, 0) else (0, 0)
  if y > acc.1 then (y, 1) else acc

/-- A transition model and a sensor model with all entries `1/2`. -/
def uniformModel : Model := [[1/2, 1/2], [1/2, 1/2]]

/-- The entry `m[i][j]` of a model, for indices in range. -/
def entry (m : Model) (i j : Nat) : ℚ := (m.getD i []).getD j 0

/-- The entry `d[i]` of a distribution, for an index in range. -/
def coord (d : Distribution) (i : Nat) : ℚ := d.getD i 0

/-- The score of a state sequence `x` for the observations `o`:
`0.5 * S[x[0]][o[0]] * Π_{k ≥ 1} T[x[k-1]][x[k]] * S[x[k]][o[k]]`. -/
def score (T : TransitionModel) (S : SensorModel) (o : List Int) (x : List Nat) : ℚ :=
  1/2 * entry S (x.getD 0 0) (o.getD 0 0).toNat *
    ((List.range' 1 (o.length - 1)).map (fun k =>
      entry T (x.getD (k - 1) 0) (x.getD k 0) * entry S (x.getD k 0) (o.getD k 0).toNat)).prod

/-- The product `Π_k T[x[k-1]][x[k]] * S[x[k]][o[k]]` along a state sequence
that continues from the state `prev`. -/
def scoreFrom (T : TransitionModel) (S : SensorModel) (prev : Nat) : List Nat → List Int → ℚ
  | x :: xs, e :: os => entry T prev x * entry S x e.toNat * scoreFrom T S x xs os
  | _, _ => 1

/-- The value of a state sequence that starts in a state weighted by the row
`V`: `V[x[0]] * Π_k T[x[k-1]][x[k]] * S[x[k]][o[k-1]]`. -/
def valueFrom (T : TransitionModel) (S : SensorModel) (V : Distribution) :
    List Nat → List Int → ℚ
  | [], _ => 0
  | x :: xs, o => coord V x * scoreFrom T S x xs o

/-- Every entry of the model is non-negative. -/
abbrev NonNeg (m : Model) : Prop := ∀ row ∈ m, ∀ x ∈ row, 0 ≤ x

/-- Every observation is a column of every row of `S`. -/
abbrev ValidObservations (S : SensorModel) (o : List Int) : Prop :=
  ∀ e ∈ o, ∀ row ∈ S, 0 ≤ e ∧ e < row.length

/-- A model with two rows of two entries. -/
abbrev TwoByTwo (m : Model) : Prop := m.length = 2 ∧ ∀ row ∈ m, row.length = 2

/-- The models on which `transpose` does not panic: non-empty, with as many
rows as the first row has entries, and no row shorter than that. -/
def Transposable (m : Model) : Prop :=
  m ≠ [] ∧ m.length = (m.head?.getD []).length ∧ ∀ row ∈ m, (m.head?.getD []).length ≤ row.length

instance (m : Model) : Decidable (Transposable m) := by
  unfold Transposable
  infer_instance

/-- The vector `v` of one forward step: `v[s] = (Σ_j T[j][s] * f[j]) * S[s][e]`. -/
def forwardUpdate (T S : Model) (f : Distribution) (e : Int) : Distribution :=
  (List.range 2).map (fun s =>
    ((List.range 2).map (fun j => entry T j s * coord f j)).sum * entry S s e.toNat)

/-- The vector `v` of one backward step: `v[i] = Σ_j T[i][j] * (b[j] * S[j][e])`. -/
def backwardUpdate (T S : Model) (b : Distribution) (e : Int) : Distribution :=
  (List.range 2).map (fun i =>
    ((List.range 2).map (fun j => entry T i j * (coord b j * entry S j e.toNat))).sum)

/-- Every entry of the model is strictly positive. -/
abbrev Positive (m : Model) : Prop := ∀ row ∈ m, ∀ x ∈ row, 0 < x

/-- All state sequences over `{0, 1}` of a given length. -/
def stateSeqs : Nat → List (List Nat)
  | 0 => [[]]
  | n + 1 => (stateSeqs n).map (fun x => 0 :: x) ++ (stateSeqs n).map (fun x => 1 :: x)

/-- The weight of a state sequence `x[0..n]` for the observations `o` of
length `n`: `w(x) = Π_{k = 1..n} T[x[k-1]][x[k]] * S[x[k]][o[k-1]]`. -/
def weight (T : TransitionModel) (S : SensorModel) (o : List Int) (x : List Nat) : ℚ :=
  ((List.range' 1 o.length).map (fun k =>
    entry T (x.getD (k - 1) 0) (x.getD k 0) * entry S (x.getD k 0) (o.getD (k - 1) 0).toNat)).prod

/-- The weight of a state sequence, by recursion along the sequence. -/
def pathWeight (T : TransitionModel) (S : SensorModel) : List Nat → List Int → ℚ
  | [], _ => 1
  | x :: xs, o => scoreFrom T S x xs o

/-- The belief at time `t` given all the evidence: the weight of the state
sequences `x[0..n]` with `x[t] = s`, over the weight of all of them. -/
def smoothed (T : TransitionModel) (S : SensorModel) (o : List Int) (t s : Nat) : ℚ :=
  (((stateSeqs (o.length + 1)).filter (fun x => x.getD t 0 = s)).map (weight T S o)).sum /
    ((stateSeqs (o.length + 1)).map (weight T S o)).sum

/-- The forward pass without normalization. -/
def forwardRow (T : TransitionModel) (S : SensorModel) (o : List Int) : Distribution :=
  o.foldl (forwardUpdate T S) flatDistribution

/-- The backward pass without normalization. -/
def backwardRow (T : TransitionModel) (S : SensorModel) (o : List Int) : Distribution :=
  o.foldr (fun e b => backwardUpdate T S b e) flatDistribution

end MarkovFilter

/-! Grid-world belief update of `pomdp.go`.

The grid has `ROWS x COLS` cells.  A `BeliefState` is the Go array
`[ROWS][COLS]float64`, read over exact arithmetic; the constants `0.8`, `0.1`,
`0.9` are the rationals `8/10`, `1/10`, `9/10`.  Cell coordinates and actions
have Go type `int` and are integers here; an index out of range is `none`. -/

namespace Pomdp

/-! ## Constants (lines 7-27) -/

abbrev ROWS : Nat := 3

abbrev COLS : Nat := 4

def D : List Int := [1, 0, -1, 0, 1]

def DOWN : Int := 0

def LEFT : Int := 1

def UP : Int := 2

def RIGHT : Int := 3

/-- The type `BeliefState`, line 21: an array of `ROWS` rows of `COLS` entries. -/
abbrev BeliefState := Fin ROWS → Fin COLS → ℚ

def WALLS : List (List Int) :=
  [[2, 2, 1, -1],
   [2, 4, 1, -1],
   [2, 2, 1, 2]]

/-- The entry `WALLS[r][c]` for `int` indices: a panic outside the grid. -/
def wallAt (r c : Int) : Option Int :=
  (MarkovFilter.index WALLS r).bind (fun row => MarkovFilter.index row c)

/-- The entry `WALLS[r][c]` for loop indices over a `BeliefState`, which are
always inside the grid. -/
def wallOf (r : Fin ROWS) (c : Fin COLS) : Int := (WALLS.getD r.val []).getD c.val 0

/-! ## Transition model (lines 73-107) -/

/-- The function `snap`, lines 99-107. -/
def snap (val lo hi : Int) : Int :=
  if val < lo then lo else if val > hi then hi else val

/-- The function `movesTo`, lines 93-96.  The operator `&&` evaluates
`D[action+1]` only when the rows agree. -/
def movesTo (rFrom cFrom action rTo cTo : Int) : Option Bool :=
  (MarkovFilter.index D action).bind (fun dr =>
    if snap (rFrom + dr) 0 ROWS = rTo then
      (MarkovFilter.index D (action + 1)).map (fun dc => decide (snap (cFrom + dc) 0 COLS = cTo))
    else some false)

/-- The function `transitionProability`, lines 74-90.  Go's `%` on `int`
truncates towards zero. -/
def transitionProability (rAt cAt rFrom cFrom action : Int) : Option ℚ :=
  (wallAt rFrom cFrom).bind (fun w =>
    if w = -1 ∨ w = 4 then some 0
    else
      (movesTo rFrom cFrom action rAt cAt).bind (fun m1 =>
      (movesTo rFrom cFrom (Int.tmod (action + 1) 4) rAt cAt).bind (fun m2 =>
      (movesTo rFrom cFrom (Int.tmod (action + 3) 4) rAt cAt).bind (fun m3 =>
        let sum0 : ℚ := 0
        let sum1 := if m1 then sum0 + 8/10 else sum0
        let sum2 := if m2 then sum1 + 1/10 else sum1
        let sum3 := if m3 then sum2 + 1/10 else sum2
        some sum3))))

/-! ## Observation model and belief update (lines 48-71, 109-170) -/

/-- The function `observationProbability`, lines 110-130; it panics on the
unreachable cell. -/
def observationProbability (rAt cAt observation : Int) : Option ℚ :=
  (wallAt rAt cAt).bind (fun w =>
    if w = 4 then none
    else if w = -1 then (if observation = -1 then some 1 else some 0)
    else if w = observation then some (9/10)
    else if observation ≠ -1 then some (1/10)
    else some 0)

/-- The method `(b *BeliefState) normalize()`, lines 156-170: the sum runs over
the cells with `WALLS[r][c] != 4`, the division over all cells. -/
def normalize (b : BeliefState) : BeliefState :=
  let sum := (List.finRange ROWS).foldl (fun sum r =>
    (List.finRange COLS).foldl (fun sum c =>
      if wallOf r c ≠ 4 then sum + b r c else sum) sum) 0
  fun r c => b r c / sum

/-- The function `stateProbability`, lines 60-71. -/
def stateProbability (rAt cAt : Int) (b : BeliefState) (action observation : Int) : Option ℚ :=
  (wallAt rAt cAt).bind (fun w =>
    if w = 4 then some 0
    else
      ((List.finRange ROWS).foldlM (fun sum rFrom =>
        (List.finRange COLS).foldlM (fun sum cFrom =>
          (transitionProability rAt cAt rFrom.val cFrom.val action).map
            (fun t => sum + b rFrom cFrom * t)) sum) (0 : ℚ)).bind (fun sum =>
      (observationProbability rAt cAt observation).map (fun o => sum * o)))

/-- The function `updateBelief`, lines 48-57: a panic in the computation of a
cell is a panic of the update. -/
def updateBelief (b : BeliefState) (action observation : Int) : Option BeliefState :=
  if (List.finRange ROWS).all (fun r => (List.finRange COLS).all (fun c =>
      (stateProbability r.val c.val b action observation).isSome)) then
    some (normalize (fun r c => (stateProbability r.val c.val b action observation).getD 0))
  else none

/-- The function `uniformBelief`, lines 133-144. -/
def uniformBelief : BeliefState :=
  normalize (fun r c => if wallOf r c ≠ -1 ∧ wallOf r c ≠ 4 then 1 else 0)

/-! ## Vocabulary of the specification -/

/-- The sum of the entries of a belief state over the cells that are not void
(`WALLS != 4`). -/
def nonVoidSum (b : BeliefState) : ℚ :=
  ∑ r : Fin ROWS, ∑ c : Fin COLS, if wallOf r c ≠ 4 then b r c else 0

/-- The sum of all `ROWS x COLS` entries of a belief state. -/
def totalSum (b : BeliefState) : ℚ := ∑ r : Fin ROWS, ∑ c : Fin COLS, b r c

/-- The sum over all cells `(rAt, cAt)` of the grid of
`transitionProability(rAt, cAt, rFrom, cFrom, action)`. -/
def transitionTotal (rFrom cFrom action : Int) : Option ℚ :=
  ((List.range ROWS).mapM (fun (rAt : Nat) =>
    ((List.range COLS).mapM (fun (cAt : Nat) =>
      transitionProability (rAt : Int) (cAt : Int) rFrom cFrom action)).map List.sum)).map
    List.sum

/-- The value of `transitionProability` counted in tenths, in the integers. -/
def transitionTenths (rAt cAt rFrom cFrom action : Int) : Option Nat :=
  (wallAt rFrom cFrom).bind (fun w =>
    if w = -1 ∨ w = 4 then some 0
    else
      (movesTo rFrom cFrom action rAt cAt).bind (fun m1 =>
      (movesTo rFrom cFrom (Int.tmod (action + 1) 4) rAt cAt).bind (fun m2 =>
      (movesTo rFrom cFrom (Int.tmod (action + 3) 4) rAt cAt).bind (fun m3 =>
        some ((if m1 then 8 else 0) + (if m2 then 1 else 0) + (if m3 then 1 else 0))))))

/-- The sum of `transitionTenths` over all cells of the grid. -/
def transitionTotalTenths (rFrom cFrom action : Int) : Option Nat :=
  ((List.range ROWS).mapM (fun (rAt : Nat) =>
    ((List.range COLS).mapM (fun (cAt : Nat) =>
      transitionTenths (rAt : Int) (cAt : Int) rFrom cFrom action)).map List.sum)).map
    List.sum

/-- A belief state with the entry 1 in the cell `(0, 0)` and in the void cell
`(1, 1)`. -/
def voidBelief : BeliefState :=
  fun r c => if (r = 0 ∧ c = 0) ∨ (r = 1 ∧ c = 1) then 1 else 0

end Pomdp

/-! WalkSAT local search of `walksat.go`.

An `Assignment` is the Go slice `[]bool`; variables and clause indices have Go
type `int`.  The outcomes of `rand.Intn(n)` and of the test
`rand.Float64() < RANDOM_SWAP_PROB` are parameters; the clock of
`singleSolveRandom` is the number of iterations it allows. -/

namespace WalkSat

/-! ## Data model (lines 21-41, 69) -/

abbrev Assignment := List Bool

/-- The type `VariableAndNegated`, lines 36-39 (the field `variable` is named
`var`). -/
structure VariableAndNegated where
  var : Int
  negated : Bool
deriving DecidableEq, Repr

abbrev Clause := List VariableAndNegated

abbrev Problem := List Clause

/-! ## Operations (lines 23-25, 43-51, 71-114) -/

/-- The method `swapVariable`, lines 23-25. -/
def swapVariable (assignment : Assignment) (variable_ : Int) : Option Assignment :=
  (MarkovFilter.index assignment variable_).map (fun v =>
    assignment.set variable_.toNat (!v))

/-- The method `IsTrue`, lines 43-51: the loop returns at the first literal
that agrees with the assignment. -/
def IsTrue : Clause → Assignment → Option Bool
  | [], _ => some false
  | varAndNeg :: rest, assignment =>
    (MarkovFilter.index assignment varAndNeg.var).bind (fun a =>
      let expected := !varAndNeg.negated
      if expected = a then some true else IsTrue rest assignment)

/-- The list `falseClauses` of `randomFalseClause`, lines 72-77, built from the
clauses `i, i+1, ...` of the problem. -/
def falseClausesFrom (assignment : Assignment) : Nat → Problem → Option (List Int)
  | _, [] => some []
  | i, clause :: rest =>
    (IsTrue clause assignment).bind (fun t =>
      (falseClausesFrom assignment (i + 1) rest).map (fun tail =>
        if !t then (i : Int) :: tail else tail))

/-- The method `randomFalseClause`, lines 71-83; `intn n` is the outcome of
`rand.Intn(n)`. -/
def randomFalseClause (problem : Problem) (assignment : Assignment) (intn : Nat → Int) :
    Option Int :=
  (falseClausesFrom assignment 0 problem).bind (fun falseClauses =>
    if falseClauses.length = 0 then some (-1)
    else MarkovFilter.index falseClauses (intn falseClauses.length))

/-- The method `randomVariable`, lines 85-88; `rand.Intn` panics for an empty
clause. -/
def randomVariable (problem : Problem) (clause : Int) (intn : Nat → Int) : Option Int :=
  (MarkovFilter.index problem clause).bind (fun c =>
    if c.length = 0 then none
    else (MarkovFilter.index c (intn c.length)).map (fun varAndNeg => varAndNeg.var))

/-- The method `trueCount`, lines 106-114. -/
def trueCount (problem : Problem) (assignment : Assignment) : Option Int :=
  problem.foldlM (fun count clause =>
    (IsTrue clause assignment).map (fun t => if t then count + 1 else count)) 0

/-- The method `bestVariable`, lines 90-104; the assignment is flipped and
flipped back for every literal of the clause. -/
def bestVariable (problem : Problem) (clause : Int) (assignment : Assignment) : Option Int :=
  (MarkovFilter.index problem clause).bind (fun c =>
    (c.foldlM (fun (acc : Int × Int) varAndNeg =>
      (swapVariable assignment varAndNeg.var).bind (fun flipped =>
        (trueCount problem flipped).map (fun count =>
          if acc.1 = -1 ∨ count > acc.2 then (varAndNeg.var, count) else acc)))
      ((-1 : Int), (-1 : Int))).map (fun acc => acc.1))

/-- The random outcomes of one iteration of the loop of `singleSolveRandom`. -/
structure Outcomes where
  clauseIntn : Nat → Int
  randomSwap : Bool
  variableIntn : Nat → Int

/-- The loop of `singleSolveRandom`, lines 134-147, from a problem and an
assignment, with one `Outcomes` per iteration that the clock allows: the value
of `terminated` and the assignment when the loop is left. -/
def solveLoop (problem : Problem) : List Outcomes → Assignment → Option (Bool × Assignment)
  | [], assignment => some (false, assignment)
  | rnd :: rest, assignment =>
    (randomFalseClause problem assignment rnd.clauseIntn).bind (fun clause =>
      if clause = -1 then some (true, assignment)
      else
        (if rnd.randomSwap then randomVariable problem clause rnd.variableIntn
          else bestVariable problem clause assignment).bind (fun variableToSwap =>
        (swapVariable assignment variableToSwap).bind (fun swapped =>
          solveLoop problem rest swapped)))

/-! ## Vocabulary of the specification -/

/-- The assignment has an entry for every variable of the problem. -/
def Covers (problem : Problem) (assignment : Assignment) : Prop :=
  ∀ clause ∈ problem, ∀ varAndNeg ∈ clause,
    0 ≤ varAndNeg.var ∧ varAndNeg.var < assignment.length

instance (problem : Problem) (assignment : Assignment) : Decidable (Covers problem assignment) := by
  unfold Covers
  infer_instance

/-- Some literal of the clause agrees with the assignment. -/
def Satisfied (clause : Clause) (assignment : Assignment) : Prop :=
  ∃ varAndNeg ∈ clause,
    MarkovFilter.index assignment varAndNeg.var = some (!varAndNeg.negated)

instance (clause : Clause) (assignment : Assignment) : Decidable (Satisfied clause assignment) := by
  unfold Satisfied
  infer_instance

/-- The problem `(x0 ∨ ¬x1) ∧ (x1 ∨ x2) ∧ (¬x0 ∨ ¬x2)`. -/
def sampleProblem : Problem :=
  [[⟨0, false⟩, ⟨1, true⟩], [⟨1, false⟩, ⟨2, false⟩], [⟨0, true⟩, ⟨2, true⟩]]

end WalkSat

namespace MarkovFilter

/-! ## Auxiliary facts about the algebra layer -/

theorem foldl_add_eq_sum (r : List ℚ) (z : ℚ) :
    r.foldl (fun sum v => sum + v) z = z + r.sum := by
  induction r generalizing z with
  | nil => simp
  | cons x xs ih => simp [ih, add_assoc]

theorem normalize_eq (r : Distribution) : normalize r = r.map (fun x => x / r.sum) := by
  simp [normalize, foldl_add_eq_sum]

theorem normalize_length (r : Distribution) : (normalize r).length = r.length := by
  simp [normalize]

theorem sum_map_div (r : List ℚ) (s : ℚ) : (r.map (fun x => x / s)).sum = r.sum / s := by
  induction r with
  | nil => simp
  | cons x xs ih => simp [ih, add_div]

theorem twoByTwo_eq {m : Model} (h : TwoByTwo m) :
    ∃ a b c d : ℚ, m = [[a, b], [c, d]] := by
  obtain ⟨hl, hr⟩ := h
  match m, hl with
  | [r0, r1], _ =>
    have h0 := hr r0 (by simp)
    have h1 := hr r1 (by simp)
    match r0, h0, r1, h1 with
    | [a, b], _, [c, d], _ => exact ⟨a, b, c, d, rfl⟩

/-! ## C10: `normalize` -/

/-- C10: over exact arithmetic, for every distribution whose entries have a
nonzero sum, the entries of the normalized distribution sum to exactly 1, and
each of them is the old entry divided by the old sum. -/
theorem normalize_sum_eq_one (d : Distribution) (h : d.sum ≠ 0) :
    (normalize d).sum = 1 ∧ normalize d = d.map (fun x => x / d.sum) := by
  refine ⟨?_, normalize_eq d⟩
  rw [normalize_eq, sum_map_div, div_self h]

theorem normalize_sum_eq_one_witness :
    ([2, 3, 5] : Distribution).sum ≠ 0 ∧ (normalize [2, 3, 5]).sum = 1 ∧
      normalize [2, 3, 5] = ([2, 3, 5] : Distribution).map (fun x => x / ([2, 3, 5] : Distribution).sum) :=
  ⟨by norm_num, normalize_sum_eq_one [2, 3, 5] (by norm_num)⟩

/-! ## Option-valued traversals -/

theorem mapM_cons_option {α β : Type} (f : α → Option β) (a : α) (l : List α) :
    (a :: l).mapM f = (f a).bind (fun b => (l.mapM f).map (fun bs => b :: bs)) := by
  rw [List.mapM_cons]
  cases f a <;> cases l.mapM f <;> rfl

theorem mapM_nil_option {α β : Type} (f : α → Option β) :
    ([] : List α).mapM f = some [] := rfl

theorem mapM_length {α β : Type} (f : α → Option β) :
    ∀ (l : List α) (r : List β), l.mapM f = some r → r.length = l.length
  | [], r, h => by
    rw [mapM_nil_option] at h
    cases h
    rfl
  | a :: l, r, h => by
    rw [mapM_cons_option] at h
    cases hfa : f a with
    | none => rw [hfa] at h; cases h
    | some b =>
      cases hl : l.mapM f with
      | none => rw [hfa, hl] at h; cases h
      | some bs =>
        rw [hfa, hl] at h
        cases h
        simp [mapM_length f l bs hl]

theorem timesModel_length {d d1 : Distribution} {m : Model} (h : timesModel d m = some d1) :
    d1.length = d.length := by
  have := mapM_length _ _ _ h
  simpa using this

theorem timesDistribution_length :
    ∀ (d other r : Distribution), timesDistribution d other = some r → r.length = d.length
  | [], _, r, h => by
    simp [timesDistribution] at h
    subst h
    rfl
  | _ :: _, [], r, h => by simp [timesDistribution] at h
  | x :: d, y :: other, r, h => by
    simp only [timesDistribution] at h
    cases hr : timesDistribution d other with
    | none => simp [hr] at h
    | some r1 =>
      simp [hr] at h
      subst h
      simp [timesDistribution_length d other r1 hr]

theorem filterStep_length {invT invS : Model} {d d1 : Distribution} {e : Int}
    (h : filterStep invT invS d e = some d1) : d1.length = d.length := by
  unfold filterStep at h
  cases h1 : timesModel d invT with
  | none => simp [h1] at h
  | some a =>
    cases h2 : index invS e with
    | none => simp [h1, h2] at h
    | some col =>
      cases h3 : timesDistribution a col with
      | none => simp [h1, h2, h3] at h
      | some b =>
        simp [h1, h2, h3] at h
        subst h
        rw [normalize_length, timesDistribution_length _ _ _ h3, timesModel_length h1]

theorem backFilterStep_length {T invS : Model} {d d1 : Distribution} {e : Int}
    (h : backFilterStep T invS d e = some d1) : d1.length = d.length := by
  unfold backFilterStep at h
  cases h2 : index invS e with
  | none => simp [h2] at h
  | some col =>
    cases h3 : timesDistribution d col with
    | none => simp [h2, h3] at h
    | some a =>
      cases h1 : timesModel a T with
      | none => simp [h1, h2, h3] at h
      | some b =>
        simp [h1, h2, h3] at h
        subst h
        rw [normalize_length, timesModel_length h1, timesDistribution_length _ _ _ h3]

theorem foldlM_length {step : Distribution → Int → Option Distribution}
    (hstep : ∀ d e d1, step d e = some d1 → d1.length = d.length) :
    ∀ (obs : List Int) (d r : Distribution), obs.foldlM step d = some r → r.length = d.length
  | [], d, r, h => by
    simp at h
    subst h
    rfl
  | e :: obs, d, r, h => by
    rw [List.foldlM_cons] at h
    cases hs : step d e with
    | none => simp [hs] at h
    | some d1 =>
      simp [hs] at h
      rw [foldlM_length hstep obs d1 r h, hstep d e d1 hs]

theorem filter_length {obs : List Int} {T S : Model} {d : Distribution}
    (h : filter obs T S = some d) : d.length = 2 := by
  unfold filter at h
  cases h1 : transpose S with
  | none => simp [h1] at h
  | some invS =>
    cases h2 : transpose T with
    | none => simp [h1, h2] at h
    | some invT =>
      simp [h1, h2] at h
      exact foldlM_length (fun d e d1 hd => filterStep_length hd) obs _ _ h

theorem backFilter_length {obs : List Int} {T S : Model} {d : Distribution}
    (h : backFilter obs T S = some d) : d.length = 2 := by
  unfold backFilter at h
  cases h1 : transpose S with
  | none => simp [h1] at h
  | some invS =>
    simp [h1] at h
    exact foldlM_length (fun d e d1 hd => backFilterStep_length hd) _ _ _ h

theorem length_two {d : Distribution} (h : d.length = 2) : ∃ x y : ℚ, d = [x, y] := by
  match d, h with
  | [x, y], _ => exact ⟨x, y, rfl⟩

/-! ## C4 and C5: one step of the forward and of the backward filter -/

theorem range_two : List.range 2 = [0, 1] := rfl

theorem transpose_two (a b c d : ℚ) : transpose [[a, b], [c, d]] = some [[a, c], [b, d]] := rfl

theorem timesModel_two (x y a b c d : ℚ) :
    timesModel [x, y] [[a, b], [c, d]] = some [0 + a * x + b * y, 0 + c * x + d * y] := rfl

theorem filterStep_two (a b c d p q r s x y : ℚ) (e : Int) (he : e = 0 ∨ e = 1) :
    filterStep [[a, c], [b, d]] [[p, r], [q, s]] [x, y] e
      = some (normalize (forwardUpdate [[a, b], [c, d]] [[p, q], [r, s]] [x, y] e)) := by
  rcases he with rfl | rfl
  · simp [filterStep, timesModel_two, forwardUpdate, entry, coord, index, timesDistribution, range_two]
  · simp [filterStep, timesModel_two, forwardUpdate, entry, coord, index, timesDistribution, range_two]

theorem backFilterStep_two (a b c d p q r s x y : ℚ) (e : Int) (he : e = 0 ∨ e = 1) :
    backFilterStep [[a, b], [c, d]] [[p, r], [q, s]] [x, y] e
      = some (normalize (backwardUpdate [[a, b], [c, d]] [[p, q], [r, s]] [x, y] e)) := by
  rcases he with rfl | rfl
  · simp [backFilterStep, timesModel_two, backwardUpdate, entry, coord, index, timesDistribution, range_two]
  · simp [backFilterStep, timesModel_two, backwardUpdate, entry, coord, index, timesDistribution, range_two]

theorem filter_two (a b c d p q r s : ℚ) (obs : List Int) :
    filter obs [[a, b], [c, d]] [[p, q], [r, s]]
      = obs.foldlM (filterStep [[a, c], [b, d]] [[p, r], [q, s]]) flatDistribution := rfl

theorem backFilter_two (T : Model) (p q r s : ℚ) (obs : List Int) :
    backFilter obs T [[p, q], [r, s]]
      = obs.reverse.foldlM (backFilterStep T [[p, r], [q, s]]) flatDistribution := rfl

theorem foldlM_snoc_option {α β : Type} (step : β → α → Option β) (l : List α) (a : α) (z : β) :
    (l ++ [a]).foldlM step z = (l.foldlM step z).bind (fun d => step d a) := by
  rw [List.foldlM_append]
  cases l.foldlM step z with
  | none => rfl
  | some d => simp

theorem foldlM_two_isSome (step : Distribution → Int → Option Distribution)
    (hstep : ∀ (x y : ℚ) (e : Int), (e = 0 ∨ e = 1) → ∃ x1 y1 : ℚ, step [x, y] e = some [x1, y1]) :
    ∀ (obs : List Int) (x y : ℚ), (∀ o ∈ obs, o = 0 ∨ o = 1) →
      ∃ x1 y1 : ℚ, obs.foldlM step [x, y] = some [x1, y1]
  | [], x, y, _ => ⟨x, y, rfl⟩
  | e :: obs, x, y, h => by
    obtain ⟨x1, y1, h1⟩ := hstep x y e (h e (by simp))
    obtain ⟨x2, y2, h2⟩ := foldlM_two_isSome step hstep obs x1 y1
      (fun o ho => h o (by simp [ho]))
    exact ⟨x2, y2, by rw [List.foldlM_cons, h1]; exact h2⟩

theorem filter_isSome (T S : Model) (hT : TwoByTwo T) (hS : TwoByTwo S) (obs : List Int)
    (hobs : ∀ o ∈ obs, o = 0 ∨ o = 1) : ∃ x y : ℚ, filter obs T S = some [x, y] := by
  obtain ⟨a, b, c, d, rfl⟩ := twoByTwo_eq hT
  obtain ⟨p, q, r, s, rfl⟩ := twoByTwo_eq hS
  rw [filter_two]
  refine foldlM_two_isSome _ (fun x y e he => ?_) obs _ _ hobs
  rw [filterStep_two _ _ _ _ _ _ _ _ _ _ e he]
  exact ⟨_, _, rfl⟩

theorem backFilter_isSome (T S : Model) (hT : TwoByTwo T) (hS : TwoByTwo S) (obs : List Int)
    (hobs : ∀ o ∈ obs, o = 0 ∨ o = 1) : ∃ x y : ℚ, backFilter obs T S = some [x, y] := by
  obtain ⟨a, b, c, d, rfl⟩ := twoByTwo_eq hT
  obtain ⟨p, q, r, s, rfl⟩ := twoByTwo_eq hS
  rw [backFilter_two]
  refine foldlM_two_isSome _ (fun x y e he => ?_) obs.reverse _ _
    (fun o ho => hobs o (by simpa using ho))
  rw [backFilterStep_two _ _ _ _ _ _ _ _ _ _ e he]
  exact ⟨_, _, rfl⟩

/-- C4: over exact arithmetic, for 2x2 models `T` and `S`, one more observation
`e` in `{0, 1}` changes the forward belief `f = filter(obs, T, S)` into
`normalize(v)` with `v[s] = (Σ_j T[j][s] * f[j]) * S[s][e]`: a predict with the
transpose of `T`, an update by the likelihoods of `e`, a normalization.  The call
on `obs` returns when every symbol of `obs` is in `{0, 1}`; when it fails, so
does the longer call. -/
theorem filter_append_singleton (T : TransitionModel) (S : SensorModel)
    (hT : TwoByTwo T) (hS : TwoByTwo S) (obs : List Int) (e : Int) (he : e = 0 ∨ e = 1) :
    filter (obs ++ [e]) T S
        = (filter obs T S).map (fun f => normalize (forwardUpdate T S f e))
      ∧ ((∀ o ∈ obs, o = 0 ∨ o = 1) → (filter obs T S).isSome) := by
  refine ⟨?_, fun hobs => by
    obtain ⟨x, y, h⟩ := filter_isSome T S hT hS obs hobs
    simp [h]⟩
  obtain ⟨a, b, c, d, rfl⟩ := twoByTwo_eq hT
  obtain ⟨p, q, r, s, rfl⟩ := twoByTwo_eq hS
  rw [filter_two, foldlM_snoc_option, ← filter_two]
  cases hf : filter obs [[a, b], [c, d]] [[p, q], [r, s]] with
  | none => rfl
  | some f =>
    obtain ⟨x, y, rfl⟩ := length_two (filter_length hf)
    simp [filterStep_two _ _ _ _ _ _ _ _ _ _ e he]

theorem filter_append_singleton_witness :
    (TwoByTwo exampleT ∧ TwoByTwo exampleS ∧ ((0 : Int) = 0 ∨ (0 : Int) = 1)) ∧
    filter ([0, 1] ++ [0]) exampleT exampleS
        = (filter [0, 1] exampleT exampleS).map
            (fun f => normalize (forwardUpdate exampleT exampleS f 0))
      ∧ ((∀ o ∈ ([0, 1] : List Int), o = 0 ∨ o = 1) → (filter [0, 1] exampleT exampleS).isSome) :=
  ⟨by decide,
    filter_append_singleton exampleT exampleS (by decide) (by decide) [0, 1] 0 (by decide)⟩

/-- C5: over exact arithmetic, for 2x2 models `T` and `S`, the backward filter
consumes its observations last to first: with `b = backFilter(rest, T, S)`,
`backFilter(e :: rest, T, S) = normalize(v)` where
`v[i] = Σ_j T[i][j] * (b[j] * S[j][e])`: an update by the likelihoods of `e`,
a predict with `T` itself, a normalization.  The call on `rest` returns when
every symbol of `rest` is in `{0, 1}`; when it fails, so does the longer call. -/
theorem backFilter_cons (T : TransitionModel) (S : SensorModel)
    (hT : TwoByTwo T) (hS : TwoByTwo S) (e : Int) (rest : List Int) (he : e = 0 ∨ e = 1) :
    backFilter (e :: rest) T S
        = (backFilter rest T S).map (fun b => normalize (backwardUpdate T S b e))
      ∧ ((∀ o ∈ rest, o = 0 ∨ o = 1) → (backFilter rest T S).isSome) := by
  refine ⟨?_, fun hobs => by
    obtain ⟨x, y, h⟩ := backFilter_isSome T S hT hS rest hobs
    simp [h]⟩
  obtain ⟨a, b, c, d, rfl⟩ := twoByTwo_eq hT
  obtain ⟨p, q, r, s, rfl⟩ := twoByTwo_eq hS
  rw [backFilter_two, List.reverse_cons, foldlM_snoc_option, ← backFilter_two]
  cases hf : backFilter rest [[a, b], [c, d]] [[p, q], [r, s]] with
  | none => rfl
  | some f =>
    obtain ⟨x, y, rfl⟩ := length_two (backFilter_length hf)
    simp [backFilterStep_two _ _ _ _ _ _ _ _ _ _ e he]

theorem backFilter_cons_witness :
    (TwoByTwo exampleT ∧ TwoByTwo exampleS ∧ ((1 : Int) = 0 ∨ (1 : Int) = 1)) ∧
    backFilter (1 :: [0, 1]) exampleT exampleS
        = (backFilter [0, 1] exampleT exampleS).map
            (fun b => normalize (backwardUpdate exampleT exampleS b 1))
      ∧ ((∀ o ∈ ([0, 1] : List Int), o = 0 ∨ o = 1) →
          (backFilter [0, 1] exampleT exampleS).isSome) :=
  ⟨by decide,
    backFilter_cons exampleT exampleS (by decide) (by decide) 1 [0, 1] (by decide)⟩

/-! ## More on Option-valued traversals -/

theorem mapM_isSome_iff {α β : Type} (f : α → Option β) :
    ∀ l : List α, (l.mapM f).isSome ↔ ∀ a ∈ l, (f a).isSome
  | [] => by rw [mapM_nil_option]; simp
  | a :: l => by
    rw [mapM_cons_option]
    have ih := mapM_isSome_iff f l
    cases hfa : f a with
    | none => simp [hfa]
    | some b =>
      cases hl : l.mapM f with
      | none =>
        rw [hl] at ih
        simp only [Option.isSome_none, Bool.false_eq_true, false_iff] at ih
        simp only [Option.some_bind, Option.map_none', Option.isSome_none, Bool.false_eq_true,
          false_iff]
        intro h
        exact ih (fun x hx => h x (List.mem_cons_of_mem _ hx))
      | some bs =>
        rw [hl] at ih
        simp only [Option.isSome_some, true_iff] at ih
        simp only [Option.some_bind, Option.map_some', Option.isSome_some, true_iff]
        intro x hx
        rcases List.mem_cons.1 hx with rfl | hx
        · simp [hfa]
        · exact ih x hx

theorem mapM_getElem? {α β : Type} (f : α → Option β) :
    ∀ (l : List α) (r : List β), l.mapM f = some r →
      ∀ (i : Nat) (a : α), l[i]? = some a → ∃ b, r[i]? = some b ∧ f a = some b
  | [], _, _, i, a, hi => by simp at hi
  | x :: l, r, h, i, a, hi => by
    rw [mapM_cons_option] at h
    cases hfa : f x with
    | none => rw [hfa] at h; cases h
    | some b =>
      cases hl : l.mapM f with
      | none => rw [hfa, hl] at h; cases h
      | some bs =>
        rw [hfa, hl] at h
        cases h
        cases i with
        | zero =>
          simp only [List.getElem?_cons_zero, Option.some.injEq] at hi
          subst hi
          exact ⟨b, by simp, hfa⟩
        | succ i =>
          simp only [List.getElem?_cons_succ] at hi
          obtain ⟨b1, hb1, hfb⟩ := mapM_getElem? f l bs hl i a hi
          exact ⟨b1, by simpa using hb1, hfb⟩

theorem mapM_range_getElem? {β : Type} (f : Nat → Option β) (n : Nat) (r : List β)
    (h : (List.range n).mapM f = some r) (i : Nat) (hi : i < n) :
    ∃ b, r[i]? = some b ∧ f i = some b :=
  mapM_getElem? f _ r h i i (by simp [List.getElem?_range hi])

theorem mapM_mem {α β : Type} (f : α → Option β) (l : List α) (r : List β)
    (h : l.mapM f = some r) (b : β) (hb : b ∈ r) : ∃ a ∈ l, f a = some b := by
  obtain ⟨i, hi, rfl⟩ := List.getElem_of_mem hb
  have hlen := mapM_length f l r h
  have hil : i < l.length := hlen ▸ hi
  obtain ⟨b1, hb1, hfb⟩ := mapM_getElem? f l r h i l[i] (by simp [hil])
  rw [List.getElem?_eq_getElem hi] at hb1
  cases hb1
  exact ⟨l[i], List.getElem_mem hil, hfb⟩

/-! ## When `transpose` returns -/

theorem transpose_cons (row0 : Distribution) (rest : List Distribution) :
    transpose (row0 :: rest)
      = if (row0 :: rest).length ≠ row0.length then none
        else (List.range (row0 :: rest).length).mapM (fun r =>
          (List.range row0.length).mapM (fun c =>
            ((row0 :: rest)[c]?).bind (fun mc => mc[r]?))) := rfl

theorem transpose_isSome_iff (m : Model) :
    (transpose m).isSome ↔ Transposable m := by
  cases m with
  | nil => simp [transpose, Transposable]
  | cons row0 rest =>
    rw [transpose_cons]
    unfold Transposable
    by_cases hsq : (row0 :: rest).length = row0.length
    · have hne : ¬ (row0 :: rest).length ≠ row0.length := fun h => h hsq
      rw [if_neg hne]
      simp only [mapM_isSome_iff, List.mem_range]
      simp only [ne_eq, reduceCtorEq, not_false_eq_true, List.head?_cons, Option.getD_some,
        true_and, hsq]
      constructor
      · intro h row hrow
        obtain ⟨c, hc, rfl⟩ := List.getElem_of_mem hrow
        by_contra hlt
        push_neg at hlt
        have := h _ hlt c (by rw [← hsq]; exact hc)
        rw [List.getElem?_eq_getElem hc, Option.some_bind,
          List.getElem?_eq_none (le_refl _)] at this
        simp at this
      · intro h r hr c hc
        have hc1 : c < (row0 :: rest).length := by rw [hsq]; exact hc
        have := h _ (List.getElem_mem hc1)
        rw [List.getElem?_eq_getElem hc1, Option.some_bind,
          List.getElem?_eq_getElem (by omega)]
        rfl
    · have hne : (row0 :: rest).length ≠ row0.length := hsq
      rw [if_pos hne]
      simp only [Option.isSome_none, Bool.false_eq_true, false_iff]
      intro h
      exact hsq (by simpa using h.2.1)
/-! ## C7: the filters on an empty observation sequence -/

theorem filter_nil (T S : Model) :
    filter [] T S = (transpose S).bind (fun _ => (transpose T).bind (fun _ => some flatDistribution)) :=
  rfl

theorem backFilter_nil (T S : Model) :
    backFilter [] T S = (transpose S).bind (fun _ => some flatDistribution) := rfl

/-- C7, counterexample: with the two-state transition model of `main` and a
sensor model of two states and three symbols, `filter([], T, S)` and
`backFilter([], T, S)` both fail (in `transpose(S)`); and with a three-state
model the distribution returned has two entries, not three. -/
theorem filter_nil_counterexample :
    filter [] exampleT wideS = none ∧ backFilter [] exampleT wideS = none ∧
      filter [] threeT threeT = some [1/2, 1/2] ∧ threeT.length = 3 :=
  ⟨rfl, rfl, rfl, rfl⟩

/-- C7, amended: `backFilter([], T, S)` returns exactly when `transpose(S)`
does not panic, `filter([], T, S)` exactly when neither `transpose(S)` nor
`transpose(T)` panics (a model is transposable when it is non-empty, has as
many rows as its first row has entries and no shorter row); what they return
is the two-entry flat distribution `[1/2, 1/2]`, whose entries are equal and
sum to 1, whatever the number of states of `T`. -/
theorem filter_nil_eq_flat (T : TransitionModel) (S : SensorModel) :
    (filter [] T S = some flatDistribution ↔ Transposable S ∧ Transposable T) ∧
    (backFilter [] T S = some flatDistribution ↔ Transposable S) ∧
    (∀ d, filter [] T S = some d ∨ backFilter [] T S = some d → d = flatDistribution) ∧
    flatDistribution = [1/2, 1/2] ∧ flatDistribution.sum = 1 := by
  have hS := transpose_isSome_iff S
  have hT := transpose_isSome_iff T
  rw [filter_nil, backFilter_nil]
  refine ⟨?_, ?_, ?_, rfl, by norm_num [flatDistribution]⟩
  · cases h1 : transpose S with
    | none =>
      rw [h1] at hS
      have : ¬ Transposable S := fun h => by simpa using hS.2 h
      simp [this]
    | some a =>
      rw [h1] at hS
      have hS1 : Transposable S := hS.1 rfl
      cases h2 : transpose T with
      | none =>
        rw [h2] at hT
        have : ¬ Transposable T := fun h => by simpa using hT.2 h
        simp [this]
      | some b =>
        rw [h2] at hT
        have hT1 : Transposable T := hT.1 rfl
        simp [hS1, hT1]
  · cases h1 : transpose S with
    | none =>
      rw [h1] at hS
      have : ¬ Transposable S := fun h => by simpa using hS.2 h
      simp [this]
    | some a =>
      rw [h1] at hS
      have hS1 : Transposable S := hS.1 rfl
      simp [hS1]
  · intro d hd
    cases h1 : transpose S with
    | none => simp [h1] at hd
    | some a =>
      cases h2 : transpose T with
      | none =>
        simp [h1, h2] at hd
        exact hd.symm
      | some b =>
        simp [h1, h2] at hd
        exact hd.symm

/-! ## C6: `estimate` as a normalized product -/

theorem estimate_product (f0 f1 b0 b1 : ℚ) :
    (List.range 2).mapM (fun i =>
        (([f0, f1] : Distribution)[i]?).bind
          (fun f => (([b0, b1] : Distribution)[i]?).bind (fun b => some (f * b))))
      = timesDistribution [f0, f1] [b0, b1] := rfl

theorem estimate_unfold (at_ : Int) (observed : List Int) (T S : Model) :
    estimate at_ observed T S =
      (if at_ > 0 then
          (if at_ ≤ observed.length then filter (observed.take at_.toNat) T S else none)
        else some flatDistribution).bind (fun dForward =>
      (if at_ < observed.length then
          (if 0 ≤ at_ then backFilter (observed.drop at_.toNat) T S else none)
        else some flatDistribution).bind (fun dBackward =>
      ((List.range 2).mapM (fun i =>
        (dForward[i]?).bind (fun f => (dBackward[i]?).bind (fun b => some (f * b))))).bind
        (fun d => some (normalize d)))) := rfl

theorem timesDistribution_two (x y p q : ℚ) :
    timesDistribution [x, y] [p, q] = some [x * p, y * q] := rfl

theorem normalize_two (x y : ℚ) : normalize [x, y] = [x / (x + y), y / (x + y)] := by
  simp [normalize]

/-- C6, counterexample: for the empty observation sequence and a sensor model
of two states and three symbols, `estimate(0, [], T, S)` returns `[1/2, 1/2]`
while `backFilter([], T, S)` fails, so that
`normalize(elementwiseMultiply(flatDistribution, backFilter([], T, S)))` has no
value. -/
theorem estimate_zero_counterexample :
    estimate 0 [] exampleT wideS = some [1/2, 1/2] ∧
      backFilter [] exampleT wideS = none ∧
      estimate 0 [] exampleT wideS ≠
        (backFilter [] exampleT wideS).bind
          (fun b => (timesDistribution flatDistribution b).map normalize) := by
  have h : estimate 0 [] exampleT wideS = some [1/2, 1/2] := by
    rw [estimate_unfold]
    simp only [gt_iff_lt, lt_self_iff_false, if_false, List.length_nil, Nat.cast_zero,
      Option.some_bind, flatDistribution, estimate_product, timesDistribution_two, normalize_two]
    norm_num
  have hb : backFilter [] exampleT wideS = none := rfl
  refine ⟨h, hb, ?_⟩
  rw [h, hb]
  simp

theorem estimate_product_of_length {f b : Distribution} (hf : f.length = 2) (hb : b.length = 2) :
    (List.range 2).mapM (fun i =>
        (f[i]?).bind (fun x => (b[i]?).bind (fun y => some (x * y))))
      = timesDistribution f b := by
  obtain ⟨f0, f1, rfl⟩ := length_two hf
  obtain ⟨b0, b1, rfl⟩ := length_two hb
  rfl

theorem estimate_eq_aux (at_ : Int) (o : List Int) (T S : Model)
    (h0 : 0 ≤ at_) (h1 : at_ ≤ o.length) :
    estimate at_ o T S =
      (if at_ > 0 then filter (o.take at_.toNat) T S else some flatDistribution).bind
        (fun dForward =>
          (if at_ < o.length then backFilter (o.drop at_.toNat) T S
            else some flatDistribution).bind
            (fun dBackward => (timesDistribution dForward dBackward).map normalize)) := by
  rw [estimate_unfold]
  simp only [h0, h1, if_true]
  cases hF : (if at_ > 0 then filter (o.take at_.toNat) T S else some flatDistribution) with
  | none => rfl
  | some f =>
    have hf : f.length = 2 := by
      by_cases hat : at_ > 0
      · rw [if_pos hat] at hF
        exact filter_length hF
      · rw [if_neg hat] at hF
        cases hF
        rfl
    cases hB : (if at_ < o.length then backFilter (o.drop at_.toNat) T S
        else some flatDistribution) with
    | none => rfl
    | some b =>
      have hb : b.length = 2 := by
        by_cases hat : at_ < o.length
        · rw [if_pos hat] at hB
          exact backFilter_length hB
        · rw [if_neg hat] at hB
          cases hB
          rfl
      simp only [Option.some_bind]
      rw [estimate_product_of_length hf hb]
      cases timesDistribution f b <;> rfl

/-- C6, amended: for every `T`, `S`, observation sequence `o` and every `at`
with `0 <= at <= len(o)`, `estimate(at, o, T, S)` is
`normalize(elementwiseMultiply(dForward, dBackward))`, where `dForward` is
`filter(o[0:at], T, S)` if `at > 0` and the flat distribution otherwise, and
`dBackward` is `backFilter(o[at:], T, S)` if `at < len(o)` and the flat
distribution otherwise (a failure of a filter that is called is a failure of
`estimate`); in particular, when `o` is non-empty or `backFilter(o, T, S)`
returns, `estimate(0, o, T, S)` is
`normalize(elementwiseMultiply(flatDistribution, backFilter(o, T, S)))`. -/
theorem estimate_eq_normalize_product (at_ : Int) (o : List Int)
    (T : TransitionModel) (S : SensorModel) (h0 : 0 ≤ at_) (h1 : at_ ≤ o.length) :
    estimate at_ o T S =
        (if at_ > 0 then filter (o.take at_.toNat) T S else some flatDistribution).bind
          (fun dForward =>
            (if at_ < o.length then backFilter (o.drop at_.toNat) T S
              else some flatDistribution).bind
              (fun dBackward => (timesDistribution dForward dBackward).map normalize))
      ∧ ((o ≠ [] ∨ (backFilter o T S).isSome) →
          estimate 0 o T S =
            (backFilter o T S).bind
              (fun b => (timesDistribution flatDistribution b).map normalize)) := by
  refine ⟨estimate_eq_aux at_ o T S h0 h1, fun h => ?_⟩
  rw [estimate_eq_aux 0 o T S (le_refl 0) (by simp)]
  simp only [gt_iff_lt, lt_self_iff_false, if_false, Option.some_bind, Int.toNat_zero,
    List.drop_zero]
  cases o with
  | nil =>
    simp only [List.length_nil, Nat.cast_zero, lt_self_iff_false, if_false, Option.some_bind]
    rcases h with h | h
    · exact absurd rfl h
    · rw [backFilter_nil] at h ⊢
      cases hS : transpose S with
      | none => simp [hS] at h
      | some a => rfl
  | cons e rest =>
    have : (0 : Int) < ((e :: rest).length : Int) := by simp
    rw [if_pos this]

theorem estimate_eq_normalize_product_witness :
    ((0 : Int) ≤ 1 ∧ (1 : Int) ≤ ([0, 1, 0] : List Int).length) ∧
    estimate 1 [0, 1, 0] exampleT exampleS =
        (if (1 : Int) > 0 then filter (([0, 1, 0] : List Int).take (1 : Int).toNat) exampleT exampleS
          else some flatDistribution).bind
          (fun dForward =>
            (if (1 : Int) < ([0, 1, 0] : List Int).length then
                backFilter (([0, 1, 0] : List Int).drop (1 : Int).toNat) exampleT exampleS
              else some flatDistribution).bind
              (fun dBackward => (timesDistribution dForward dBackward).map normalize))
      ∧ ((([0, 1, 0] : List Int) ≠ [] ∨ (backFilter [0, 1, 0] exampleT exampleS).isSome) →
          estimate 0 [0, 1, 0] exampleT exampleS =
            (backFilter [0, 1, 0] exampleT exampleS).bind
              (fun b => (timesDistribution flatDistribution b).map normalize)) :=
  ⟨by decide, estimate_eq_normalize_product 1 [0, 1, 0] exampleT exampleS (by decide) (by decide)⟩

/-! ## Shape of the Viterbi tables -/

theorem flatDistribution_length : flatDistribution.length = 2 := rfl

theorem foldlM_inv {α β : Type} (step : β → α → Option β) (P : β → Prop) :
    ∀ (l : List α), (∀ acc, P acc → ∀ a ∈ l, ∃ acc1, step acc a = some acc1 ∧ P acc1) →
      ∀ z, P z → ∃ r, l.foldlM step z = some r ∧ P r
  | [], _, z, hz => ⟨z, rfl, hz⟩
  | a :: l, hstep, z, hz => by
    obtain ⟨z1, h1, hP1⟩ := hstep z hz a (by simp)
    obtain ⟨r, hr, hPr⟩ := foldlM_inv step P l
      (fun acc hacc x hx => hstep acc hacc x (List.mem_cons_of_mem _ hx)) z1 hP1
    exact ⟨r, by rw [List.foldlM_cons, h1]; exact hr, hPr⟩

theorem bestPrevStep_eq {prevRow : Distribution} {T : Model} {state prev : Nat} {v t : ℚ}
    {row : Distribution} (hv : prevRow[prev]? = some v) (hrow : T[prev]? = some row)
    (ht : row[state]? = some t) (acc : ℚ × Nat) :
    bestPrevStep prevRow T state acc prev = some (if v * t > acc.1 then (v * t, prev) else acc) := by
  simp [bestPrevStep, hv, hrow, ht]

/-- The inner loop returns when the table rows are long enough, and the
backpointer it leaves is `0` or one of the indices visited. -/
theorem bestPrev_ok (prevRow : Distribution) (T : Model) (states state : Nat)
    (hrow : states ≤ prevRow.length)
    (hT : ∀ prev < states, ∃ row, T[prev]? = some row ∧ state < row.length) :
    ∃ r, bestPrev prevRow T states state = some r ∧ (r.2 = 0 ∨ r.2 < states) := by
  unfold bestPrev
  refine foldlM_inv _ (fun r => r.2 = 0 ∨ r.2 < states) _ ?_ ((0 : ℚ), 0) (Or.inl rfl)
  intro acc hacc prev hprev
  have hp : prev < states := List.mem_range.1 hprev
  obtain ⟨row, hr, hs⟩ := hT prev hp
  have hv : prevRow[prev]? = some prevRow[prev] := List.getElem?_eq_getElem (by omega)
  have ht : row[state]? = some row[state] := List.getElem?_eq_getElem hs
  refine ⟨_, bestPrevStep_eq hv hr ht acc, ?_⟩
  split
  · exact Or.inr hp
  · exact hacc

theorem index_eq_some {α : Type} {xs : List α} {e : Int} (h0 : 0 ≤ e) (h1 : e < xs.length) :
    ∃ x, index xs e = some x ∧ xs[e.toNat]? = some x := by
  have hlt : e.toNat < xs.length := by omega
  refine ⟨xs[e.toNat], ?_, List.getElem?_eq_getElem hlt⟩
  unfold index
  rw [if_neg (by omega), List.getElem?_eq_getElem hlt]

/-- A row of the tables can be computed when `T` has at most two states (the
flat distribution has two entries), its rows reach every state, and the
symbol is a column of the first `len(T)` rows of `S`. -/
theorem viterbiCell_ok (prevRow : Option Distribution) (T S : Model) (e : Int) (state : Nat)
    (hstate : state < T.length) (hT2 : T.length ≤ 2)
    (hprev : ∀ row, prevRow = some row → T.length ≤ row.length)
    (hT : ∀ row ∈ T, T.length ≤ row.length)
    (hS : ∃ srow, S[state]? = some srow ∧ 0 ≤ e ∧ e < srow.length) :
    ∃ r, viterbiCell prevRow T S e state = some r ∧ r.2 < T.length := by
  obtain ⟨srow, hsrow, he0, he1⟩ := hS
  obtain ⟨s, hs, _⟩ := index_eq_some he0 he1
  cases prevRow with
  | none =>
    have hlt : state < flatDistribution.length := by
      rw [flatDistribution_length]; omega
    refine ⟨(flatDistribution[state] * s, 0), ?_, by show 0 < T.length; omega⟩
    unfold viterbiCell
    simp [List.getElem?_eq_getElem hlt, hsrow, hs]
  | some row =>
    obtain ⟨r, hr, hr2⟩ := bestPrev_ok row T T.length state (hprev row rfl)
      (fun prev hp => ⟨T[prev], List.getElem?_eq_getElem hp, by
        have := hT _ (List.getElem_mem hp)
        omega⟩)
    refine ⟨(r.1 * s, r.2), ?_, by omega⟩
    unfold viterbiCell
    simp [hr, hsrow, hs]

/-- The conditions under which a row of the tables can be computed for the
symbol `e`. -/
theorem viterbiRow_ok (norm : Distribution → Distribution)
    (hnorm : ∀ v, (norm v).length = v.length)
    (prevRow : Option Distribution) (T S : Model) (e : Int) (hT2 : T.length ≤ 2)
    (hprev : ∀ row, prevRow = some row → T.length ≤ row.length)
    (hT : ∀ row ∈ T, T.length ≤ row.length)
    (hS : ∀ state < T.length, ∃ srow, S[state]? = some srow ∧ 0 ≤ e ∧ e < srow.length) :
    ∃ r, viterbiRow norm prevRow T S e = some r ∧ r.1.length = T.length ∧
      r.2.length = T.length ∧ ∀ p ∈ r.2, p < T.length := by
  have hsome : ((List.range T.length).mapM (viterbiCell prevRow T S e)).isSome := by
    rw [mapM_isSome_iff]
    intro state hstate
    have hst := List.mem_range.1 hstate
    obtain ⟨r, hr, _⟩ := viterbiCell_ok prevRow T S e state hst hT2 hprev hT (hS state hst)
    simp [hr]
  obtain ⟨cells, hcells⟩ := Option.isSome_iff_exists.1 hsome
  have hlen := mapM_length _ _ _ hcells
  refine ⟨(norm (cells.map Prod.fst), cells.map Prod.snd), ?_, ?_, ?_, ?_⟩
  · unfold viterbiRow
    rw [hcells]
    rfl
  · simp [hnorm, hlen]
  · simp [hlen]
  · intro p hp
    obtain ⟨c, hc, rfl⟩ := List.mem_map.1 hp
    obtain ⟨state, hstate, hcell⟩ := mapM_mem _ _ _ hcells c hc
    have hst := List.mem_range.1 hstate
    obtain ⟨r, hr, hr2⟩ := viterbiCell_ok prevRow T S e state hst hT2 hprev hT (hS state hst)
    rw [hr] at hcell
    cases hcell
    exact hr2

theorem viterbiSteps_cons (norm : Distribution → Distribution) (T S : Model)
    (prevRow : Option Distribution) (e : Int) (rest : List Int) :
    viterbiSteps norm T S prevRow (e :: rest)
      = (viterbiRow norm prevRow T S e).bind (fun r =>
          (viterbiSteps norm T S (some r.1) rest).bind (fun rs => some (r :: rs))) := rfl

/-- The tables have one row per observation; every row has one entry per
state and every backpointer is a state. -/
theorem viterbiSteps_ok (norm : Distribution → Distribution)
    (hnorm : ∀ v, (norm v).length = v.length) (T S : Model) (hT2 : T.length ≤ 2)
    (hT : ∀ row ∈ T, T.length ≤ row.length) :
    ∀ (o : List Int) (prevRow : Option Distribution),
      (∀ row, prevRow = some row → T.length ≤ row.length) →
      (∀ e ∈ o, ∀ state < T.length, ∃ srow, S[state]? = some srow ∧ 0 ≤ e ∧ e < srow.length) →
      ∃ rows, viterbiSteps norm T S prevRow o = some rows ∧ rows.length = o.length ∧
        ∀ r ∈ rows, r.1.length = T.length ∧ r.2.length = T.length ∧ ∀ p ∈ r.2, p < T.length
  | [], _, _, _ => ⟨[], rfl, rfl, by simp⟩
  | e :: rest, prevRow, hprev, hS => by
    obtain ⟨r, hr, hr1, hr2, hr3⟩ := viterbiRow_ok norm hnorm prevRow T S e hT2 hprev hT
      (hS e (by simp))
    obtain ⟨rs, hrs, hlen, hall⟩ := viterbiSteps_ok norm hnorm T S hT2 hT rest (some r.1)
      (fun row hrow => by cases hrow; omega) (fun x hx => hS x (List.mem_cons_of_mem _ hx))
    refine ⟨r :: rs, ?_, by simp [hlen], ?_⟩
    · rw [viterbiSteps_cons, hr, Option.some_bind, hrs, Option.some_bind]
    · intro x hx
      rcases List.mem_cons.1 hx with rfl | hx
      · exact ⟨hr1, hr2, hr3⟩
      · exact hall x hx

theorem maxIdx_lt (v : List ℚ) (hv : 0 < v.length) : maxIdx v < v.length := by
  unfold maxIdx
  have : ∀ (l : List Nat) (m : Nat), (∀ i ∈ l, i < v.length) → m < v.length →
      l.foldl (fun m i => if v.getD i 0 > v.getD m 0 then i else m) m < v.length := by
    intro l
    induction l with
    | nil => intro m _ hm; exact hm
    | cons i l ih =>
      intro m hl hm
      rw [List.foldl_cons]
      apply ih _ (fun j hj => hl j (List.mem_cons_of_mem _ hj))
      split
      · exact hl i (by simp)
      · exact hm
  apply this _ _ _ hv
  intro i hi
  rw [List.mem_range'_1] at hi
  omega

theorem traceback_ok (states : Nat) :
    ∀ (rows : List (List Nat)) (cur : Nat), cur < states →
      (∀ row ∈ rows, row.length = states ∧ ∀ p ∈ row, p < states) →
      ∃ path, traceback rows cur = some path ∧ path.length = rows.length + 1 ∧
        ∀ x ∈ path, x < states
  | [], cur, hcur, _ => ⟨[cur], rfl, rfl, by simpa using hcur⟩
  | row :: rest, cur, hcur, hrows => by
    obtain ⟨hlen, hp⟩ := hrows row (by simp)
    have hc : cur < row.length := by omega
    obtain ⟨path, hpath, hl, hx⟩ := traceback_ok states rest row[cur]
      (hp _ (List.getElem_mem hc)) (fun r hr => hrows r (List.mem_cons_of_mem _ hr))
    refine ⟨path ++ [cur], ?_, by simp [hl], ?_⟩
    · simp [traceback, List.getElem?_eq_getElem hc, hpath]
    · intro x hx1
      rcases List.mem_append.1 hx1 with h | h
      · exact hx x h
      · simp at h
        omega

theorem viterbiWith_unfold (norm : Distribution → Distribution) (o : List Int) (T S : Model) :
    viterbiWith norm o T S
      = (viterbiSteps norm T S none o).bind (fun rows =>
          ((rows.map Prod.fst).getLast?).bind (fun lastRow =>
            traceback ((rows.map Prod.snd).drop 1).reverse (maxIdx lastRow))) := by
  unfold viterbiWith viterbiTables
  cases viterbiSteps norm T S none o <;> rfl

theorem viterbiWith_ok (norm : Distribution → Distribution)
    (hnorm : ∀ v, (norm v).length = v.length) (o : List Int) (T S : Model)
    (ho : o ≠ []) (hT1 : 0 < T.length) (hT2 : T.length ≤ 2)
    (hT : ∀ row ∈ T, T.length ≤ row.length)
    (hS : ∀ e ∈ o, ∀ state < T.length, ∃ srow, S[state]? = some srow ∧ 0 ≤ e ∧ e < srow.length) :
    ∃ path, viterbiWith norm o T S = some path ∧ path.length = o.length ∧
      ∀ x ∈ path, x < T.length := by
  obtain ⟨rows, hrows, hlen, hall⟩ := viterbiSteps_ok norm hnorm T S hT2 hT o none
    (fun row h => by cases h) hS
  have hne : rows ≠ [] := by
    intro h
    rw [h] at hlen
    exact ho (List.length_eq_zero.1 hlen.symm)
  have hlast : (rows.map Prod.fst).getLast? = some (rows.getLast hne).1 := by
    rw [List.getLast?_map, List.getLast?_eq_getLast _ hne]
    rfl
  have hl := (hall _ (List.getLast_mem hne)).1
  obtain ⟨path, hpath, hplen, hx⟩ := traceback_ok T.length
    ((rows.map Prod.snd).drop 1).reverse (maxIdx (rows.getLast hne).1)
    (by have := maxIdx_lt (rows.getLast hne).1 (by omega); omega)
    (fun row hrow => by
      have h1 : row ∈ rows.map Prod.snd := List.mem_of_mem_drop (List.mem_reverse.1 hrow)
      obtain ⟨r, hr, rfl⟩ := List.mem_map.1 h1
      exact (hall r hr).2)
  refine ⟨path, ?_, ?_, hx⟩
  · rw [viterbiWith_unfold, hrows, Option.some_bind, hlast, Option.some_bind, hpath]
  · rw [hplen]
    have : 0 < o.length := List.length_pos.2 ho
    simp
    omega
/-! ## C2: the shape of the result of `viterbi` -/

/-- C2, counterexample: `viterbi` fails on the empty observation sequence
(`values[steps - 1]` with `steps = 0`), on a model with three states (the flat
distribution has two entries), and on a symbol that is not a column of `S`;
and for a model without states it returns `[0]`, whose entry is not below
`len(T) = 0`. -/
theorem viterbi_shape_counterexample :
    viterbi [] exampleT exampleS = none ∧
      viterbi [0] threeT threeT = none ∧
      viterbi [2] exampleT exampleS = none ∧
      viterbi [0] [] [] = some [0] :=
  ⟨rfl, rfl, rfl, rfl⟩

/-- C2, amended: for every non-empty observation sequence `o`, every
TransitionModel `T` with one or two rows, each of at least `len(T)` entries,
and every SensorModel `S` in which every `o[k]` is a column of each of the
first `len(T)` rows, `viterbi(o, T, S)` returns, without failing, a sequence of
length `len(o)` in which every entry is in `[0, len(T))`. -/
theorem viterbi_shape (o : List Int) (T : TransitionModel) (S : SensorModel)
    (ho : o ≠ []) (hT1 : 0 < T.length) (hT2 : T.length ≤ 2)
    (hT : ∀ row ∈ T, T.length ≤ row.length)
    (hS : ∀ e ∈ o, ∀ state < T.length, ∃ srow, S[state]? = some srow ∧ 0 ≤ e ∧ e < srow.length) :
    ∃ path, viterbi o T S = some path ∧ path.length = o.length ∧ ∀ x ∈ path, x < T.length :=
  viterbiWith_ok normalize normalize_length o T S ho hT1 hT2 hT hS

theorem viterbi_shape_witness :
    ∃ path, viterbi [0, 2, 1] exampleT wideS = some path ∧
      path.length = ([0, 2, 1] : List Int).length ∧ ∀ x ∈ path, x < exampleT.length :=
  viterbi_shape [0, 2, 1] exampleT wideS (by decide) (by decide) (by decide) (by decide)
    (by decide)

/-! ## The inner loop of `viterbi` -/

theorem bestPrevStep_some {prevRow : Distribution} {T : Model} {state prev : Nat}
    {acc r : ℚ × Nat} (h : bestPrevStep prevRow T state acc prev = some r) :
    r = if coord prevRow prev * entry T prev state > acc.1
          then (coord prevRow prev * entry T prev state, prev) else acc := by
  unfold bestPrevStep at h
  cases hv : prevRow[prev]? with
  | none => simp [hv] at h
  | some v =>
    cases hrow : T[prev]? with
    | none => simp [hv, hrow] at h
    | some row =>
      cases ht : row[state]? with
      | none => simp [hv, hrow, ht] at h
      | some t =>
        simp only [hv, hrow, ht, Option.bind_eq_bind, Option.some_bind, Option.pure_def,
          Option.some.injEq] at h
        have h1 : coord prevRow prev = v := by simp [coord, hv]
        have h2 : entry T prev state = t := by simp [entry, hrow, ht]
        rw [h1, h2]
        exact h.symm

/-- The state of the loop over `prev` after the candidates `c 0, ..., c (k-1)`
have been seen: `acc.1` is the largest of `0` and the candidates, and `acc.2`
is the first index that reaches it when it is positive, `0` otherwise. -/
theorem bestPrev_inv (prevRow : Distribution) (T : Model) (state : Nat) :
    ∀ (n : Nat) (r : ℚ × Nat), bestPrev prevRow T n state = some r →
      0 ≤ r.1 ∧ (∀ j < n, coord prevRow j * entry T j state ≤ r.1) ∧
      (r.1 = 0 → r.2 = 0) ∧
      (0 < r.1 → r.2 < n ∧ coord prevRow r.2 * entry T r.2 state = r.1 ∧
        ∀ j < r.2, coord prevRow j * entry T j state < r.1)
  | 0, r, h => by
    have : r = (0, 0) := by
      unfold bestPrev at h
      simpa using h.symm
    subst this
    simp
  | n + 1, r, h => by
    unfold bestPrev at h
    rw [List.range_succ, foldlM_snoc_option] at h
    cases hacc : (List.range n).foldlM (bestPrevStep prevRow T state) ((0 : ℚ), 0) with
    | none => rw [hacc] at h; cases h
    | some acc =>
      rw [hacc, Option.some_bind] at h
      obtain ⟨h0, hle, hz, hpos⟩ := bestPrev_inv prevRow T state n acc hacc
      have hr := bestPrevStep_some h
      by_cases hgt : coord prevRow n * entry T n state > acc.1
      · rw [if_pos hgt] at hr
        subst hr
        have hgt1 : acc.1 < coord prevRow n * entry T n state := hgt
        refine ⟨by simp only; linarith, ?_, ?_, ?_⟩
        · intro j hj
          rcases Nat.lt_succ_iff_lt_or_eq.1 hj with h1 | h1
          · have := hle j h1
            simp only
            linarith
          · subst h1
            exact le_refl _
        · intro h1
          simp only at h1
          linarith
        · intro _
          refine ⟨Nat.lt_succ_self n, rfl, ?_⟩
          intro j hj
          have := hle j hj
          simp only
          linarith
      · rw [if_neg hgt] at hr
        subst hr
        push_neg at hgt
        refine ⟨h0, ?_, hz, ?_⟩
        · intro j hj
          rcases Nat.lt_succ_iff_lt_or_eq.1 hj with h1 | h1
          · exact hle j h1
          · subst h1
            exact hgt
        · intro hp
          obtain ⟨h1, h2, h3⟩ := hpos hp
          exact ⟨Nat.lt_succ_of_lt h1, h2, h3⟩

/-! ## The rows of the Viterbi tables -/

theorem viterbiSteps_getElem? (norm : Distribution → Distribution) (T S : Model) :
    ∀ (o : List Int) (prevRow : Option Distribution) (rows : List (Distribution × List Nat)),
      viterbiSteps norm T S prevRow o = some rows → ∀ k, k < o.length →
      ∃ r e, rows[k]? = some r ∧ o[k]? = some e ∧
        viterbiRow norm (if k = 0 then prevRow else (rows[k - 1]?).map Prod.fst) T S e = some r
  | [], _, _, _, k, hk => by simp at hk
  | e :: rest, prevRow, rows, h, k, hk => by
    rw [viterbiSteps_cons] at h
    cases hr : viterbiRow norm prevRow T S e with
    | none => rw [hr] at h; cases h
    | some r =>
      cases hrs : viterbiSteps norm T S (some r.1) rest with
      | none => rw [hr, Option.some_bind, hrs] at h; cases h
      | some rs =>
        rw [hr, Option.some_bind, hrs, Option.some_bind] at h
        cases h
        cases k with
        | zero => exact ⟨r, e, by simp, by simp, by simpa using hr⟩
        | succ k =>
          have hk1 : k < rest.length := by simpa using hk
          obtain ⟨r1, e1, h1, h2, h3⟩ :=
            viterbiSteps_getElem? norm T S rest (some r.1) rs hrs k hk1
          refine ⟨r1, e1, by simpa using h1, by simpa using h2, ?_⟩
          cases k with
          | zero => simpa using h3
          | succ k => simpa using h3

theorem viterbiRow_getElem? {norm : Distribution → Distribution} {prevRow : Option Distribution}
    {T S : Model} {e : Int} {r : Distribution × List Nat}
    (h : viterbiRow norm prevRow T S e = some r) (s : Nat) (hs : s < T.length) :
    ∃ cell, viterbiCell prevRow T S e s = some cell ∧ r.2[s]? = some cell.2 := by
  unfold viterbiRow at h
  cases hc : (List.range T.length).mapM (viterbiCell prevRow T S e) with
  | none => rw [hc] at h; cases h
  | some cells =>
    rw [hc] at h
    cases h
    obtain ⟨cell, h1, h2⟩ := mapM_range_getElem? _ _ _ hc s hs
    exact ⟨cell, h2, by simp [h1]⟩

theorem viterbiCell_some {row : Distribution} {T S : Model} {e : Int} {s : Nat}
    {cell : ℚ × Nat} (h : viterbiCell (some row) T S e s = some cell) :
    ∃ r, bestPrev row T T.length s = some r ∧ cell.2 = r.2 := by
  unfold viterbiCell at h
  cases hb : bestPrev row T T.length s with
  | none => simp [hb] at h
  | some r =>
    refine ⟨r, rfl, ?_⟩
    cases hsrow : S[s]? with
    | none => simp [hb, hsrow] at h
    | some srow =>
      cases hi : index srow e with
      | none => simp [hb, hsrow, hi] at h
      | some x =>
        simp [hb, hsrow, hi] at h
        rw [← h]

/-! ## C9: the backpointers -/

/-- C9: in the tables built by `viterbi`, for every step `k > 0` and every
state `s`, with the candidates `c j = values[k-1][j] * T[j][s]`: when some
candidate is strictly positive, `prevState[k][s]` is a state `p` whose
candidate is the largest and every lower-indexed candidate is strictly
smaller; when no candidate is strictly positive (in particular when they are
all zero), `prevState[k][s]` is `0`. -/
theorem viterbi_backpointer (o : List Int) (T : TransitionModel) (S : SensorModel)
    (values : List Distribution) (prevState : List (List Nat))
    (h : viterbiTables normalize o T S = some (values, prevState))
    (k s : Nat) (hk0 : 0 < k) (hk : k < o.length) (hs : s < T.length) :
    ∃ vrow brow p, values[k - 1]? = some vrow ∧ prevState[k]? = some brow ∧ brow[s]? = some p ∧
      ((∃ j < T.length, 0 < coord vrow j * entry T j s) →
        p < T.length ∧ 0 < coord vrow p * entry T p s ∧
        (∀ j < T.length, coord vrow j * entry T j s ≤ coord vrow p * entry T p s) ∧
        (∀ j < p, coord vrow j * entry T j s < coord vrow p * entry T p s)) ∧
      ((∀ j < T.length, ¬ 0 < coord vrow j * entry T j s) → p = 0) := by
  unfold viterbiTables at h
  cases hrows : viterbiSteps normalize T S none o with
  | none => rw [hrows] at h; cases h
  | some rows =>
    rw [hrows] at h
    cases h
    obtain ⟨r, e, hr, _, hrow⟩ := viterbiSteps_getElem? normalize T S o none rows hrows k hk
    rw [if_neg (by omega)] at hrow
    obtain ⟨r0, _, hr0, _, _⟩ :=
      viterbiSteps_getElem? normalize T S o none rows hrows (k - 1) (by omega)
    rw [hr0] at hrow
    obtain ⟨cell, hcell, hp⟩ := viterbiRow_getElem? hrow s hs
    obtain ⟨acc, hacc, hc2⟩ := viterbiCell_some hcell
    obtain ⟨h0, hle, hz, hpos⟩ := bestPrev_inv r0.1 T s T.length acc hacc
    refine ⟨r0.1, r.2, cell.2, by simp [hr0], by simp [hr], hp, ?_, ?_⟩
    · rintro ⟨j, hj, hcj⟩
      have hacc1 : 0 < acc.1 := lt_of_lt_of_le hcj (hle j hj)
      obtain ⟨h1, h2, h3⟩ := hpos hacc1
      rw [hc2]
      refine ⟨h1, by rw [h2]; exact hacc1, ?_, ?_⟩
      · intro i hi
        rw [h2]
        exact hle i hi
      · intro i hi
        rw [h2]
        exact h3 i hi
    · intro hnone
      rw [hc2]
      apply hz
      by_contra hne
      have hacc1 : 0 < acc.1 := lt_of_le_of_ne h0 (Ne.symm hne)
      obtain ⟨h1, h2, _⟩ := hpos hacc1
      exact hnone acc.2 h1 (by rw [h2]; exact hacc1)

/-! ## The Viterbi tables of a two-state model -/

theorem bestPrev_two (v0 v1 a b c d : ℚ) :
    bestPrev [v0, v1] [[a, b], [c, d]] 2 0 = some (bestOfTwo (v0 * a) (v1 * c)) ∧
    bestPrev [v0, v1] [[a, b], [c, d]] 2 1 = some (bestOfTwo (v0 * b) (v1 * d)) :=
  ⟨rfl, rfl⟩

theorem viterbiRow_two_start (norm : Distribution → Distribution) (a b c d : ℚ) (S : Model)
    (e : Int) (s0 s1 : Distribution) (x0 x1 : ℚ) (h0 : S[0]? = some s0) (h1 : S[1]? = some s1)
    (hx0 : index s0 e = some x0) (hx1 : index s1 e = some x1) :
    viterbiRow norm none [[a, b], [c, d]] S e = some (norm [1/2 * x0, 1/2 * x1], [0, 0]) := by
  unfold viterbiRow
  simp only [List.length_cons, List.length_nil, Nat.reduceAdd, range_two, mapM_cons_option, mapM_nil_option]
  simp [viterbiCell, h0, h1, hx0, hx1, flatDistribution]

theorem viterbiRow_two (norm : Distribution → Distribution) (v0 v1 a b c d : ℚ) (S : Model)
    (e : Int) (s0 s1 : Distribution) (x0 x1 : ℚ) (h0 : S[0]? = some s0) (h1 : S[1]? = some s1)
    (hx0 : index s0 e = some x0) (hx1 : index s1 e = some x1) :
    viterbiRow norm (some [v0, v1]) [[a, b], [c, d]] S e
      = some (norm [(bestOfTwo (v0 * a) (v1 * c)).1 * x0, (bestOfTwo (v0 * b) (v1 * d)).1 * x1],
          [(bestOfTwo (v0 * a) (v1 * c)).2, (bestOfTwo (v0 * b) (v1 * d)).2]) := by
  unfold viterbiRow
  simp only [List.length_cons, List.length_nil, Nat.reduceAdd, range_two, mapM_cons_option, mapM_nil_option]
  simp [viterbiCell, h0, h1, hx0, hx1, (bestPrev_two v0 v1 a b c d).1, (bestPrev_two v0 v1 a b c d).2]

theorem viterbiTables_uniform :
    viterbiTables normalize [0, 0] uniformModel uniformModel
      = some ([[1/2, 1/2], [1/2, 1/2]], [[0, 0], [0, 0]]) := by
  have hi : index ([1/2, 1/2] : Distribution) 0 = some (1/2) := rfl
  have hrow0 : viterbiRow normalize none uniformModel uniformModel 0
      = some ([1/2, 1/2], [0, 0]) := by
    rw [show uniformModel = [[1/2, 1/2], [1/2, 1/2]] from rfl,
      viterbiRow_two_start normalize _ _ _ _ _ 0 [1/2, 1/2] [1/2, 1/2] (1/2) (1/2) rfl rfl hi hi,
      normalize_two]
    norm_num
  have hrow1 : viterbiRow normalize (some [1/2, 1/2]) uniformModel uniformModel 0
      = some ([1/2, 1/2], [0, 0]) := by
    rw [show uniformModel = [[1/2, 1/2], [1/2, 1/2]] from rfl,
      viterbiRow_two normalize _ _ _ _ _ _ _ 0 [1/2, 1/2] [1/2, 1/2] (1/2) (1/2) rfl rfl hi hi,
      normalize_two]
    norm_num [bestOfTwo]
  unfold viterbiTables
  rw [viterbiSteps_cons, hrow0, Option.some_bind, viterbiSteps_cons, hrow1]
  rfl

theorem viterbi_backpointer_witness :
    viterbiTables normalize [0, 0] uniformModel uniformModel
        = some ([[1/2, 1/2], [1/2, 1/2]], [[0, 0], [0, 0]]) ∧
    ∃ vrow brow p, ([[1/2, 1/2], [1/2, 1/2]] : List Distribution)[1 - 1]? = some vrow ∧
      ([[0, 0], [0, 0]] : List (List Nat))[1]? = some brow ∧ brow[1]? = some p ∧
      ((∃ j < uniformModel.length, 0 < coord vrow j * entry uniformModel j 1) →
        p < uniformModel.length ∧ 0 < coord vrow p * entry uniformModel p 1 ∧
        (∀ j < uniformModel.length,
          coord vrow j * entry uniformModel j 1 ≤ coord vrow p * entry uniformModel p 1) ∧
        (∀ j < p, coord vrow j * entry uniformModel j 1 < coord vrow p * entry uniformModel p 1)) ∧
      ((∀ j < uniformModel.length, ¬ 0 < coord vrow j * entry uniformModel j 1) → p = 0) :=
  ⟨viterbiTables_uniform,
    viterbi_backpointer [0, 0] uniformModel uniformModel _ _ viterbiTables_uniform 1 1
      (by decide) (by decide) (by decide)⟩

/-! ## Normalization does not change the decisions of `viterbi` -/

theorem bestOfTwo_scale (l x y : ℚ) (hl : 0 < l) :
    bestOfTwo (l * x) (l * y) = (l * (bestOfTwo x y).1, (bestOfTwo x y).2) := by
  unfold bestOfTwo
  by_cases hx : x > 0
  · have hlx : l * x > 0 := mul_pos hl hx
    simp only [hx, hlx, if_true]
    by_cases hy : y > x
    · have hly : l * y > l * x := mul_lt_mul_of_pos_left hy hl
      simp only [hy, hly, if_true]
    · have hly : ¬ l * y > l * x := fun h => hy (lt_of_mul_lt_mul_left h hl.le)
      simp only [hy, hly, if_false]
  · have hlx : ¬ l * x > 0 := fun h => hx (pos_of_mul_pos_right h hl.le)
    simp only [hx, hlx, if_false]
    by_cases hy : y > 0
    · have hly : l * y > 0 := mul_pos hl hy
      simp only [hy, hly, if_true]
    · have hly : ¬ l * y > 0 := fun h => hy (pos_of_mul_pos_right h hl.le)
      simp only [hy, hly, if_false, mul_zero]

theorem bestOfTwo_nonneg (x y : ℚ) : 0 ≤ (bestOfTwo x y).1 := by
  unfold bestOfTwo
  by_cases hx : x > 0
  · by_cases hy : y > x
    · simp only [hx, hy, if_true]; linarith
    · simp only [hx, hy, if_true, if_false]; linarith
  · by_cases hy : y > 0
    · simp only [hx, hy, if_true, if_false]; linarith
    · simp only [hx, hy, if_false]; exact le_refl _

theorem normalize_two_scale (x y : ℚ) (hx : 0 ≤ x) (hy : 0 ≤ y) :
    ∃ m : ℚ, 0 < m ∧ normalize [x, y] = [m * x, m * y] := by
  rw [normalize_two]
  by_cases h : x + y = 0
  · have hx0 : x = 0 := by linarith
    have hy0 : y = 0 := by linarith
    exact ⟨1, one_pos, by simp [hx0, hy0]⟩
  · have hpos : 0 < x + y := lt_of_le_of_ne (add_nonneg hx hy) (Ne.symm h)
    exact ⟨(x + y)⁻¹, inv_pos.2 hpos, by simp [div_eq_inv_mul]⟩

theorem maxIdx_two (x y : ℚ) : maxIdx [x, y] = if y > x then 1 else 0 := by
  simp [maxIdx]

theorem maxIdx_two_scale (l x y : ℚ) (hl : 0 < l) : maxIdx [l * x, l * y] = maxIdx [x, y] := by
  rw [maxIdx_two, maxIdx_two]
  by_cases h : y > x
  · rw [if_pos h, if_pos (mul_lt_mul_of_pos_left h hl)]
  · rw [if_neg h, if_neg (fun h1 => h (lt_of_mul_lt_mul_left h1 hl.le))]

theorem viterbiRow_two_none (norm : Distribution → Distribution) (prevRow : Option Distribution)
    (a b c d : ℚ) (S : Model) (e : Int)
    (h : ¬ ∃ s0 s1 x0 x1, S[0]? = some s0 ∧ S[1]? = some s1 ∧ index s0 e = some x0 ∧
      index s1 e = some x1) :
    viterbiRow norm prevRow [[a, b], [c, d]] S e = none := by
  unfold viterbiRow
  simp only [List.length_cons, List.length_nil, Nat.reduceAdd, range_two, mapM_cons_option,
    mapM_nil_option]
  cases h0 : S[0]? with
  | none => simp [viterbiCell, h0]
  | some s0 =>
    cases hx0 : index s0 e with
    | none => simp [viterbiCell, h0, hx0]
    | some x0 =>
      cases h1 : S[1]? with
      | none =>
        cases viterbiCell prevRow [[a, b], [c, d]] S e 0 <;> simp [viterbiCell, h1]
      | some s1 =>
        cases hx1 : index s1 e with
        | none =>
          cases viterbiCell prevRow [[a, b], [c, d]] S e 0 <;> simp [viterbiCell, h1, hx1]
        | some x1 => exact absurd ⟨s0, s1, x0, x1, h0, h1, hx0, hx1⟩ h

theorem index_mem {xs : Distribution} {e : Int} {x : ℚ} (h : index xs e = some x) : x ∈ xs := by
  unfold index at h
  split at h
  · cases h
  · exact List.getElem?_mem h

theorem sensor_nonneg {S : Model} (hS : NonNeg S) {i : Nat} {row : Distribution} {e : Int}
    {x : ℚ} (hrow : S[i]? = some row) (hx : index row e = some x) : 0 ≤ x :=
  hS row (List.getElem?_mem hrow) x (index_mem hx)

/-- One row: from proportional rows `values[step-1]`, the normalized and the
unnormalized computation fail together, or give the same backpointers and
proportional non-negative values. -/
theorem viterbiRow_rel (a b c d : ℚ) (S : Model)
    (hS : NonNeg S) (e : Int) (l x y : ℚ) (hl : 0 < l) :
    (viterbiRow normalize (some [l * x, l * y]) [[a, b], [c, d]] S e = none ∧
      viterbiRow id (some [x, y]) [[a, b], [c, d]] S e = none) ∨
    ∃ (m x1 y1 : ℚ) (ps : List Nat), 0 < m ∧ 0 ≤ x1 ∧ 0 ≤ y1 ∧
      viterbiRow normalize (some [l * x, l * y]) [[a, b], [c, d]] S e
        = some ([m * x1, m * y1], ps) ∧
      viterbiRow id (some [x, y]) [[a, b], [c, d]] S e = some ([x1, y1], ps) := by
  by_cases h : ∃ s0 s1 x0 x1, S[0]? = some s0 ∧ S[1]? = some s1 ∧ index s0 e = some x0 ∧
      index s1 e = some x1
  · right
    obtain ⟨s0, s1, x0, x1, h0, h1, hx0, hx1⟩ := h
    have hx0n := sensor_nonneg hS h0 hx0
    have hx1n := sensor_nonneg hS h1 hx1
    rw [viterbiRow_two normalize _ _ a b c d S e s0 s1 x0 x1 h0 h1 hx0 hx1,
      viterbiRow_two id _ _ a b c d S e s0 s1 x0 x1 h0 h1 hx0 hx1]
    rw [mul_assoc l x a, mul_assoc l y c, mul_assoc l x b, mul_assoc l y d,
      bestOfTwo_scale l _ _ hl, bestOfTwo_scale l _ _ hl]
    simp only [id]
    have hn0 : 0 ≤ (bestOfTwo (x * a) (y * c)).1 * x0 := mul_nonneg (bestOfTwo_nonneg _ _) hx0n
    have hn1 : 0 ≤ (bestOfTwo (x * b) (y * d)).1 * x1 := mul_nonneg (bestOfTwo_nonneg _ _) hx1n
    obtain ⟨m, hm, hnorm⟩ := normalize_two_scale
      (l * ((bestOfTwo (x * a) (y * c)).1 * x0)) (l * ((bestOfTwo (x * b) (y * d)).1 * x1))
      (mul_nonneg hl.le hn0) (mul_nonneg hl.le hn1)
    refine ⟨m * l, _, _, _, mul_pos hm hl, hn0, hn1, ?_, rfl⟩
    rw [mul_assoc l _ x0, mul_assoc l _ x1, hnorm, mul_assoc m l, mul_assoc m l]
  · left
    exact ⟨viterbiRow_two_none _ _ a b c d S e h, viterbiRow_two_none _ _ a b c d S e h⟩

theorem viterbiRow_start_rel (a b c d : ℚ) (S : Model) (hS : NonNeg S) (e : Int) :
    (viterbiRow normalize none [[a, b], [c, d]] S e = none ∧
      viterbiRow id none [[a, b], [c, d]] S e = none) ∨
    ∃ (m x1 y1 : ℚ) (ps : List Nat), 0 < m ∧ 0 ≤ x1 ∧ 0 ≤ y1 ∧
      viterbiRow normalize none [[a, b], [c, d]] S e = some ([m * x1, m * y1], ps) ∧
      viterbiRow id none [[a, b], [c, d]] S e = some ([x1, y1], ps) := by
  by_cases h : ∃ s0 s1 x0 x1, S[0]? = some s0 ∧ S[1]? = some s1 ∧ index s0 e = some x0 ∧
      index s1 e = some x1
  · right
    obtain ⟨s0, s1, x0, x1, h0, h1, hx0, hx1⟩ := h
    have hx0n := sensor_nonneg hS h0 hx0
    have hx1n := sensor_nonneg hS h1 hx1
    rw [viterbiRow_two_start normalize a b c d S e s0 s1 x0 x1 h0 h1 hx0 hx1,
      viterbiRow_two_start id a b c d S e s0 s1 x0 x1 h0 h1 hx0 hx1]
    have hn0 : (0 : ℚ) ≤ 1 / 2 * x0 := mul_nonneg (by norm_num) hx0n
    have hn1 : (0 : ℚ) ≤ 1 / 2 * x1 := mul_nonneg (by norm_num) hx1n
    obtain ⟨m, hm, hnorm⟩ := normalize_two_scale _ _ hn0 hn1
    exact ⟨m, _, _, _, hm, hn0, hn1, by rw [hnorm], rfl⟩
  · left
    exact ⟨viterbiRow_two_none _ _ a b c d S e h, viterbiRow_two_none _ _ a b c d S e h⟩

/-- The rows after the first: the two computations fail together, or give
the same backpointers and proportional last rows. -/
theorem viterbiSteps_rel (a b c d : ℚ) (S : Model) (hS : NonNeg S) :
    ∀ (o : List Int) (l x y : ℚ), 0 < l →
      (viterbiSteps normalize [[a, b], [c, d]] S (some [l * x, l * y]) o = none ∧
        viterbiSteps id [[a, b], [c, d]] S (some [x, y]) o = none) ∨
      ∃ (rows rows1 : List (Distribution × List Nat)) (m x1 y1 : ℚ), 0 < m ∧
        viterbiSteps normalize [[a, b], [c, d]] S (some [l * x, l * y]) o = some rows ∧
        viterbiSteps id [[a, b], [c, d]] S (some [x, y]) o = some rows1 ∧
        rows.map Prod.snd = rows1.map Prod.snd ∧
        ([l * x, l * y] :: rows.map Prod.fst).getLast? = some [m * x1, m * y1] ∧
        ([x, y] :: rows1.map Prod.fst).getLast? = some [x1, y1]
  | [], l, x, y, hl => Or.inr ⟨[], [], l, x, y, hl, rfl, rfl, rfl, rfl, rfl⟩
  | e :: rest, l, x, y, hl => by
    rw [viterbiSteps_cons, viterbiSteps_cons]
    rcases viterbiRow_rel a b c d S hS e l x y hl with ⟨h1, h2⟩ | ⟨m, x1, y1, ps, hm, _, _, h1, h2⟩
    · left
      rw [h1, h2]
      exact ⟨rfl, rfl⟩
    · rw [h1, h2, Option.some_bind, Option.some_bind]
      rcases viterbiSteps_rel a b c d S hS rest m x1 y1 hm with
        ⟨h3, h4⟩ | ⟨rows, rows1, m2, x2, y2, hm2, h3, h4, h5, h6, h7⟩
      · left
        rw [h3, h4]
        exact ⟨rfl, rfl⟩
      · right
        rw [h3, h4]
        refine ⟨_, _, m2, x2, y2, hm2, rfl, rfl, ?_, ?_, ?_⟩
        · simp [h5]
        · simpa [List.getLast?_cons_cons] using h6
        · simpa [List.getLast?_cons_cons] using h7

/-- C8 in the form used below: on a two-state model with a non-negative
sensor model, the normalized and the unnormalized decoder agree, failures
included. -/
theorem viterbiWith_normalize_eq_id (a b c d : ℚ) (S : Model) (hS : NonNeg S) (o : List Int) :
    viterbiWith normalize o [[a, b], [c, d]] S = viterbiWith id o [[a, b], [c, d]] S := by
  rw [viterbiWith_unfold, viterbiWith_unfold]
  cases o with
  | nil => rfl
  | cons e rest =>
    rw [viterbiSteps_cons, viterbiSteps_cons]
    rcases viterbiRow_start_rel a b c d S hS e with ⟨h1, h2⟩ | ⟨m, x1, y1, ps, hm, _, _, h1, h2⟩
    · rw [h1, h2]
      rfl
    · rw [h1, h2, Option.some_bind, Option.some_bind]
      rcases viterbiSteps_rel a b c d S hS rest m x1 y1 hm with
        ⟨h3, h4⟩ | ⟨rows, rows1, m2, x2, y2, hm2, h3, h4, h5, h6, h7⟩
      · rw [h3, h4]
        rfl
      · rw [h3, h4]
        simp only [Option.some_bind, List.map_cons, List.drop_succ_cons, List.drop_zero]
        rw [h6, h7, h5]
        simp only [Option.some_bind]
        rw [maxIdx_two_scale m2 x2 y2 hm2]

/-! ## Optimality of the unnormalized decoder on two states -/

theorem entry_nonneg {m : Model} (h : NonNeg m) (i j : Nat) : 0 ≤ entry m i j := by
  unfold entry
  rcases Nat.lt_or_ge i m.length with hi | hi
  · rw [List.getD_eq_getElem _ _ hi]
    rcases Nat.lt_or_ge j m[i].length with hj | hj
    · rw [List.getD_eq_getElem _ _ hj]
      exact h _ (List.getElem_mem hi) _ (List.getElem_mem hj)
    · rw [List.getD_eq_default _ _ hj]
  · rw [List.getD_eq_default _ _ hi]
    simp

theorem scoreFrom_nonneg {T S : Model} (hT : NonNeg T) (hS : NonNeg S) :
    ∀ (xs : List Nat) (o : List Int) (prev : Nat), 0 ≤ scoreFrom T S prev xs o
  | [], _, _ => by simp [scoreFrom]
  | _ :: _, [], _ => by simp [scoreFrom]
  | x :: xs, e :: os, prev => by
    rw [scoreFrom]
    exact mul_nonneg (mul_nonneg (entry_nonneg hT _ _) (entry_nonneg hS _ _))
      (scoreFrom_nonneg hT hS xs os x)

theorem bestOfTwo_ge (x y : ℚ) : x ≤ (bestOfTwo x y).1 ∧ y ≤ (bestOfTwo x y).1 := by
  unfold bestOfTwo
  by_cases hx : x > 0
  · by_cases hy : y > x
    · simp only [hx, hy, if_true]
      exact ⟨le_of_lt hy, le_refl _⟩
    · simp only [hx, hy, if_true, if_false]
      exact ⟨le_refl _, not_lt.1 hy⟩
  · by_cases hy : y > 0
    · simp only [hx, hy, if_true, if_false]
      exact ⟨le_trans (not_lt.1 hx) (le_of_lt hy), le_refl _⟩
    · simp only [hx, hy, if_false]
      exact ⟨not_lt.1 hx, not_lt.1 hy⟩

theorem bestOfTwo_snd (x y : ℚ) (hx : 0 ≤ x) :
    ((bestOfTwo x y).2 = 0 ∧ (bestOfTwo x y).1 = x) ∨
    ((bestOfTwo x y).2 = 1 ∧ (bestOfTwo x y).1 = y) := by
  unfold bestOfTwo
  by_cases hx1 : x > 0
  · by_cases hy : y > x
    · simp [hx1, hy]
    · simp [hx1, hy]
  · by_cases hy : y > 0
    · simp [hx1, hy]
    · have : x = 0 := le_antisymm (not_lt.1 hx1) hx
      simp [hx1, hy, this]

theorem traceback_cons (row : List Nat) (rest : List (List Nat)) (cur : Nat) :
    traceback (row :: rest) cur
      = (row[cur]?).bind (fun p => (traceback rest p).bind (fun path => some (path ++ [cur]))) :=
  rfl

theorem traceback_ne_nil : ∀ (rows : List (List Nat)) (cur : Nat) (path : List Nat),
    traceback rows cur = some path → path ≠ [] ∧ path.getLast? = some cur
  | [], cur, path, h => by
    simp only [traceback, Option.some.injEq] at h
    subst h
    simp
  | row :: rest, cur, path, h => by
    simp only [traceback, Option.bind_eq_bind, Option.pure_def] at h
    cases hp : row[cur]? with
    | none => simp [hp] at h
    | some p =>
      cases ht : traceback rest p with
      | none => simp [hp, ht] at h
      | some path1 =>
        simp [hp, ht] at h
        subst h
        simp

theorem traceback_snoc : ∀ (l : List (List Nat)) (row : List Nat) (cur : Nat),
    traceback (l ++ [row]) cur
      = (traceback l cur).bind (fun path => (row[path.headD 0]?).map (fun p => p :: path))
  | [], row, cur => by
    rw [List.nil_append, traceback_cons]
    simp only [traceback, Option.some_bind, List.headD_cons]
    cases row[cur]? <;> rfl
  | r :: l, row, cur => by
    rw [List.cons_append, traceback_cons, traceback_cons]
    cases hp : r[cur]? with
    | none => rfl
    | some p =>
      simp only [Option.some_bind]
      rw [traceback_snoc l row p]
      cases ht : traceback l p with
      | none => rfl
      | some path =>
        have hne := (traceback_ne_nil l p path ht).1
        simp only [Option.some_bind]
        have hhead : (path ++ [cur]).headD 0 = path.headD 0 := by
          cases path with
          | nil => exact absurd rfl hne
          | cons x xs => rfl
        rw [hhead]
        cases row[path.headD 0]? <;> rfl

theorem index_entry {S : Model} {i : Nat} {row : Distribution} {e : Int} {x : ℚ}
    (hrow : S[i]? = some row) (hx : index row e = some x) : entry S i e.toNat = x := by
  unfold index at hx
  split at hx
  · cases hx
  · simp [entry, hrow, hx]

theorem lt_two {n : Nat} (h : n < 2) : n = 0 ∨ n = 1 := by omega

/-- One row of the unnormalized tables on two states: every new value is
reached from the state its backpointer names, and no transition does better. -/
theorem viterbiRow_id_spec (a b c d : ℚ) (S : Model) (hT : NonNeg [[a, b], [c, d]])
    (hS : NonNeg S) (e : Int) (v0 v1 : ℚ) (hv0 : 0 ≤ v0)
    (r : Distribution × List Nat)
    (h : viterbiRow id (some [v0, v1]) [[a, b], [c, d]] S e = some r) :
    ∃ (w0 w1 : ℚ) (p0 p1 : Nat), r = ([w0, w1], [p0, p1]) ∧ 0 ≤ w0 ∧ 0 ≤ w1 ∧ p0 < 2 ∧ p1 < 2 ∧
      (∀ s < 2, coord [v0, v1] (([p0, p1] : List Nat).getD s 0) *
          (entry [[a, b], [c, d]] (([p0, p1] : List Nat).getD s 0) s * entry S s e.toNat)
        = coord [w0, w1] s) ∧
      (∀ q0 < 2, ∀ q1 < 2,
        coord [v0, v1] q0 * (entry [[a, b], [c, d]] q0 q1 * entry S q1 e.toNat)
          ≤ coord [w0, w1] q1) := by
  by_cases hs : ∃ s0 s1 x0 x1, S[0]? = some s0 ∧ S[1]? = some s1 ∧ index s0 e = some x0 ∧
      index s1 e = some x1
  · obtain ⟨s0, s1, x0, x1, h0, h1, hx0, hx1⟩ := hs
    have hx0n := sensor_nonneg hS h0 hx0
    have hx1n := sensor_nonneg hS h1 hx1
    have he0 := index_entry h0 hx0
    have he1 := index_entry h1 hx1
    have ha : 0 ≤ a := hT [a, b] (by simp) a (by simp)
    have hb : 0 ≤ b := hT [a, b] (by simp) b (by simp)
    rw [viterbiRow_two id _ _ a b c d S e s0 s1 x0 x1 h0 h1 hx0 hx1] at h
    cases h
    have hg0 := bestOfTwo_ge (v0 * a) (v1 * c)
    have hg1 := bestOfTwo_ge (v0 * b) (v1 * d)
    have hsnd0 := bestOfTwo_snd (v0 * a) (v1 * c) (mul_nonneg hv0 ha)
    have hsnd1 := bestOfTwo_snd (v0 * b) (v1 * d) (mul_nonneg hv0 hb)
    refine ⟨_, _, _, _, rfl, mul_nonneg (bestOfTwo_nonneg _ _) hx0n,
      mul_nonneg (bestOfTwo_nonneg _ _) hx1n, ?_, ?_, ?_, ?_⟩
    · rcases hsnd0 with ⟨h2, _⟩ | ⟨h2, _⟩ <;> omega
    · rcases hsnd1 with ⟨h2, _⟩ | ⟨h2, _⟩ <;> omega
    · intro s hs
      rcases lt_two hs with rfl | rfl
      · rw [he0]
        rcases hsnd0 with ⟨h2, h3⟩ | ⟨h2, h3⟩
        · simp [coord, entry, h2, h3]
          ring
        · simp [coord, entry, h2, h3]
          ring
      · rw [he1]
        rcases hsnd1 with ⟨h2, h3⟩ | ⟨h2, h3⟩
        · simp [coord, entry, h2, h3]
          ring
        · simp [coord, entry, h2, h3]
          ring
    · intro q0 hq0 q1 hq1
      rcases lt_two hq1 with rfl | rfl
      · rw [he0]
        rcases lt_two hq0 with rfl | rfl
        · simp only [coord, entry, List.getD_cons_zero]
          rw [← mul_assoc]
          exact mul_le_mul_of_nonneg_right hg0.1 hx0n
        · simp only [coord, entry, List.getD_cons_zero, List.getD_cons_succ]
          rw [← mul_assoc]
          exact mul_le_mul_of_nonneg_right hg0.2 hx0n
      · rw [he1]
        rcases lt_two hq0 with rfl | rfl
        · simp only [coord, entry, List.getD_cons_zero, List.getD_cons_succ]
          rw [← mul_assoc]
          exact mul_le_mul_of_nonneg_right hg1.1 hx1n
        · simp only [coord, entry, List.getD_cons_zero, List.getD_cons_succ]
          rw [← mul_assoc]
          exact mul_le_mul_of_nonneg_right hg1.2 hx1n
  · rw [viterbiRow_two_none id _ a b c d S e hs] at h
    cases h

theorem valueFrom_cons_cons (T S : Model) (V : Distribution) (x y : Nat) (xs : List Nat)
    (e : Int) (o : List Int) :
    valueFrom T S V (x :: y :: xs) (e :: o)
      = coord V x * (entry T x y * entry S y e.toNat) * scoreFrom T S y xs o := by
  simp only [valueFrom, scoreFrom]
  ring

/-- The rows after the first of the unnormalized tables on two states, started
from the row `[v0, v1]`: for each final state `s`, the traceback from `s`
yields a state sequence whose value is the last table entry of `s`, and no
state sequence that ends in `s` has a larger value. -/
theorem viterbiSteps_optimal (a b c d : ℚ) (S : Model) (hT : NonNeg [[a, b], [c, d]])
    (hS : NonNeg S) :
    ∀ (o : List Int) (v0 v1 : ℚ) (rows : List (Distribution × List Nat)), 0 ≤ v0 →
      viterbiSteps id [[a, b], [c, d]] S (some [v0, v1]) o = some rows →
      ∃ l0 l1 : ℚ, ([v0, v1] :: rows.map Prod.fst).getLast? = some [l0, l1] ∧
        ∀ s, s < 2 →
          (∃ path, traceback (rows.map Prod.snd).reverse s = some path ∧
            path.length = o.length + 1 ∧ (∀ x ∈ path, x < 2) ∧
            valueFrom [[a, b], [c, d]] S [v0, v1] path o = coord [l0, l1] s) ∧
          (∀ q : List Nat, q.length = o.length + 1 → (∀ x ∈ q, x < 2) →
            q.getLast? = some s →
            valueFrom [[a, b], [c, d]] S [v0, v1] q o ≤ coord [l0, l1] s)
  | [], v0, v1, rows, _, h => by
    simp only [viterbiSteps, Option.some.injEq] at h
    subst h
    refine ⟨v0, v1, rfl, fun s hs => ⟨⟨[s], rfl, rfl, by simpa using hs, ?_⟩, ?_⟩⟩
    · simp [valueFrom, scoreFrom]
    · intro q hq _ hlast
      match q, hq with
      | [x], _ =>
        simp only [List.getLast?_singleton, Option.some.injEq] at hlast
        subst hlast
        simp [valueFrom, scoreFrom]
  | e :: rest, v0, v1, rows, hv0, h => by
    rw [viterbiSteps_cons] at h
    cases hr : viterbiRow id (some [v0, v1]) [[a, b], [c, d]] S e with
    | none => rw [hr] at h; cases h
    | some r =>
      rw [hr, Option.some_bind] at h
      cases hrs : viterbiSteps id [[a, b], [c, d]] S (some r.1) rest with
      | none => rw [hrs] at h; cases h
      | some rs =>
        rw [hrs] at h
        cases h
        obtain ⟨w0, w1, p0, p1, rfl, hw0, _, hp0, hp1, heq, hle⟩ :=
          viterbiRow_id_spec a b c d S hT hS e v0 v1 hv0 r hr
        obtain ⟨l0, l1, hlast, hall⟩ :=
          viterbiSteps_optimal a b c d S hT hS rest w0 w1 rs hw0 hrs
        refine ⟨l0, l1, by simpa [List.getLast?_cons_cons] using hlast, fun s hs => ?_⟩
        obtain ⟨⟨path1, htb, hlen, hmem, hval⟩, hbound⟩ := hall s hs
        constructor
        · match path1, hlen with
          | h1 :: t1, hlen =>
            have hh1 : h1 < 2 := hmem h1 (by simp)
            have hp : ([p0, p1] : List Nat).getD h1 0 < 2 := by
              rcases lt_two hh1 with rfl | rfl
              · simpa using hp0
              · simpa using hp1
            have hget : ([p0, p1] : List Nat)[h1]? = some (([p0, p1] : List Nat).getD h1 0) := by
              rcases lt_two hh1 with rfl | rfl <;> rfl
            refine ⟨([p0, p1] : List Nat).getD h1 0 :: h1 :: t1, ?_, ?_, ?_, ?_⟩
            · rw [List.map_cons, List.reverse_cons, traceback_snoc, htb]
              simp only [Option.some_bind, List.headD_cons]
              rw [hget]
              rfl
            · simp only [List.length_cons] at hlen ⊢
              omega
            · intro x hx
              rcases List.mem_cons.1 hx with rfl | hx
              · exact hp
              · exact hmem x hx
            · rw [valueFrom_cons_cons, heq h1 hh1, ← hval]
              rfl
        · intro q hq hqmem hqlast
          match q, hq with
          | q0 :: q1 :: qs, hq =>
            have hq0 : q0 < 2 := hqmem q0 (by simp)
            have hq1 : q1 < 2 := hqmem q1 (by simp)
            have hb := hbound (q1 :: qs) (by simpa using hq)
              (fun x hx => hqmem x (List.mem_cons_of_mem _ hx))
              (by simpa [List.getLast?_cons_cons] using hqlast)
            rw [valueFrom_cons_cons]
            refine le_trans (mul_le_mul_of_nonneg_right (hle q0 hq0 q1 hq1)
              (scoreFrom_nonneg hT hS _ _ _)) ?_
            exact hb

/-! ## C1 and C8: the decoder returns a most probable state sequence -/

theorem score_prod_eq_scoreFrom (T S : Model) :
    ∀ (os : List Int) (e0 : Int) (x0 : Nat) (xs : List Nat), xs.length = os.length →
      ((List.range' 1 os.length).map (fun k =>
        entry T ((x0 :: xs).getD (k - 1) 0) ((x0 :: xs).getD k 0) *
          entry S ((x0 :: xs).getD k 0) ((e0 :: os).getD k 0).toNat)).prod
        = scoreFrom T S x0 xs os
  | [], _, _, xs, h => by
    have : xs = [] := List.length_eq_zero.1 h
    subst this
    simp [scoreFrom]
  | e1 :: os, e0, x0, [], h => by simp at h
  | e1 :: os, e0, x0, x1 :: xs, h => by
    have hlen : xs.length = os.length := by simpa using h
    rw [List.length_cons, List.range'_succ, List.map_cons, List.prod_cons, scoreFrom,
      ← score_prod_eq_scoreFrom T S os e1 x1 xs hlen, ← List.map_add_range' 1 1,
      List.map_map]
    congr 1
    apply congrArg
    apply List.map_congr_left
    intro k hk
    have hk1 : 1 ≤ k := (List.mem_range'_1.1 hk).1
    obtain ⟨j, rfl⟩ : ∃ j, k = j + 1 := ⟨k - 1, by omega⟩
    simp [Nat.add_comm 1]

theorem score_eq_valueFrom (T S : Model) (e0 : Int) (os : List Int) (q : List Nat)
    (hq : q.length = os.length + 1) (hmem : ∀ x ∈ q, x < 2) :
    score T S (e0 :: os) q
      = valueFrom T S [1 / 2 * entry S 0 e0.toNat, 1 / 2 * entry S 1 e0.toNat] q os := by
  match q, hq with
  | x0 :: xs, hq =>
    have hlen : xs.length = os.length := by simpa using hq
    unfold score valueFrom
    simp only [List.getD_cons_zero, List.length_cons, Nat.add_sub_cancel]
    rw [score_prod_eq_scoreFrom T S os e0 x0 xs hlen]
    rcases lt_two (hmem x0 (by simp)) with rfl | rfl <;> simp [coord]

theorem sensor_two {S : Model} (hS2 : S.length = 2) {e : Int}
    (he : ∀ row ∈ S, 0 ≤ e ∧ e < row.length) :
    ∃ s0 s1 x0 x1, S[0]? = some s0 ∧ S[1]? = some s1 ∧ index s0 e = some x0 ∧
      index s1 e = some x1 := by
  match S, hS2 with
  | [s0, s1], _ =>
    obtain ⟨h00, h01⟩ := he s0 (by simp)
    obtain ⟨h10, h11⟩ := he s1 (by simp)
    obtain ⟨x0, hx0, _⟩ := index_eq_some h00 h01
    obtain ⟨x1, hx1, _⟩ := index_eq_some h10 h11
    exact ⟨s0, s1, x0, x1, rfl, rfl, hx0, hx1⟩

theorem valid_states (T : Model) {S : Model} (hT2 : T.length = 2) (hS2 : S.length = 2) {o : List Int}
    (hv : ValidObservations S o) :
    ∀ e ∈ o, ∀ state < T.length, ∃ srow, S[state]? = some srow ∧ 0 ≤ e ∧ e < srow.length := by
  intro e he state hstate
  have hs : state < S.length := by omega
  exact ⟨S[state], List.getElem?_eq_getElem hs, hv e he _ (List.getElem_mem hs)⟩

theorem maxIdx_two_ge (l0 l1 : ℚ) (s : Nat) (hs : s < 2) :
    maxIdx [l0, l1] < 2 ∧ coord [l0, l1] s ≤ coord [l0, l1] (maxIdx [l0, l1]) := by
  rw [maxIdx_two]
  by_cases h : l1 > l0
  · rw [if_pos h]
    rcases lt_two hs with rfl | rfl
    · exact ⟨by omega, by simpa [coord] using le_of_lt h⟩
    · exact ⟨by omega, le_refl _⟩
  · rw [if_neg h]
    rcases lt_two hs with rfl | rfl
    · exact ⟨by omega, le_refl _⟩
    · exact ⟨by omega, by simpa [coord] using not_lt.1 h⟩

/-- The unnormalized decoder on two states returns a state sequence of
maximal score. -/
theorem viterbiWith_id_optimal (a b c d : ℚ) (S : Model) (hS2 : S.length = 2)
    (hT : NonNeg [[a, b], [c, d]]) (hS : NonNeg S) (o : List Int) (ho : o ≠ [])
    (hv : ValidObservations S o) :
    ∃ p, viterbiWith id o [[a, b], [c, d]] S = some p ∧ p.length = o.length ∧
      (∀ x ∈ p, x < 2) ∧
      ∀ q : List Nat, q.length = o.length → (∀ x ∈ q, x < 2) →
        score [[a, b], [c, d]] S o q ≤ score [[a, b], [c, d]] S o p := by
  match o, ho with
  | e0 :: rest, _ =>
    obtain ⟨s0, s1, x0, x1, h0, h1, hx0, hx1⟩ := sensor_two hS2 (hv e0 (by simp))
    have he0 := index_entry h0 hx0
    have he1 := index_entry h1 hx1
    have hrow0 := viterbiRow_two_start id a b c d S e0 s0 s1 x0 x1 h0 h1 hx0 hx1
    have hvrest : ValidObservations S rest := fun e he => hv e (List.mem_cons_of_mem _ he)
    obtain ⟨rs, hrs, _, _⟩ := viterbiSteps_ok id (fun _ => rfl) [[a, b], [c, d]] S (le_refl 2)
      (by intro row hrow; simp at hrow; rcases hrow with rfl | rfl <;> simp) rest
      (some [1 / 2 * x0, 1 / 2 * x1]) (by intro row hrow; cases hrow; simp)
      (valid_states [[a, b], [c, d]] rfl hS2 hvrest)
    obtain ⟨l0, l1, hlast, hall⟩ := viterbiSteps_optimal a b c d S hT hS rest _ _ rs
      (mul_nonneg (by norm_num) (sensor_nonneg hS h0 hx0)) hrs
    obtain ⟨hcur, _⟩ := maxIdx_two_ge l0 l1 0 (by omega)
    obtain ⟨⟨path, htb, hlen, hmem, hval⟩, _⟩ := hall (maxIdx [l0, l1]) hcur
    refine ⟨path, ?_, by simpa using hlen, hmem, ?_⟩
    · rw [viterbiWith_unfold, viterbiSteps_cons, hrow0, Option.some_bind]
      simp only [id]
      rw [hrs]
      simp only [Option.some_bind, List.map_cons, List.drop_succ_cons, List.drop_zero]
      rw [hlast, Option.some_bind, htb]
    · intro q hq hqmem
      have hq1 : q.length = rest.length + 1 := by simpa using hq
      rw [score_eq_valueFrom _ _ e0 rest q hq1 hqmem,
        score_eq_valueFrom _ _ e0 rest path hlen hmem, he0, he1, hval]
      have hqne : q ≠ [] := by
        intro h
        rw [h] at hq1
        simp at hq1
      have hs : q.getLast hqne < 2 := hqmem _ (List.getLast_mem hqne)
      refine le_trans ((hall _ hs).2 q hq1 hqmem (List.getLast?_eq_getLast _ hqne)) ?_
      exact (maxIdx_two_ge l0 l1 _ hs).2

/-- C1: over exact arithmetic, for every 2-state TransitionModel `T` and 2-row
SensorModel `S` with non-negative entries and every non-empty observation
sequence `o` whose symbols are columns of `S`, `viterbi(o, T, S)` returns a
state sequence `p` over `{0, 1}` of length `len(o)` that is most probable:
`score(q) <= score(p)` for every state sequence `q` in `{0,1}^len(o)`. -/
theorem viterbi_most_probable (o : List Int) (T : TransitionModel) (S : SensorModel)
    (hT2 : TwoByTwo T) (hS2 : S.length = 2) (hT : NonNeg T) (hS : NonNeg S) (ho : o ≠ [])
    (hv : ValidObservations S o) :
    ∃ p, viterbi o T S = some p ∧ p.length = o.length ∧ (∀ x ∈ p, x < 2) ∧
      ∀ q : List Nat, q.length = o.length → (∀ x ∈ q, x < 2) →
        score T S o q ≤ score T S o p := by
  obtain ⟨a, b, c, d, rfl⟩ := twoByTwo_eq hT2
  unfold viterbi
  rw [viterbiWith_normalize_eq_id a b c d S hS o]
  exact viterbiWith_id_optimal a b c d S hS2 hT hS o ho hv

theorem viterbi_most_probable_witness :
    (TwoByTwo exampleT ∧ wideS.length = 2 ∧ ([0, 2, 1] : List Int) ≠ [] ∧
      ValidObservations wideS [0, 2, 1]) ∧
    ∃ p, viterbi [0, 2, 1] exampleT wideS = some p ∧ p.length = ([0, 2, 1] : List Int).length ∧
      (∀ x ∈ p, x < 2) ∧
      ∀ q : List Nat, q.length = ([0, 2, 1] : List Int).length → (∀ x ∈ q, x < 2) →
        score exampleT wideS [0, 2, 1] q ≤ score exampleT wideS [0, 2, 1] p :=
  ⟨by decide, viterbi_most_probable [0, 2, 1] exampleT wideS (by decide) (by decide)
    (by simp [NonNeg, exampleT]; norm_num) (by simp [NonNeg, wideS]; norm_num)
    (by decide) (by decide)⟩

/-- C8: over exact arithmetic, for every 2-state `T` and every `S` with
non-negative entries and every observation sequence `o`, `viterbi` and the
variant without the per-step normalization of `values[step]` return the same
path (and fail together); they return a path when `S` has two rows, `o` is
non-empty and its symbols are columns of `S`. -/
theorem viterbi_eq_unnormalized (o : List Int) (T : TransitionModel) (S : SensorModel)
    (hT2 : TwoByTwo T) (hS : NonNeg S) :
    viterbi o T S = viterbiUnnormalized o T S ∧
      (S.length = 2 → o ≠ [] → ValidObservations S o → (viterbi o T S).isSome) := by
  obtain ⟨a, b, c, d, rfl⟩ := twoByTwo_eq hT2
  refine ⟨viterbiWith_normalize_eq_id a b c d S hS o, fun hS2 ho hv => ?_⟩
  obtain ⟨p, hp, _⟩ := viterbiWith_ok normalize normalize_length o [[a, b], [c, d]] S ho
    (by simp) (le_refl 2)
    (by intro row hrow; simp at hrow; rcases hrow with rfl | rfl <;> simp)
    (valid_states [[a, b], [c, d]] rfl hS2 hv)
  unfold viterbi
  rw [hp]
  rfl

theorem viterbi_eq_unnormalized_witness :
    (TwoByTwo exampleT ∧ NonNeg exampleS) ∧
    (viterbi [0, 1, 0] exampleT exampleS = viterbiUnnormalized [0, 1, 0] exampleT exampleS ∧
      (exampleS.length = 2 → ([0, 1, 0] : List Int) ≠ [] → ValidObservations exampleS [0, 1, 0] →
        (viterbi [0, 1, 0] exampleT exampleS).isSome)) :=
  ⟨⟨by decide, by simp [NonNeg, exampleS]; norm_num⟩,
    viterbi_eq_unnormalized [0, 1, 0] exampleT exampleS (by decide)
      (by simp [NonNeg, exampleS]; norm_num)⟩

/-! ## The filters are the normalized forward and backward rows -/

theorem forwardUpdate_two (a b c d : ℚ) (S : Model) (x y : ℚ) (e : Int) :
    forwardUpdate [[a, b], [c, d]] S [x, y] e
      = [(a * x + c * y) * entry S 0 e.toNat, (b * x + d * y) * entry S 1 e.toNat] := by
  have h00 : entry [[a, b], [c, d]] 0 0 = a := rfl
  have h01 : entry [[a, b], [c, d]] 0 1 = b := rfl
  have h10 : entry [[a, b], [c, d]] 1 0 = c := rfl
  have h11 : entry [[a, b], [c, d]] 1 1 = d := rfl
  have hx : coord [x, y] 0 = x := rfl
  have hy : coord [x, y] 1 = y := rfl
  simp only [forwardUpdate, range_two, List.map_cons, List.map_nil, List.sum_cons,
    List.sum_nil, h00, h01, h10, h11, hx, hy, add_zero]

theorem backwardUpdate_two (a b c d : ℚ) (S : Model) (x y : ℚ) (e : Int) :
    backwardUpdate [[a, b], [c, d]] S [x, y] e
      = [a * (x * entry S 0 e.toNat) + b * (y * entry S 1 e.toNat),
          c * (x * entry S 0 e.toNat) + d * (y * entry S 1 e.toNat)] := by
  have h00 : entry [[a, b], [c, d]] 0 0 = a := rfl
  have h01 : entry [[a, b], [c, d]] 0 1 = b := rfl
  have h10 : entry [[a, b], [c, d]] 1 0 = c := rfl
  have h11 : entry [[a, b], [c, d]] 1 1 = d := rfl
  have hx : coord [x, y] 0 = x := rfl
  have hy : coord [x, y] 1 = y := rfl
  simp only [backwardUpdate, range_two, List.map_cons, List.map_nil, List.sum_cons,
    List.sum_nil, h00, h01, h10, h11, hx, hy, add_zero]

theorem positive_two {a b c d : ℚ} (h : Positive [[a, b], [c, d]]) :
    0 < a ∧ 0 < b ∧ 0 < c ∧ 0 < d :=
  ⟨h [a, b] (by simp) a (by simp), h [a, b] (by simp) b (by simp),
    h [c, d] (by simp) c (by simp), h [c, d] (by simp) d (by simp)⟩

theorem entry_pos_two {p q r s : ℚ} (h : Positive [[p, q], [r, s]]) {e : Int}
    (he : e = 0 ∨ e = 1) :
    0 < entry [[p, q], [r, s]] 0 e.toNat ∧ 0 < entry [[p, q], [r, s]] 1 e.toNat := by
  obtain ⟨hp, hq, hr, hs⟩ := positive_two h
  rcases he with rfl | rfl
  · exact ⟨hp, hr⟩
  · exact ⟨hq, hs⟩

/-- The forward pass: the belief of `filter` is a positive multiple of the row
computed without normalization. -/
theorem forward_scale (a b c d p q r s : ℚ) (hT : Positive [[a, b], [c, d]])
    (hS : Positive [[p, q], [r, s]]) :
    ∀ (o : List Int) (l x y : ℚ), 0 < l → 0 < x → 0 < y → (∀ e ∈ o, e = 0 ∨ e = 1) →
      ∃ m x1 y1 : ℚ, 0 < m ∧ 0 < x1 ∧ 0 < y1 ∧
        o.foldl (forwardUpdate [[a, b], [c, d]] [[p, q], [r, s]]) [x, y] = [x1, y1] ∧
        o.foldlM (filterStep [[a, c], [b, d]] [[p, r], [q, s]]) [l * x, l * y]
          = some [m * x1, m * y1]
  | [], l, x, y, hl, hx, hy, _ => ⟨l, x, y, hl, hx, hy, rfl, rfl⟩
  | e :: o, l, x, y, hl, hx, hy, ho => by
    have he := ho e (by simp)
    obtain ⟨ha, hb, hc, hd⟩ := positive_two hT
    obtain ⟨h0, h1⟩ := entry_pos_two hS he
    have hu : 0 < (a * x + c * y) * entry [[p, q], [r, s]] 0 e.toNat :=
      mul_pos (add_pos (mul_pos ha hx) (mul_pos hc hy)) h0
    have hv : 0 < (b * x + d * y) * entry [[p, q], [r, s]] 1 e.toNat :=
      mul_pos (add_pos (mul_pos hb hx) (mul_pos hd hy)) h1
    obtain ⟨m, hm, hnorm⟩ := normalize_two_scale _ _ (mul_nonneg hl.le hu.le)
      (mul_nonneg hl.le hv.le)
    obtain ⟨m2, x2, y2, hm2, hx2, hy2, hfold, hfoldM⟩ := forward_scale a b c d p q r s hT hS o
      (m * l) _ _ (mul_pos hm hl) hu hv (fun e1 he1 => ho e1 (List.mem_cons_of_mem _ he1))
    refine ⟨m2, x2, y2, hm2, hx2, hy2, ?_, ?_⟩
    · rw [List.foldl_cons, forwardUpdate_two]
      exact hfold
    · rw [List.foldlM_cons, filterStep_two _ _ _ _ _ _ _ _ _ _ e he, forwardUpdate_two]
      have e1 : (a * (l * x) + c * (l * y)) * entry [[p, q], [r, s]] 0 e.toNat
          = l * ((a * x + c * y) * entry [[p, q], [r, s]] 0 e.toNat) := by ring
      have e2 : (b * (l * x) + d * (l * y)) * entry [[p, q], [r, s]] 1 e.toNat
          = l * ((b * x + d * y) * entry [[p, q], [r, s]] 1 e.toNat) := by ring
      rw [e1, e2, hnorm]
      simpa only [Option.bind_eq_bind, Option.some_bind, mul_assoc] using hfoldM

/-- The backward pass: the belief of `backFilter` is a positive multiple of
the row computed without normalization. -/
theorem backward_scale (a b c d p q r s : ℚ) (hT : Positive [[a, b], [c, d]])
    (hS : Positive [[p, q], [r, s]]) :
    ∀ (o : List Int) (l x y : ℚ), 0 < l → 0 < x → 0 < y → (∀ e ∈ o, e = 0 ∨ e = 1) →
      ∃ m x1 y1 : ℚ, 0 < m ∧ 0 < x1 ∧ 0 < y1 ∧
        o.foldl (backwardUpdate [[a, b], [c, d]] [[p, q], [r, s]]) [x, y] = [x1, y1] ∧
        o.foldlM (backFilterStep [[a, b], [c, d]] [[p, r], [q, s]]) [l * x, l * y]
          = some [m * x1, m * y1]
  | [], l, x, y, hl, hx, hy, _ => ⟨l, x, y, hl, hx, hy, rfl, rfl⟩
  | e :: o, l, x, y, hl, hx, hy, ho => by
    have he := ho e (by simp)
    obtain ⟨ha, hb, hc, hd⟩ := positive_two hT
    obtain ⟨h0, h1⟩ := entry_pos_two hS he
    have hu : 0 < a * (x * entry [[p, q], [r, s]] 0 e.toNat)
        + b * (y * entry [[p, q], [r, s]] 1 e.toNat) :=
      add_pos (mul_pos ha (mul_pos hx h0)) (mul_pos hb (mul_pos hy h1))
    have hv : 0 < c * (x * entry [[p, q], [r, s]] 0 e.toNat)
        + d * (y * entry [[p, q], [r, s]] 1 e.toNat) :=
      add_pos (mul_pos hc (mul_pos hx h0)) (mul_pos hd (mul_pos hy h1))
    obtain ⟨m, hm, hnorm⟩ := normalize_two_scale _ _ (mul_nonneg hl.le hu.le)
      (mul_nonneg hl.le hv.le)
    obtain ⟨m2, x2, y2, hm2, hx2, hy2, hfold, hfoldM⟩ := backward_scale a b c d p q r s hT hS o
      (m * l) _ _ (mul_pos hm hl) hu hv (fun e1 he1 => ho e1 (List.mem_cons_of_mem _ he1))
    refine ⟨m2, x2, y2, hm2, hx2, hy2, ?_, ?_⟩
    · rw [List.foldl_cons, backwardUpdate_two]
      exact hfold
    · rw [List.foldlM_cons, backFilterStep_two _ _ _ _ _ _ _ _ _ _ e he, backwardUpdate_two]
      have e1 : a * (l * x * entry [[p, q], [r, s]] 0 e.toNat)
            + b * (l * y * entry [[p, q], [r, s]] 1 e.toNat)
          = l * (a * (x * entry [[p, q], [r, s]] 0 e.toNat)
            + b * (y * entry [[p, q], [r, s]] 1 e.toNat)) := by ring
      have e2 : c * (l * x * entry [[p, q], [r, s]] 0 e.toNat)
            + d * (l * y * entry [[p, q], [r, s]] 1 e.toNat)
          = l * (c * (x * entry [[p, q], [r, s]] 0 e.toNat)
            + d * (y * entry [[p, q], [r, s]] 1 e.toNat)) := by ring
      rw [e1, e2, hnorm]
      simpa only [Option.bind_eq_bind, Option.some_bind, mul_assoc] using hfoldM

/-! ## Sums over state sequences -/

theorem stateSeqs_succ (n : Nat) :
    stateSeqs (n + 1)
      = (stateSeqs n).map (fun x => 0 :: x) ++ (stateSeqs n).map (fun x => 1 :: x) := rfl

/-- The list `stateSeqs n` holds exactly the sequences over `{0, 1}` of length `n`. -/
theorem mem_stateSeqs : ∀ (n : Nat) (x : List Nat),
    x ∈ stateSeqs n ↔ x.length = n ∧ ∀ s ∈ x, s < 2
  | 0, x => by
    simp only [stateSeqs, List.mem_singleton]
    constructor
    · rintro rfl
      simp
    · rintro ⟨h, _⟩
      exact List.length_eq_zero.1 h
  | n + 1, x => by
    rw [stateSeqs_succ, List.mem_append, List.mem_map, List.mem_map]
    constructor
    · rintro (⟨y, hy, rfl⟩ | ⟨y, hy, rfl⟩)
      · obtain ⟨h1, h2⟩ := (mem_stateSeqs n y).1 hy
        exact ⟨by simp [h1], by
          intro s hs
          rcases List.mem_cons.1 hs with rfl | hs
          · omega
          · exact h2 s hs⟩
      · obtain ⟨h1, h2⟩ := (mem_stateSeqs n y).1 hy
        exact ⟨by simp [h1], by
          intro s hs
          rcases List.mem_cons.1 hs with rfl | hs
          · omega
          · exact h2 s hs⟩
    · rintro ⟨h1, h2⟩
      match x, h1 with
      | c :: y, h1 =>
        have hy : y ∈ stateSeqs n := (mem_stateSeqs n y).2
          ⟨by simpa using h1, fun s hs => h2 s (List.mem_cons_of_mem _ hs)⟩
        rcases lt_two (h2 c (by simp)) with rfl | rfl
        · exact Or.inl ⟨y, hy, rfl⟩
        · exact Or.inr ⟨y, hy, rfl⟩

/-- No sequence is listed twice. -/
theorem stateSeqs_nodup : ∀ n : Nat, (stateSeqs n).Nodup
  | 0 => by simp [stateSeqs]
  | n + 1 => by
    rw [stateSeqs_succ]
    refine List.Nodup.append ?_ ?_ ?_
    · exact (stateSeqs_nodup n).map (fun x y h => by simpa using h)
    · exact (stateSeqs_nodup n).map (fun x y h => by simpa using h)
    · intro x h0 h1
      obtain ⟨y, _, rfl⟩ := List.mem_map.1 h0
      obtain ⟨z, _, hz⟩ := List.mem_map.1 h1
      simp at hz

theorem sum_stateSeqs_succ (g : List Nat → ℚ) (n : Nat) :
    ((stateSeqs (n + 1)).map g).sum
      = ((stateSeqs n).map (fun x => g (0 :: x))).sum
        + ((stateSeqs n).map (fun x => g (1 :: x))).sum := by
  rw [stateSeqs_succ, List.map_append, List.sum_append, List.map_map, List.map_map]
  rfl

theorem sum_map_add (l : List (List Nat)) (f g : List Nat → ℚ) :
    (l.map (fun x => f x + g x)).sum = (l.map f).sum + (l.map g).sum := by
  induction l with
  | nil => simp
  | cons x xs ih =>
    simp only [List.map_cons, List.sum_cons, ih]
    ring

theorem sum_map_mul_left (l : List (List Nat)) (c : ℚ) (f : List Nat → ℚ) :
    (l.map (fun x => c * f x)).sum = c * (l.map f).sum := by
  induction l with
  | nil => simp
  | cons x xs ih =>
    simp only [List.map_cons, List.sum_cons, ih]
    ring

theorem sum_map_mul_right (l : List (List Nat)) (c : ℚ) (f : List Nat → ℚ) :
    (l.map (fun x => f x * c)).sum = (l.map f).sum * c := by
  induction l with
  | nil => simp
  | cons x xs ih =>
    simp only [List.map_cons, List.sum_cons, ih]
    ring

/-- A sum over all sequences of length `n + 1`, split by the last state. -/
theorem sum_stateSeqs_snoc : ∀ (n : Nat) (g : List Nat → ℚ),
    ((stateSeqs (n + 1)).map g).sum
      = ((stateSeqs n).map (fun x => g (x ++ [0]) + g (x ++ [1]))).sum
  | 0, g => by simp [stateSeqs]
  | n + 1, g => by
    rw [sum_stateSeqs_succ, sum_stateSeqs_snoc n (fun x => g (0 :: x)),
      sum_stateSeqs_snoc n (fun x => g (1 :: x)),
      sum_stateSeqs_succ (fun x => g (x ++ [0]) + g (x ++ [1]))]
    rfl

/-- A sum over the sequences of length `n + 1` with the state `s` at position
`t`, split into the part before and the part after that position. -/
theorem sum_stateSeqs_at (s : Nat) (hs : s < 2) : ∀ (t n : Nat) (g : List Nat → ℚ), t ≤ n →
    (((stateSeqs (n + 1)).filter (fun x => x.getD t 0 = s)).map g).sum
      = ((stateSeqs t).map (fun pre =>
          ((stateSeqs (n - t)).map (fun post => g (pre ++ s :: post))).sum)).sum
  | 0, n, g, _ => by
    rw [stateSeqs_succ, List.filter_append, List.filter_map, List.filter_map, List.map_append,
      List.sum_append, List.map_map, List.map_map]
    rcases lt_two hs with rfl | rfl
    · simp [stateSeqs, Function.comp_def]
    · simp [stateSeqs, Function.comp_def]
  | t + 1, 0, g, h => by omega
  | t + 1, n + 1, g, h => by
    have ih0 := sum_stateSeqs_at s hs t n (fun x => g (0 :: x)) (by omega)
    have ih1 := sum_stateSeqs_at s hs t n (fun x => g (1 :: x)) (by omega)
    rw [stateSeqs_succ (n + 1), List.filter_append, List.filter_map, List.filter_map,
      List.map_append, List.sum_append, List.map_map, List.map_map,
      sum_stateSeqs_succ _ t, Nat.add_sub_add_right]
    have hc : ∀ c : Nat, ((fun x : List Nat => decide (x.getD (t + 1) 0 = s)) ∘ fun x => c :: x)
        = fun x => decide (x.getD t 0 = s) := by
      intro c
      funext x
      simp
    rw [hc 0, hc 1]
    exact congrArg₂ (· + ·) ih0 ih1

theorem sum_filter_two (l : List (List Nat)) (f : List Nat → Nat) (g : List Nat → ℚ)
    (h : ∀ x ∈ l, f x < 2) :
    (l.map g).sum = ((l.filter (fun x => f x = 0)).map g).sum
      + ((l.filter (fun x => f x = 1)).map g).sum := by
  induction l with
  | nil => simp
  | cons x xs ih =>
    have ih1 := ih (fun y hy => h y (List.mem_cons_of_mem _ hy))
    rcases lt_two (h x (by simp)) with h0 | h0
    · simp only [List.map_cons, List.sum_cons, List.filter_cons, h0, decide_True, if_true, ih1]
      simp
      ring
    · simp only [List.map_cons, List.sum_cons, List.filter_cons, h0, decide_True, if_true, ih1]
      simp
      ring

/-! ## Weights of state sequences -/

theorem weight_eq_pathWeight (T S : Model) (o : List Int) (x : List Nat)
    (hx : x.length = o.length + 1) : weight T S o x = pathWeight T S x o := by
  match x, hx with
  | x0 :: xs, hx =>
    have hlen : xs.length = o.length := by simpa using hx
    rw [pathWeight, ← score_prod_eq_scoreFrom T S o 0 x0 xs hlen]
    unfold weight
    apply congrArg
    apply List.map_congr_left
    intro k hk
    have hk1 : 1 ≤ k := (List.mem_range'_1.1 hk).1
    obtain ⟨j, rfl⟩ : ∃ j, k = j + 1 := ⟨k - 1, by omega⟩
    simp

theorem scoreFrom_nil_obs (T S : Model) (prev : Nat) (xs : List Nat) :
    scoreFrom T S prev xs [] = 1 := by
  cases xs <;> rfl

/-- The weight of a sequence through the state `s` is the weight up to `s`
times the weight from `s` on. -/
theorem scoreFrom_append (T S : Model) (s : Nat) (post : List Nat) :
    ∀ (pre : List Nat) (p : Nat) (o : List Int),
      scoreFrom T S p (pre ++ s :: post) o
        = scoreFrom T S p (pre ++ [s]) (o.take (pre.length + 1))
          * scoreFrom T S s post (o.drop (pre.length + 1))
  | [], p, [] => by simp [scoreFrom, scoreFrom_nil_obs]
  | [], p, e :: os => by simp [scoreFrom]
  | y :: ys, p, [] => by simp [scoreFrom, scoreFrom_nil_obs]
  | y :: ys, p, e :: os => by
    rw [List.cons_append, List.cons_append, List.length_cons, List.take_succ_cons,
      List.drop_succ_cons, scoreFrom, scoreFrom, scoreFrom_append T S s post ys y os]
    ring

theorem pathWeight_append (T S : Model) (s : Nat) (post pre : List Nat) (o : List Int) :
    pathWeight T S (pre ++ s :: post) o
      = pathWeight T S (pre ++ [s]) (o.take pre.length)
        * scoreFrom T S s post (o.drop pre.length) := by
  cases pre with
  | nil => simp [pathWeight, scoreFrom_nil_obs]
  | cons p pre => exact scoreFrom_append T S s post pre p o

/-- The sum of the weights of the sequences that end in the state `s`. -/
theorem forwardSum_snoc (T S : Model) (o : List Int) (e : Int) (s : Nat) :
    ((stateSeqs (o.length + 1)).map (fun pre => pathWeight T S (pre ++ [s]) (o ++ [e]))).sum
      = (((stateSeqs o.length).map (fun pre => pathWeight T S (pre ++ [0]) o)).sum
            * entry T 0 s
          + ((stateSeqs o.length).map (fun pre => pathWeight T S (pre ++ [1]) o)).sum
            * entry T 1 s) * entry S s e.toNat := by
  rw [sum_stateSeqs_snoc, ← sum_map_mul_right, ← sum_map_mul_right, ← sum_map_add,
    ← sum_map_mul_right]
  apply congrArg
  apply List.map_congr_left
  intro pre hpre
  have hlen : pre.length = o.length := ((mem_stateSeqs _ _).1 hpre).1
  have h : ∀ c : Nat, pathWeight T S ((pre ++ [c]) ++ [s]) (o ++ [e])
      = pathWeight T S (pre ++ [c]) o * (entry T c s * entry S s e.toNat) := by
    intro c
    rw [List.append_assoc, List.singleton_append, pathWeight_append, hlen,
      List.take_left, List.drop_left]
    simp [scoreFrom]
  rw [h 0, h 1]
  ring

/-- The sum of the weights of the sequences that start in the state `s`. -/
theorem backwardSum_cons (T S : Model) (e : Int) (o : List Int) (s : Nat) :
    ((stateSeqs (o.length + 1)).map (fun post => scoreFrom T S s post (e :: o))).sum
      = entry T s 0 * (((stateSeqs o.length).map (fun post => scoreFrom T S 0 post o)).sum
            * entry S 0 e.toNat)
        + entry T s 1 * (((stateSeqs o.length).map (fun post => scoreFrom T S 1 post o)).sum
            * entry S 1 e.toNat) := by
  rw [sum_stateSeqs_succ]
  simp only [scoreFrom]
  rw [sum_map_mul_left, sum_map_mul_left]
  ring

/-! ## The unnormalized rows are sums over state sequences -/

theorem forwardRow_eq (a b c d : ℚ) (S : Model) (o : List Int) :
    forwardRow [[a, b], [c, d]] S o
      = [1 / 2 * ((stateSeqs o.length).map
            (fun pre => pathWeight [[a, b], [c, d]] S (pre ++ [0]) o)).sum,
          1 / 2 * ((stateSeqs o.length).map
            (fun pre => pathWeight [[a, b], [c, d]] S (pre ++ [1]) o)).sum] := by
  induction o using List.reverseRecOn with
  | nil => simp [forwardRow, flatDistribution, stateSeqs, pathWeight, scoreFrom]
  | append_singleton o e ih =>
    have hstep : forwardRow [[a, b], [c, d]] S (o ++ [e])
        = forwardUpdate [[a, b], [c, d]] S (forwardRow [[a, b], [c, d]] S o) e := by
      simp [forwardRow, List.foldl_append]
    have h00 : entry [[a, b], [c, d]] 0 0 = a := rfl
    have h01 : entry [[a, b], [c, d]] 0 1 = b := rfl
    have h10 : entry [[a, b], [c, d]] 1 0 = c := rfl
    have h11 : entry [[a, b], [c, d]] 1 1 = d := rfl
    rw [hstep, ih, forwardUpdate_two, List.length_append, List.length_singleton,
      forwardSum_snoc, forwardSum_snoc, h00, h01, h10, h11]
    congr 1
    · ring
    · congr 1
      ring

theorem backwardRow_eq (a b c d : ℚ) (S : Model) :
    ∀ o : List Int, backwardRow [[a, b], [c, d]] S o
      = [1 / 2 * ((stateSeqs o.length).map
            (fun post => scoreFrom [[a, b], [c, d]] S 0 post o)).sum,
          1 / 2 * ((stateSeqs o.length).map
            (fun post => scoreFrom [[a, b], [c, d]] S 1 post o)).sum]
  | [] => by simp [backwardRow, flatDistribution, stateSeqs, scoreFrom]
  | e :: o => by
    have hstep : backwardRow [[a, b], [c, d]] S (e :: o)
        = backwardUpdate [[a, b], [c, d]] S (backwardRow [[a, b], [c, d]] S o) e := rfl
    have h00 : entry [[a, b], [c, d]] 0 0 = a := rfl
    have h01 : entry [[a, b], [c, d]] 0 1 = b := rfl
    have h10 : entry [[a, b], [c, d]] 1 0 = c := rfl
    have h11 : entry [[a, b], [c, d]] 1 1 = d := rfl
    rw [hstep, backwardRow_eq a b c d S o, backwardUpdate_two, List.length_cons,
      backwardSum_cons, backwardSum_cons, h00, h01, h10, h11]
    congr 1
    · ring
    · congr 1
      ring

/-- The weight of the sequences with the state `s` at position `t`, as a
product of a forward and a backward sum. -/
theorem sum_weight_at (T S : Model) (o : List Int) (t s : Nat) (ht : t ≤ o.length)
    (hs : s < 2) :
    (((stateSeqs (o.length + 1)).filter (fun x => x.getD t 0 = s)).map (weight T S o)).sum
      = ((stateSeqs (o.take t).length).map
            (fun pre => pathWeight T S (pre ++ [s]) (o.take t))).sum
        * ((stateSeqs (o.drop t).length).map
            (fun post => scoreFrom T S s post (o.drop t))).sum := by
  have hw : ((stateSeqs (o.length + 1)).filter (fun x => x.getD t 0 = s)).map (weight T S o)
      = ((stateSeqs (o.length + 1)).filter (fun x => x.getD t 0 = s)).map
          (fun x => pathWeight T S x o) := by
    apply List.map_congr_left
    intro x hx
    exact weight_eq_pathWeight T S o x ((mem_stateSeqs _ _).1 (List.mem_of_mem_filter hx)).1
  rw [hw, sum_stateSeqs_at s hs t o.length _ ht, List.length_take, List.length_drop,
    Nat.min_eq_left ht, ← sum_map_mul_right]
  apply congrArg
  apply List.map_congr_left
  intro pre hpre
  have hlen : pre.length = t := ((mem_stateSeqs _ _).1 hpre).1
  rw [← sum_map_mul_left]
  apply congrArg
  apply List.map_congr_left
  intro post _
  rw [pathWeight_append, hlen]

theorem sum_weight_total (T S : Model) (o : List Int) (t : Nat) (ht : t ≤ o.length) :
    ((stateSeqs (o.length + 1)).map (weight T S o)).sum
      = (((stateSeqs (o.length + 1)).filter (fun x => x.getD t 0 = 0)).map (weight T S o)).sum
        + (((stateSeqs (o.length + 1)).filter (fun x => x.getD t 0 = 1)).map
            (weight T S o)).sum := by
  apply sum_filter_two
  intro x hx
  obtain ⟨hlen, hmem⟩ := (mem_stateSeqs _ _).1 hx
  have hlt : t < x.length := by omega
  rw [List.getD_eq_getElem _ _ hlt]
  exact hmem _ (List.getElem_mem hlt)

/-- The smoothed belief in terms of the unnormalized forward and backward
rows. -/
theorem smoothed_eq (a b c d : ℚ) (S : Model) (o : List Int) (t s : Nat) (ht : t ≤ o.length)
    (hs : s < 2) (f0 f1 b0 b1 : ℚ)
    (hf : forwardRow [[a, b], [c, d]] S (o.take t) = [f0, f1])
    (hb : backwardRow [[a, b], [c, d]] S (o.drop t) = [b0, b1]) :
    smoothed [[a, b], [c, d]] S o t s
      = coord [f0 * b0, f1 * b1] s / (f0 * b0 + f1 * b1) := by
  rw [forwardRow_eq] at hf
  rw [backwardRow_eq] at hb
  simp only [List.cons.injEq, and_true] at hf hb
  unfold smoothed
  rw [sum_weight_total _ S o t ht, sum_weight_at _ S o t 0 ht (by omega),
    sum_weight_at _ S o t 1 ht (by omega), sum_weight_at _ S o t s ht hs]
  rw [← hf.1, ← hf.2, ← hb.1, ← hb.2]
  have h4 : (4 : ℚ) ≠ 0 := by norm_num
  rcases lt_two hs with rfl | rfl
  · simp only [coord, List.getD_cons_zero]
    conv_rhs => rw [← mul_div_mul_left _ _ h4]
    congr 1 <;> ring
  · simp only [coord, List.getD_cons_zero, List.getD_cons_succ]
    conv_rhs => rw [← mul_div_mul_left _ _ h4]
    congr 1 <;> ring

/-! ## C3: the smoother -/

/-- C3: over exact arithmetic, for every 2x2 `T` and `S` with strictly positive
entries, every observation sequence `o` over `{0, 1}` of length `n` and every
`at` with `0 <= at <= n`, `estimate(at, o, T, S)` returns the belief at time
`at` conditioned on all the evidence: its entry `s` is the sum of `w(x)` over
the state sequences `x[0..n]` with `x[at] = s`, divided by the sum of `w(x)`
over all state sequences `x[0..n]`, where
`w(x) = Π_{k = 1..n} T[x[k-1]][x[k]] * S[x[k]][o[k-1]]`. -/
theorem estimate_eq_smoothed (T : TransitionModel) (S : SensorModel)
    (hT2 : TwoByTwo T) (hS2 : TwoByTwo S) (hT : Positive T) (hS : Positive S)
    (o : List Int) (ho : ∀ e ∈ o, e = 0 ∨ e = 1) (at_ : Int) (h0 : 0 ≤ at_)
    (h1 : at_ ≤ o.length) :
    estimate at_ o T S = some [smoothed T S o at_.toNat 0, smoothed T S o at_.toNat 1] := by
  obtain ⟨t, rfl⟩ := Int.eq_ofNat_of_zero_le h0
  have ht : t ≤ o.length := by exact_mod_cast h1
  obtain ⟨a, b, c, d, rfl⟩ := twoByTwo_eq hT2
  obtain ⟨p, q, r, s, rfl⟩ := twoByTwo_eq hS2
  rw [estimate_eq_aux _ _ _ _ h0 h1, Int.toNat_ofNat]
  have hF : (if (t : Int) > 0 then filter (o.take t) [[a, b], [c, d]] [[p, q], [r, s]]
      else some flatDistribution) = filter (o.take t) [[a, b], [c, d]] [[p, q], [r, s]] := by
    by_cases h : (t : Int) > 0
    · rw [if_pos h]
    · rw [if_neg h]
      have : t = 0 := by omega
      subst this
      rfl
  have hB : (if (t : Int) < o.length then backFilter (o.drop t) [[a, b], [c, d]] [[p, q], [r, s]]
      else some flatDistribution)
        = backFilter (o.drop t) [[a, b], [c, d]] [[p, q], [r, s]] := by
    by_cases h : (t : Int) < o.length
    · rw [if_pos h]
    · rw [if_neg h]
      have : o.length ≤ t := by omega
      rw [List.drop_of_length_le this]
      rfl
  have hflat : flatDistribution = [1 * (1 / 2), 1 * (1 / 2)] := by
    simp [flatDistribution]
  have hhalf : (0 : ℚ) < 1 / 2 := by norm_num
  obtain ⟨m, x1, y1, hm, hx1, hy1, hfold, hfoldM⟩ := forward_scale a b c d p q r s hT hS
    (o.take t) 1 (1 / 2) (1 / 2) one_pos hhalf hhalf
    (fun e he => ho e (List.mem_of_mem_take he))
  obtain ⟨m2, x2, y2, hm2, hx2, hy2, hfold2, hfoldM2⟩ := backward_scale a b c d p q r s hT hS
    (o.drop t).reverse 1 (1 / 2) (1 / 2) one_pos hhalf hhalf
    (fun e he => ho e (List.mem_of_mem_drop (List.mem_reverse.1 he)))
  have hfw : forwardRow [[a, b], [c, d]] [[p, q], [r, s]] (o.take t) = [x1, y1] := hfold
  have hbw : backwardRow [[a, b], [c, d]] [[p, q], [r, s]] (o.drop t) = [x2, y2] := by
    rw [← hfold2, List.foldl_reverse]
    rfl
  rw [hF, hB, filter_two, backFilter_two, hflat, hfoldM, hfoldM2]
  simp only [Option.some_bind, timesDistribution_two, Option.map_some', normalize_two]
  rw [smoothed_eq a b c d _ o t 0 ht (by omega) x1 y1 x2 y2 hfw hbw,
    smoothed_eq a b c d _ o t 1 ht (by omega) x1 y1 x2 y2 hfw hbw]
  have hmm : m * m2 ≠ 0 := ne_of_gt (mul_pos hm hm2)
  have e0 : m * x1 * (m2 * x2) = m * m2 * (x1 * x2) := by ring
  have e1 : m * y1 * (m2 * y2) = m * m2 * (y1 * y2) := by ring
  rw [e0, e1, ← mul_add, mul_div_mul_left _ _ hmm, mul_div_mul_left _ _ hmm]
  rfl

theorem estimate_eq_smoothed_witness :
    (TwoByTwo exampleT ∧ TwoByTwo exampleS ∧ Positive exampleT ∧ Positive exampleS ∧
      (∀ e ∈ ([0, 1, 0] : List Int), e = 0 ∨ e = 1) ∧ (0 : Int) ≤ 1 ∧
      (1 : Int) ≤ ([0, 1, 0] : List Int).length) ∧
    estimate 1 [0, 1, 0] exampleT exampleS
      = some [smoothed exampleT exampleS [0, 1, 0] (1 : Int).toNat 0,
          smoothed exampleT exampleS [0, 1, 0] (1 : Int).toNat 1] :=
  ⟨⟨by decide, by decide, by simp [Positive, exampleT],
      by simp [Positive, exampleS], by decide, by decide, by decide⟩,
    estimate_eq_smoothed exampleT exampleS (by decide) (by decide)
      (by simp [Positive, exampleT]) (by simp [Positive, exampleS])
      [0, 1, 0] (by decide) 1 (by decide) (by decide)⟩

/-! ## C11: `normalize` on a normalized vector -/

theorem normalize_of_sum_one (d : Distribution) (h : d.sum = 1) : normalize d = d := by
  rw [normalize_eq, h]
  simp

theorem normalize_sum_of_ne_zero (d : Distribution) (h : d.sum ≠ 0) : (normalize d).sum = 1 := by
  rw [normalize_eq, sum_map_div, div_self h]

/-- C11: over exact arithmetic, `normalize` leaves a distribution whose entries
sum to 1 unchanged, and hence, for every distribution `d` with a nonzero sum,
`normalize(normalize(d)) = normalize(d)`. -/
theorem normalize_idempotent (d : Distribution) (h : d.sum ≠ 0) :
    (d.sum = 1 → normalize d = d) ∧ normalize (normalize d) = normalize d :=
  ⟨normalize_of_sum_one d, normalize_of_sum_one _ (normalize_sum_of_ne_zero d h)⟩

theorem normalize_idempotent_witness :
    ([2, 3, 5] : Distribution).sum ≠ 0 ∧
      ((([2, 3, 5] : Distribution).sum = 1 → normalize [2, 3, 5] = [2, 3, 5]) ∧
        normalize (normalize [2, 3, 5]) = normalize [2, 3, 5]) :=
  ⟨by norm_num, normalize_idempotent [2, 3, 5] (by norm_num)⟩

/-! ## C15: the first concrete scenario -/

/-- C15: over exact arithmetic, with `T = [[7/10, 3/10], [4/10, 6/10]]` and
`S = [[8/10, 2/10], [3/10, 7/10]]`, the predict step on the flat distribution
gives `[0.55, 0.45]`, the update by the likelihoods of the symbol `0` gives
`[0.44, 0.135]`, and `filter([0], T, S)` is their normalization
`[88/115, 27/115]`. -/
theorem filter_scenario_one :
    transpose exampleT = some [[7/10, 4/10], [3/10, 6/10]] ∧
    transpose exampleS = some [[8/10, 3/10], [2/10, 7/10]] ∧
    timesModel flatDistribution [[7/10, 4/10], [3/10, 6/10]] = some [55/100, 45/100] ∧
    timesDistribution [55/100, 45/100] [8/10, 3/10] = some [44/100, 135/1000] ∧
    normalize [44/100, 135/1000] = [88/115, 27/115] ∧
    filter [0] exampleT exampleS = some [88/115, 27/115] := by
  have h1 : timesModel flatDistribution [[7/10, 4/10], [3/10, 6/10]]
      = some [55/100, 45/100] := by
    rw [show flatDistribution = [1/2, 1/2] from rfl, timesModel_two]
    norm_num
  have h2 : timesDistribution [55/100, 45/100] [8/10, 3/10]
      = some [44/100, 135/1000] := by
    rw [timesDistribution_two]
    norm_num
  have h3 : normalize [44/100, 135/1000] = [88/115, 27/115] := by
    rw [normalize_two]
    norm_num
  refine ⟨rfl, rfl, h1, h2, h3, ?_⟩
  rw [show exampleT = [[7/10, 3/10], [4/10, 6/10]] from rfl,
    show exampleS = [[8/10, 2/10], [3/10, 7/10]] from rfl, filter_two]
  simp only [List.foldlM_cons, List.foldlM_nil]
  have hstep : filterStep [[7/10, 4/10], [3/10, 6/10]] [[8/10, 3/10], [2/10, 7/10]]
      flatDistribution 0 = some [88/115, 27/115] := by
    unfold filterStep
    rw [h1]
    simp only [Option.bind_eq_bind, Option.some_bind]
    rw [show index ([[8/10, 3/10], [2/10, 7/10]] : Model) 0 = some [8/10, 3/10] from rfl]
    simp only [Option.some_bind]
    rw [h2]
    simp only [Option.some_bind, Option.pure_def, h3]
  rw [hstep]
  rfl

/-! ## C13: `timesDistribution` on operands of different lengths -/

theorem timesDistribution_eq : ∀ d other : Distribution,
    timesDistribution d other
      = if d.length ≤ other.length then some (List.zipWith (fun x y => x * y) d other) else none
  | [], _ => by simp [timesDistribution]
  | _ :: _, [] => by simp [timesDistribution]
  | x :: d, y :: other => by
    rw [timesDistribution, timesDistribution_eq d other]
    by_cases h : d.length ≤ other.length
    · simp [h]
    · simp [h]

/-- C13, the code at the failing input: with `d = [1, 2]` and the longer
`other = [3, 4, 5]`, `timesDistribution` does not fail, it returns `[3, 8]` and
never reads `other[2]`.  In general it fails exactly when `other` is shorter
than `d`, and otherwise returns the products `d[i] * other[i]` for `i` over the
indices of `d`. -/
theorem timesDistribution_longer_other :
    timesDistribution [1, 2] [3, 4, 5] = some [3, 8] ∧
    timesDistribution [1, 2, 3] [4, 5] = none ∧
    (∀ d other : Distribution, timesDistribution d other
      = if d.length ≤ other.length then some (List.zipWith (fun x y => x * y) d other)
        else none) := by
  refine ⟨?_, rfl, timesDistribution_eq⟩
  rw [timesDistribution_eq]
  norm_num

/-! ## C12 and C14: `transpose` -/

theorem mapM_eq_some_map {α β : Type} (f : α → Option β) (g : α → β) :
    ∀ l : List α, (∀ a ∈ l, f a = some (g a)) → l.mapM f = some (l.map g)
  | [], _ => rfl
  | a :: l, h => by
    rw [mapM_cons_option, h a (by simp),
      mapM_eq_some_map f g l (fun x hx => h x (List.mem_cons_of_mem _ hx))]
    rfl

theorem entry_eq_getElem (m : Model) (i j : Nat) (hi : i < m.length) (hj : j < m[i].length) :
    entry m i j = m[i][j] := by
  unfold entry
  simp [List.getD_eq_getElem?_getD, List.getElem?_eq_getElem hi, List.getElem?_eq_getElem hj]

/-- On a non-empty square model `transpose` returns the model of the entries
`m[c][r]`. -/
theorem transpose_square_eq (m : Model) (hne : m ≠ [])
    (hsq : ∀ row ∈ m, row.length = m.length) :
    transpose m = some ((List.range m.length).map (fun r =>
      (List.range m.length).map (fun c => entry m c r))) := by
  cases m with
  | nil => exact absurd rfl hne
  | cons row0 rest =>
    have h0 : row0.length = (row0 :: rest).length := hsq row0 (by simp)
    rw [transpose_cons, if_neg (by rw [h0]; simp), h0]
    apply mapM_eq_some_map
    intro r hr
    apply mapM_eq_some_map
    intro c hc
    have hc1 : c < (row0 :: rest).length := List.mem_range.1 hc
    have hr1 : r < (row0 :: rest)[c].length := by
      rw [hsq _ (List.getElem_mem hc1)]
      exact List.mem_range.1 hr
    rw [List.getElem?_eq_getElem hc1, Option.some_bind, List.getElem?_eq_getElem hr1,
      entry_eq_getElem _ c r hc1 hr1]

theorem entry_map_range (n : Nat) (f : Nat → Nat → ℚ) (r c : Nat) (hr : r < n) (hc : c < n) :
    entry ((List.range n).map (fun r => (List.range n).map (fun c => f r c))) r c = f r c := by
  unfold entry
  simp [List.getD_eq_getElem?_getD, hr, hc]

/-- The positive part of C12: on a non-empty square model `transpose` returns
the model with `result[r][c] = m[c][r]`, and transposing twice gives the model
back. -/
theorem transpose_transpose_of_square (m : Model) (hne : m ≠ [])
    (hsq : ∀ row ∈ m, row.length = m.length) :
    ∃ t, transpose m = some t ∧ t.length = m.length ∧
      (∀ r c, r < m.length → c < m.length → entry t r c = entry m c r) ∧
      transpose t = some m := by
  have hn : 0 < m.length := List.length_pos.2 hne
  refine ⟨_, transpose_square_eq m hne hsq, by simp, ?_, ?_⟩
  · intro r c hr hc
    exact entry_map_range m.length (fun r c => entry m c r) r c hr hc
  · rw [transpose_square_eq]
    · simp only [List.length_map, List.length_range]
      congr 1
      apply List.ext_getElem
      · simp
      · intro r h1 h2
        have hr : r < m.length := h2
        simp only [List.getElem_map, List.getElem_range]
        apply List.ext_getElem
        · simp [hsq _ (List.getElem_mem hr)]
        · intro c h3 h4
          have hc : c < m.length := by simpa using h3
          simp only [List.getElem_map, List.getElem_range]
          rw [entry_map_range m.length (fun r c => entry m c r) c r hc hr,
            entry_eq_getElem m r c hr h4]
    · intro h
      have h1 := congrArg List.length h
      rw [List.length_map, List.length_range, List.length_nil] at h1
      omega
    · intro row hrow
      obtain ⟨r, _, rfl⟩ := List.mem_map.1 hrow
      simp

/-- C12, the code at the failing input: on the empty model, which is square
with `n = 0`, `transpose` fails (`len(m[0])` is an index out of range). -/
theorem transpose_empty_fails : transpose ([] : Model) = none := rfl

/-- C14, the code at the failing input: the model `[[1, 2], [3, 4, 5]]` is
not square (its second row has three entries) and its first row has the right
length; `transpose` does not fail on it, it returns `[[1, 3], [2, 4]]` and never
reads the entry `5`.  In general `transpose` returns exactly on the non-empty
models with as many rows as the first row has entries and no shorter row. -/
theorem transpose_ragged_succeeds :
    transpose [[1, 2], [3, 4, 5]] = some [[1, 3], [2, 4]] ∧
    ¬ (∀ row ∈ ([[1, 2], [3, 4, 5]] : Model), row.length = ([[1, 2], [3, 4, 5]] : Model).length) ∧
    transpose [[1, 2], [3]] = none ∧
    (∀ m : Model, (transpose m).isSome ↔ Transposable m) :=
  ⟨rfl, by decide, rfl, transpose_isSome_iff⟩

/-! ## C17 and C18: positivity of the beliefs and deferred normalization -/

theorem filter_pos_of_forward (a b c d p q r s : ℚ) (hT : Positive [[a, b], [c, d]])
    (hS : Positive [[p, q], [r, s]]) (o : List Int) (ho : ∀ e ∈ o, e = 0 ∨ e = 1) :
    ∃ m x y : ℚ, 0 < m ∧ 0 < x ∧ 0 < y ∧
      forwardRow [[a, b], [c, d]] [[p, q], [r, s]] o = [x, y] ∧
      filter o [[a, b], [c, d]] [[p, q], [r, s]] = some [m * x, m * y] := by
  have hhalf : (0 : ℚ) < 1 / 2 := by norm_num
  obtain ⟨m, x, y, hm, hx, hy, hfold, hfoldM⟩ := forward_scale a b c d p q r s hT hS
    o 1 (1 / 2) (1 / 2) one_pos hhalf hhalf ho
  refine ⟨m, x, y, hm, hx, hy, hfold, ?_⟩
  rw [filter_two, show flatDistribution = [1 * (1 / 2), 1 * (1 / 2)] by simp [flatDistribution]]
  exact hfoldM

theorem backFilter_pos_of_backward (a b c d p q r s : ℚ) (hT : Positive [[a, b], [c, d]])
    (hS : Positive [[p, q], [r, s]]) (o : List Int) (ho : ∀ e ∈ o, e = 0 ∨ e = 1) :
    ∃ m x y : ℚ, 0 < m ∧ 0 < x ∧ 0 < y ∧
      backwardRow [[a, b], [c, d]] [[p, q], [r, s]] o = [x, y] ∧
      backFilter o [[a, b], [c, d]] [[p, q], [r, s]] = some [m * x, m * y] := by
  have hhalf : (0 : ℚ) < 1 / 2 := by norm_num
  obtain ⟨m, x, y, hm, hx, hy, hfold, hfoldM⟩ := backward_scale a b c d p q r s hT hS
    o.reverse 1 (1 / 2) (1 / 2) one_pos hhalf hhalf
    (fun e he => ho e (List.mem_reverse.1 he))
  refine ⟨m, x, y, hm, hx, hy, ?_, ?_⟩
  · rw [← hfold, List.foldl_reverse]
    rfl
  · rw [backFilter_two,
      show flatDistribution = [1 * (1 / 2), 1 * (1 / 2)] by simp [flatDistribution]]
    exact hfoldM

theorem normalize_two_pos (x y : ℚ) (hx : 0 < x) (hy : 0 < y) :
    ∃ u v : ℚ, normalize [x, y] = [u, v] ∧ 0 < u ∧ 0 < v ∧ u + v = 1 := by
  have hs : 0 < x + y := add_pos hx hy
  refine ⟨x / (x + y), y / (x + y), normalize_two x y, div_pos hx hs, div_pos hy hs, ?_⟩
  rw [← add_div, div_self (ne_of_gt hs)]

/-- One iteration of `filter`, on a belief with positive entries: the vector
is positive just before it is normalized, and positive with sum 1 after. -/
theorem filter_step_pos (a b c d p q r s : ℚ) (hT : Positive [[a, b], [c, d]])
    (hS : Positive [[p, q], [r, s]]) (pre : List Int) (e : Int)
    (hpre : ∀ o ∈ pre, o = 0 ∨ o = 1) (he : e = 0 ∨ e = 1) :
    ∃ f : Distribution, filter pre [[a, b], [c, d]] [[p, q], [r, s]] = some f ∧
      (∀ x ∈ forwardUpdate [[a, b], [c, d]] [[p, q], [r, s]] f e, 0 < x) ∧
      filter (pre ++ [e]) [[a, b], [c, d]] [[p, q], [r, s]]
        = some (normalize (forwardUpdate [[a, b], [c, d]] [[p, q], [r, s]] f e)) ∧
      ∃ u v : ℚ, normalize (forwardUpdate [[a, b], [c, d]] [[p, q], [r, s]] f e) = [u, v] ∧
        0 < u ∧ 0 < v ∧ u + v = 1 := by
  obtain ⟨m, x, y, hm, hx, hy, _, hf⟩ := filter_pos_of_forward a b c d p q r s hT hS pre hpre
  obtain ⟨ha, hb, hc, hd⟩ := positive_two hT
  obtain ⟨h0, h1⟩ := entry_pos_two hS he
  have hu : 0 < (a * (m * x) + c * (m * y)) * entry [[p, q], [r, s]] 0 e.toNat :=
    mul_pos (add_pos (mul_pos ha (mul_pos hm hx)) (mul_pos hc (mul_pos hm hy))) h0
  have hv : 0 < (b * (m * x) + d * (m * y)) * entry [[p, q], [r, s]] 1 e.toNat :=
    mul_pos (add_pos (mul_pos hb (mul_pos hm hx)) (mul_pos hd (mul_pos hm hy))) h1
  refine ⟨[m * x, m * y], hf, ?_, ?_, ?_⟩
  · rw [forwardUpdate_two]
    intro z hz
    simp only [List.mem_cons, List.mem_singleton, List.not_mem_nil, or_false] at hz
    rcases hz with rfl | rfl
    · exact hu
    · exact hv
  · rw [filter_two, foldlM_snoc_option, ← filter_two, hf, Option.some_bind,
      filterStep_two _ _ _ _ _ _ _ _ _ _ e he]
  · rw [forwardUpdate_two]
    exact normalize_two_pos _ _ hu hv

/-- One iteration of `backFilter`, on a belief with positive entries. -/
theorem backFilter_step_pos (a b c d p q r s : ℚ) (hT : Positive [[a, b], [c, d]])
    (hS : Positive [[p, q], [r, s]]) (e : Int) (post : List Int)
    (hpost : ∀ o ∈ post, o = 0 ∨ o = 1) (he : e = 0 ∨ e = 1) :
    ∃ f : Distribution, backFilter post [[a, b], [c, d]] [[p, q], [r, s]] = some f ∧
      (∀ x ∈ backwardUpdate [[a, b], [c, d]] [[p, q], [r, s]] f e, 0 < x) ∧
      backFilter (e :: post) [[a, b], [c, d]] [[p, q], [r, s]]
        = some (normalize (backwardUpdate [[a, b], [c, d]] [[p, q], [r, s]] f e)) ∧
      ∃ u v : ℚ, normalize (backwardUpdate [[a, b], [c, d]] [[p, q], [r, s]] f e) = [u, v] ∧
        0 < u ∧ 0 < v ∧ u + v = 1 := by
  obtain ⟨m, x, y, hm, hx, hy, _, hf⟩ :=
    backFilter_pos_of_backward a b c d p q r s hT hS post hpost
  obtain ⟨ha, hb, hc, hd⟩ := positive_two hT
  obtain ⟨h0, h1⟩ := entry_pos_two hS he
  have hu : 0 < a * (m * x * entry [[p, q], [r, s]] 0 e.toNat)
      + b * (m * y * entry [[p, q], [r, s]] 1 e.toNat) :=
    add_pos (mul_pos ha (mul_pos (mul_pos hm hx) h0)) (mul_pos hb (mul_pos (mul_pos hm hy) h1))
  have hv : 0 < c * (m * x * entry [[p, q], [r, s]] 0 e.toNat)
      + d * (m * y * entry [[p, q], [r, s]] 1 e.toNat) :=
    add_pos (mul_pos hc (mul_pos (mul_pos hm hx) h0)) (mul_pos hd (mul_pos (mul_pos hm hy) h1))
  refine ⟨[m * x, m * y], hf, ?_, ?_, ?_⟩
  · rw [backwardUpdate_two]
    intro z hz
    simp only [List.mem_cons, List.mem_singleton, List.not_mem_nil, or_false] at hz
    rcases hz with rfl | rfl
    · exact hu
    · exact hv
  · rw [backFilter_two, List.reverse_cons, foldlM_snoc_option, ← backFilter_two, hf,
      Option.some_bind, backFilterStep_two _ _ _ _ _ _ _ _ _ _ e he]
  · rw [backwardUpdate_two]
    exact normalize_two_pos _ _ hu hv

theorem eq_nil_or_snoc (o : List Int) : o = [] ∨ ∃ pre e, o = pre ++ [e] := by
  rcases List.eq_nil_or_concat o with h | ⟨pre, e, h⟩
  · exact Or.inl h
  · exact Or.inr ⟨pre, e, by rw [h, List.concat_eq_append]⟩

/-- C17: over exact arithmetic, for every 2x2 `T` and `S` with strictly positive
entries and every observation sequence `o` over `{0, 1}`, the per-step
normalization of `filter` can be deferred: `filter(o, T, S) = normalize(u)`,
where `u` is obtained from the flat distribution by the predict step
(`u[s] <- Σ_j T[j][s] * u[j]`) and the update step (`u[s] <- u[s] * S[s][e]`)
for each observation `e` in order, with no normalization in between. -/
theorem filter_eq_normalize_forwardRow (T : TransitionModel) (S : SensorModel)
    (hT2 : TwoByTwo T) (hS2 : TwoByTwo S) (hT : Positive T) (hS : Positive S)
    (o : List Int) (ho : ∀ e ∈ o, e = 0 ∨ e = 1) :
    filter o T S = some (normalize (forwardRow T S o)) := by
  obtain ⟨a, b, c, d, rfl⟩ := twoByTwo_eq hT2
  obtain ⟨p, q, r, s, rfl⟩ := twoByTwo_eq hS2
  obtain ⟨m, x, y, hm, hx, hy, hrow, hf⟩ := filter_pos_of_forward a b c d p q r s hT hS o ho
  have hsum : m * x + m * y = 1 := by
    rcases eq_nil_or_snoc o with rfl | ⟨pre, e, rfl⟩
    · have h1 : filter [] [[a, b], [c, d]] [[p, q], [r, s]] = some [1 / 2, 1 / 2] := rfl
      rw [h1] at hf
      simp only [Option.some.injEq, List.cons.injEq, and_true] at hf
      rw [← hf.1, ← hf.2]
      norm_num
    · obtain ⟨f, _, _, hstep, u, v, huv, _, _, hone⟩ := filter_step_pos a b c d p q r s hT hS
        pre e (fun z hz => ho z (List.mem_append_left _ hz)) (ho e (by simp))
      rw [hstep, huv] at hf
      simp only [Option.some.injEq, List.cons.injEq, and_true] at hf
      rw [← hf.1, ← hf.2]
      exact hone
  have hxy : 0 < x + y := add_pos hx hy
  have hm1 : m = (x + y)⁻¹ := by
    rw [← mul_add] at hsum
    exact eq_inv_of_mul_eq_one_left hsum
  rw [hf, hrow, normalize_two, hm1]
  simp [div_eq_inv_mul]

theorem filter_eq_normalize_forwardRow_witness :
    (TwoByTwo exampleT ∧ TwoByTwo exampleS ∧ Positive exampleT ∧ Positive exampleS ∧
      (∀ e ∈ ([0, 1, 0] : List Int), e = 0 ∨ e = 1)) ∧
    filter [0, 1, 0] exampleT exampleS
      = some (normalize (forwardRow exampleT exampleS [0, 1, 0])) :=
  ⟨⟨by decide, by decide, by simp [Positive, exampleT], by simp [Positive, exampleS],
      by decide⟩,
    filter_eq_normalize_forwardRow exampleT exampleS (by decide) (by decide)
      (by simp [Positive, exampleT]) (by simp [Positive, exampleS]) [0, 1, 0] (by decide)⟩

/-- C18: over exact arithmetic, for every 2x2 `T` and `S` with strictly positive
entries and every observation sequence `o` over `{0, 1}`: at every iteration of
`filter(o, T, S)` (on the symbol `e`, after the symbols `pre`) and of
`backFilter(o, T, S)` (on the symbol `e`, after the symbols `post` that follow
it) the belief has strictly positive entries just before it is normalized, so
that no normalization divides by zero; and both functions return a
distribution with strictly positive entries that sum to 1. -/
theorem filter_beliefs_positive (T : TransitionModel) (S : SensorModel)
    (hT2 : TwoByTwo T) (hS2 : TwoByTwo S) (hT : Positive T) (hS : Positive S)
    (o : List Int) (ho : ∀ e ∈ o, e = 0 ∨ e = 1) :
    (∀ pre e post, o = pre ++ e :: post →
      ∃ f, filter pre T S = some f ∧ (∀ x ∈ forwardUpdate T S f e, 0 < x) ∧
        (forwardUpdate T S f e).sum ≠ 0 ∧
        filter (pre ++ [e]) T S = some (normalize (forwardUpdate T S f e))) ∧
    (∀ pre e post, o = pre ++ e :: post →
      ∃ f, backFilter post T S = some f ∧ (∀ x ∈ backwardUpdate T S f e, 0 < x) ∧
        (backwardUpdate T S f e).sum ≠ 0 ∧
        backFilter (e :: post) T S = some (normalize (backwardUpdate T S f e))) ∧
    (∃ x y : ℚ, filter o T S = some [x, y] ∧ 0 < x ∧ 0 < y ∧ x + y = 1) ∧
    (∃ x y : ℚ, backFilter o T S = some [x, y] ∧ 0 < x ∧ 0 < y ∧ x + y = 1) := by
  obtain ⟨a, b, c, d, rfl⟩ := twoByTwo_eq hT2
  obtain ⟨p, q, r, s, rfl⟩ := twoByTwo_eq hS2
  have hpos_sum : ∀ l : List ℚ, l ≠ [] → (∀ x ∈ l, 0 < x) → l.sum ≠ 0 := by
    intro l hl hx
    exact ne_of_gt (List.sum_pos l hx hl)
  have hfu : ∀ f e, forwardUpdate [[a, b], [c, d]] [[p, q], [r, s]] f e ≠ [] := by
    intro f e
    simp [forwardUpdate, range_two]
  have hbu : ∀ f e, backwardUpdate [[a, b], [c, d]] [[p, q], [r, s]] f e ≠ [] := by
    intro f e
    simp [backwardUpdate, range_two]
  refine ⟨?_, ?_, ?_, ?_⟩
  · rintro pre e post rfl
    obtain ⟨f, hf, hpos, hstep, _⟩ := filter_step_pos a b c d p q r s hT hS pre e
      (fun z hz => ho z (List.mem_append_left _ hz)) (ho e (by simp))
    exact ⟨f, hf, hpos, hpos_sum _ (hfu f e) hpos, hstep⟩
  · rintro pre e post rfl
    obtain ⟨f, hf, hpos, hstep, _⟩ := backFilter_step_pos a b c d p q r s hT hS e post
      (fun z hz => ho z (by simp [hz])) (ho e (by simp))
    exact ⟨f, hf, hpos, hpos_sum _ (hbu f e) hpos, hstep⟩
  · rcases eq_nil_or_snoc o with rfl | ⟨pre, e, rfl⟩
    · exact ⟨1 / 2, 1 / 2, rfl, by norm_num, by norm_num, by norm_num⟩
    · obtain ⟨f, _, _, hstep, u, v, huv, hu, hv, hone⟩ := filter_step_pos a b c d p q r s hT hS
        pre e (fun z hz => ho z (List.mem_append_left _ hz)) (ho e (by simp))
      exact ⟨u, v, by rw [hstep, huv], hu, hv, hone⟩
  · cases o with
    | nil => exact ⟨1 / 2, 1 / 2, rfl, by norm_num, by norm_num, by norm_num⟩
    | cons e post =>
      obtain ⟨f, _, _, hstep, u, v, huv, hu, hv, hone⟩ := backFilter_step_pos a b c d p q r s
        hT hS e post (fun z hz => ho z (List.mem_cons_of_mem _ hz)) (ho e (by simp))
      exact ⟨u, v, by rw [hstep, huv], hu, hv, hone⟩

theorem filter_beliefs_positive_witness :
    (TwoByTwo exampleT ∧ TwoByTwo exampleS ∧ Positive exampleT ∧ Positive exampleS ∧
      (∀ e ∈ ([0, 1, 0] : List Int), e = 0 ∨ e = 1)) ∧
    ((∀ pre e post, ([0, 1, 0] : List Int) = pre ++ e :: post →
      ∃ f, filter pre exampleT exampleS = some f ∧
        (∀ x ∈ forwardUpdate exampleT exampleS f e, 0 < x) ∧
        (forwardUpdate exampleT exampleS f e).sum ≠ 0 ∧
        filter (pre ++ [e]) exampleT exampleS
          = some (normalize (forwardUpdate exampleT exampleS f e))) ∧
    (∀ pre e post, ([0, 1, 0] : List Int) = pre ++ e :: post →
      ∃ f, backFilter post exampleT exampleS = some f ∧
        (∀ x ∈ backwardUpdate exampleT exampleS f e, 0 < x) ∧
        (backwardUpdate exampleT exampleS f e).sum ≠ 0 ∧
        backFilter (e :: post) exampleT exampleS
          = some (normalize (backwardUpdate exampleT exampleS f e))) ∧
    (∃ x y : ℚ, filter [0, 1, 0] exampleT exampleS = some [x, y] ∧ 0 < x ∧ 0 < y ∧ x + y = 1) ∧
    (∃ x y : ℚ, backFilter [0, 1, 0] exampleT exampleS = some [x, y] ∧ 0 < x ∧ 0 < y ∧
      x + y = 1)) :=
  ⟨⟨by decide, by decide, by simp [Positive, exampleT], by simp [Positive, exampleS],
      by decide⟩,
    filter_beliefs_positive exampleT exampleS (by decide) (by decide)
      (by simp [Positive, exampleT]) (by simp [Positive, exampleS]) [0, 1, 0] (by decide)⟩

end MarkovFilter

namespace Pomdp

/-! ## C19: the transition model on the grid -/

theorem mapM_map_option {α β γ : Type} (f : α → Option β) (g : β → γ) :
    ∀ l : List α, l.mapM (fun x => (f x).map g) = (l.mapM f).map (List.map g)
  | [] => rfl
  | a :: l => by
    rw [MarkovFilter.mapM_cons_option, MarkovFilter.mapM_cons_option, mapM_map_option f g l]
    cases f a <;> cases l.mapM f <;> rfl

theorem sum_map_tenths (ns : List Nat) :
    (ns.map (fun (n : Nat) => (n : ℚ) / 10)).sum = ((ns.sum : Nat) : ℚ) / 10 := by
  induction ns with
  | nil => simp
  | cons n ns ih =>
    simp only [List.map_cons, List.sum_cons, ih, Nat.cast_add]
    ring

theorem transitionProability_eq_tenths (rAt cAt rFrom cFrom action : Int) :
    transitionProability rAt cAt rFrom cFrom action
      = (transitionTenths rAt cAt rFrom cFrom action).map (fun (n : Nat) => (n : ℚ) / 10) := by
  unfold transitionProability transitionTenths
  cases wallAt rFrom cFrom with
  | none => rfl
  | some w =>
    simp only [Option.some_bind]
    by_cases hw : w = -1 ∨ w = 4
    · simp [hw]
    · simp only [hw, if_false]
      cases movesTo rFrom cFrom action rAt cAt with
      | none => rfl
      | some m1 =>
        cases movesTo rFrom cFrom (Int.tmod (action + 1) 4) rAt cAt with
        | none => rfl
        | some m2 =>
          cases movesTo rFrom cFrom (Int.tmod (action + 3) 4) rAt cAt with
          | none => rfl
          | some m3 =>
            cases m1 <;> cases m2 <;> cases m3 <;> norm_num

theorem transitionTotal_eq_tenths (rFrom cFrom action : Int) :
    transitionTotal rFrom cFrom action
      = (transitionTotalTenths rFrom cFrom action).map (fun (n : Nat) => (n : ℚ) / 10) := by
  unfold transitionTotal transitionTotalTenths
  have hrow : ∀ rAt : Nat,
      ((List.range COLS).mapM (fun (cAt : Nat) =>
        transitionProability (rAt : Int) (cAt : Int) rFrom cFrom action)).map List.sum
      = (((List.range COLS).mapM (fun (cAt : Nat) =>
        transitionTenths (rAt : Int) (cAt : Int) rFrom cFrom action)).map List.sum).map
          (fun (n : Nat) => (n : ℚ) / 10) := by
    intro rAt
    simp only [transitionProability_eq_tenths]
    rw [mapM_map_option]
    cases (List.range COLS).mapM (fun (cAt : Nat) =>
        transitionTenths (rAt : Int) (cAt : Int) rFrom cFrom action) with
    | none => rfl
    | some ns => simp [sum_map_tenths]
  simp only [hrow]
  rw [mapM_map_option]
  cases (List.range ROWS).mapM (fun (rAt : Nat) =>
      ((List.range COLS).mapM (fun (cAt : Nat) =>
        transitionTenths (rAt : Int) (cAt : Int) rFrom cFrom action)).map List.sum) with
  | none => rfl
  | some ns => simp [sum_map_tenths]

theorem map_tenths_eq_one (t : Option Nat) :
    t.map (fun (n : Nat) => (n : ℚ) / 10) = some 1 ↔ t = some 10 := by
  cases t with
  | none => simp
  | some n =>
    simp only [Option.map_some', Option.some.injEq]
    constructor
    · intro h
      have h1 : (n : ℚ) = 10 := by
        field_simp at h
        exact h
      exact_mod_cast h1
    · rintro rfl
      norm_num

/-- C19, the code at the failing input: from the cell `(2, 0)` of the bottom
row, which is neither terminal nor void (`WALLS[2][0] = 2`), with the action
`DOWN`, the transition probabilities over all cells of the grid sum to `1/5`,
not to 1: `snap(2 + 1, 0, ROWS)` is `3`, a row outside the grid, so the `0.8` of
the move itself reaches no cell.  Over the sources that are neither terminal
nor void the sum is 1 from the rows `0` and `1`, and from the bottom row only
for `UP` from `(2, 0)`, `(2, 1)`, `(2, 2)`. -/
theorem transitionTotal_bottom_row :
    wallAt 2 0 = some 2 ∧ snap (2 + 1) 0 ROWS = 3 ∧
    transitionTotal 2 0 DOWN = some (1/5) ∧
    (∀ action ∈ [DOWN, LEFT, UP, RIGHT],
      ∀ cell ∈ ([(0, 0), (0, 1), (0, 2), (1, 0), (1, 2)] : List (Int × Int)),
        transitionTotal cell.1 cell.2 action = some 1) ∧
    (∀ action ∈ [DOWN, LEFT, UP, RIGHT], ∀ c ∈ ([0, 1, 2, 3] : List Int),
      (transitionTotal 2 c action = some 1 ↔ (action = UP ∧ c ≠ 3))) := by
  refine ⟨rfl, rfl, ?_, ?_, ?_⟩
  · have h : transitionTotalTenths 2 0 DOWN = some 2 := by decide
    rw [transitionTotal_eq_tenths, h]
    norm_num
  · intro action ha cell hc
    have h : ∀ action ∈ [DOWN, LEFT, UP, RIGHT],
        ∀ cell ∈ ([(0, 0), (0, 1), (0, 2), (1, 0), (1, 2)] : List (Int × Int)),
          transitionTotalTenths cell.1 cell.2 action = some 10 := by decide
    rw [transitionTotal_eq_tenths, h action ha cell hc]
    norm_num
  · intro action ha c hc
    have h : ∀ action ∈ [DOWN, LEFT, UP, RIGHT], ∀ c ∈ ([0, 1, 2, 3] : List Int),
        (transitionTotalTenths 2 c action = some 10 ↔ (action = UP ∧ c ≠ 3)) := by decide
    rw [transitionTotal_eq_tenths, map_tenths_eq_one]
    exact h action ha c hc

/-! ## C16: normalization of a belief state -/

theorem foldl_guard {α : Type} (p : α → Prop) [DecidablePred p] (f : α → ℚ) :
    ∀ (l : List α) (z : ℚ),
      l.foldl (fun sum x => if p x then sum + f x else sum) z
        = z + (l.map (fun x => if p x then f x else 0)).sum
  | [], z => by simp
  | x :: l, z => by
    rw [List.foldl_cons, foldl_guard p f l]
    by_cases h : p x
    · simp [h, add_assoc]
    · simp [h]

theorem foldl_add {α : Type} (f : α → ℚ) :
    ∀ (l : List α) (z : ℚ), l.foldl (fun sum x => sum + f x) z = z + (l.map f).sum
  | [], z => by simp
  | x :: l, z => by
    rw [List.foldl_cons, foldl_add f l]
    simp [add_assoc]

theorem wallOf_void : ∀ (r : Fin ROWS) (c : Fin COLS), wallOf r c = 4 ↔ (r = 1 ∧ c = 1) := by
  decide

/-- The sum computed by `normalize` is the sum over the cells that are not
void. -/
theorem normalize_apply (b : BeliefState) : normalize b = fun r c => b r c / nonVoidSum b := by
  unfold normalize nonVoidSum
  funext r c
  congr 1
  simp only [foldl_guard (fun c => wallOf _ c ≠ 4) (fun c => b _ c)]
  rw [foldl_add]
  simp only [zero_add, Fin.sum_univ_def]

theorem totalSum_eq (b : BeliefState) : totalSum b = nonVoidSum b + b 1 1 := by
  unfold totalSum nonVoidSum
  simp only [Fin.sum_univ_three, Fin.sum_univ_four, ne_eq, wallOf_void]
  simp
  ring

theorem nonVoidSum_div (b : BeliefState) (s : ℚ) :
    nonVoidSum (fun r c => b r c / s) = nonVoidSum b / s := by
  unfold nonVoidSum
  simp only [Finset.sum_div]
  apply Finset.sum_congr rfl
  intro r _
  apply Finset.sum_congr rfl
  intro c _
  split <;> simp

theorem totalSum_div (b : BeliefState) (s : ℚ) :
    totalSum (fun r c => b r c / s) = totalSum b / s := by
  unfold totalSum
  simp only [Finset.sum_div]

theorem stateProbability_void (b : BeliefState) (action observation : Int) :
    stateProbability 1 1 b action observation = some 0 := rfl

theorem nonVoidSum_voidBelief : nonVoidSum voidBelief = 1 := by
  unfold nonVoidSum
  simp only [Fin.sum_univ_three, Fin.sum_univ_four, ne_eq, wallOf_void]
  simp [voidBelief]

theorem totalSum_voidBelief : totalSum voidBelief = 2 := by
  rw [totalSum_eq, nonVoidSum_voidBelief]
  simp [voidBelief]
  norm_num

/-- C16, counterexample: the belief state with the entry 1 in the cell `(0, 0)`
and in the void cell `(1, 1)` has the sum 1 over the cells that are not void;
`normalize` leaves it unchanged, and its `ROWS x COLS` entries sum to 2. -/
theorem normalize_void_counterexample :
    nonVoidSum voidBelief ≠ 0 ∧ totalSum (normalize voidBelief) = 2 ∧
      totalSum (normalize voidBelief) ≠ 1 := by
  have h : totalSum (normalize voidBelief) = 2 := by
    rw [normalize_apply, totalSum_div, nonVoidSum_voidBelief, totalSum_voidBelief]
    norm_num
  refine ⟨by rw [nonVoidSum_voidBelief]; norm_num, h, ?_⟩
  rw [h]
  norm_num

/-- C16, amended: over exact arithmetic, for every grid BeliefState `b` whose
entries over the cells that are not void (`WALLS != 4`) have a nonzero sum,
after `b.normalize()` every entry is the old entry divided by that sum and the
entries over the cells that are not void sum to 1; all `ROWS x COLS` entries
sum to 1 exactly when the entry of the void cell `(1, 1)` is 0, as it is in the
belief state that `updateBelief` normalizes. -/
theorem normalize_nonVoid_sum (b : BeliefState) (h : nonVoidSum b ≠ 0) :
    (∀ r c, normalize b r c = b r c / nonVoidSum b) ∧
    nonVoidSum (normalize b) = 1 ∧
    totalSum (normalize b) = 1 + b 1 1 / nonVoidSum b ∧
    (totalSum (normalize b) = 1 ↔ b 1 1 = 0) ∧
    (∀ (b0 : BeliefState) (action observation : Int),
      b = (fun r c => (stateProbability r.val c.val b0 action observation).getD 0) →
      b 1 1 = 0 ∧ ∀ b1, updateBelief b0 action observation = some b1 → totalSum b1 = 1) := by
  have htot : totalSum (normalize b) = 1 + b 1 1 / nonVoidSum b := by
    rw [normalize_apply, totalSum_div, totalSum_eq, add_div, div_self h]
  refine ⟨fun r c => by rw [normalize_apply], ?_, htot, ?_, ?_⟩
  · rw [normalize_apply, nonVoidSum_div, div_self h]
  · rw [htot]
    constructor
    · intro h1
      have h2 : b 1 1 / nonVoidSum b = 0 := by linarith
      rcases div_eq_zero_iff.1 h2 with h3 | h3
      · exact h3
      · exact absurd h3 h
    · intro h1
      rw [h1]
      simp
  · intro b0 action observation hb
    have hvoid : b 1 1 = 0 := by
      rw [hb]
      rfl
    refine ⟨hvoid, fun b1 h1 => ?_⟩
    unfold updateBelief at h1
    split at h1
    · simp only [Option.some.injEq] at h1
      rw [← h1, ← hb, htot, hvoid]
      simp
    · cases h1

theorem normalize_nonVoid_sum_witness :
    nonVoidSum voidBelief ≠ 0 ∧
    ((∀ r c, normalize voidBelief r c = voidBelief r c / nonVoidSum voidBelief) ∧
    nonVoidSum (normalize voidBelief) = 1 ∧
    totalSum (normalize voidBelief) = 1 + voidBelief 1 1 / nonVoidSum voidBelief ∧
    (totalSum (normalize voidBelief) = 1 ↔ voidBelief 1 1 = 0) ∧
    (∀ (b0 : BeliefState) (action observation : Int),
      voidBelief = (fun r c => (stateProbability r.val c.val b0 action observation).getD 0) →
      voidBelief 1 1 = 0 ∧
        ∀ b1, updateBelief b0 action observation = some b1 → totalSum b1 = 1)) :=
  ⟨by rw [nonVoidSum_voidBelief]; norm_num,
    normalize_nonVoid_sum voidBelief (by rw [nonVoidSum_voidBelief]; norm_num)⟩

end Pomdp

namespace WalkSat

/-! ## C20: `randomFalseClause` and the termination of `singleSolveRandom` -/

theorem IsTrue_cons (varAndNeg : VariableAndNegated) (rest : Clause) (assignment : Assignment) :
    IsTrue (varAndNeg :: rest) assignment
      = (MarkovFilter.index assignment varAndNeg.var).bind (fun a =>
          if (!varAndNeg.negated) = a then some true else IsTrue rest assignment) := rfl

/-- When `IsTrue` returns `true`, some literal agrees with the assignment. -/
theorem satisfied_of_IsTrue : ∀ (clause : Clause) (assignment : Assignment),
    IsTrue clause assignment = some true → Satisfied clause assignment
  | [], _, h => by simp [IsTrue] at h
  | v :: rest, assignment, h => by
    rw [IsTrue_cons] at h
    cases ha : MarkovFilter.index assignment v.var with
    | none => rw [ha] at h; cases h
    | some a =>
      rw [ha, Option.some_bind] at h
      by_cases he : (!v.negated) = a
      · exact ⟨v, by simp, by rw [ha, he]⟩
      · rw [if_neg he] at h
        obtain ⟨w, hw, hs⟩ := satisfied_of_IsTrue rest assignment h
        exact ⟨w, List.mem_cons_of_mem _ hw, hs⟩

/-- On an assignment that covers the clause, `IsTrue` returns whether some
literal agrees with the assignment. -/
theorem IsTrue_eq_decide : ∀ (clause : Clause) (assignment : Assignment),
    (∀ v ∈ clause, 0 ≤ v.var ∧ v.var < assignment.length) →
    IsTrue clause assignment = some (decide (Satisfied clause assignment))
  | [], _, _ => by simp [IsTrue, Satisfied]
  | v :: rest, assignment, h => by
    obtain ⟨h0, h1⟩ := h v (by simp)
    obtain ⟨a, ha, _⟩ := MarkovFilter.index_eq_some h0 h1
    have ih := IsTrue_eq_decide rest assignment (fun w hw => h w (List.mem_cons_of_mem _ hw))
    rw [IsTrue_cons, ha, Option.some_bind]
    by_cases he : (!v.negated) = a
    · rw [if_pos he]
      have hs : Satisfied (v :: rest) assignment := ⟨v, by simp, by rw [ha, he]⟩
      simp [hs]
    · rw [if_neg he, ih]
      congr 1
      have : Satisfied (v :: rest) assignment ↔ Satisfied rest assignment := by
        constructor
        · rintro ⟨w, hw, hs⟩
          rcases List.mem_cons.1 hw with rfl | hw
          · rw [ha] at hs
            exact absurd (Option.some.inj hs).symm he
          · exact ⟨w, hw, hs⟩
        · rintro ⟨w, hw, hs⟩
          exact ⟨w, List.mem_cons_of_mem _ hw, hs⟩
      simp [this]

theorem falseClausesFrom_cons (assignment : Assignment) (i : Nat) (clause : Clause)
    (rest : Problem) :
    falseClausesFrom assignment i (clause :: rest)
      = (IsTrue clause assignment).bind (fun t =>
          (falseClausesFrom assignment (i + 1) rest).map (fun tail =>
            if !t then (i : Int) :: tail else tail)) := rfl

/-- The list `falseClauses`: its entries are indices of clauses on which
`IsTrue` returns `false`, and it is empty exactly when `IsTrue` returns `true`
on every clause. -/
theorem falseClausesFrom_spec (assignment : Assignment) :
    ∀ (problem : Problem) (i : Nat) (l : List Int),
      falseClausesFrom assignment i problem = some l →
      (∀ r ∈ l, ∃ (k : Nat) (clause : Clause), r = ((i + k : Nat) : Int) ∧
        problem[k]? = some clause ∧ IsTrue clause assignment = some false) ∧
      (l = [] ↔ ∀ clause ∈ problem, IsTrue clause assignment = some true)
  | [], i, l, h => by
    simp only [falseClausesFrom, Option.some.injEq] at h
    subst h
    simp
  | clause :: rest, i, l, h => by
    rw [falseClausesFrom_cons] at h
    cases ht : IsTrue clause assignment with
    | none => rw [ht] at h; cases h
    | some t =>
      cases hr : falseClausesFrom assignment (i + 1) rest with
      | none => rw [ht, hr] at h; cases h
      | some tail =>
        rw [ht, hr] at h
        simp only [Option.some_bind, Option.map_some', Option.some.injEq] at h
        obtain ⟨ih1, ih2⟩ := falseClausesFrom_spec assignment rest (i + 1) tail hr
        have htail : ∀ r ∈ tail, ∃ (k : Nat) (c : Clause), r = ((i + k : Nat) : Int) ∧
            (clause :: rest)[k]? = some c ∧ IsTrue c assignment = some false := by
          intro r hr1
          obtain ⟨k, c, h1, h2, h3⟩ := ih1 r hr1
          exact ⟨k + 1, c, by rw [h1]; congr 1; omega, by simpa using h2, h3⟩
        cases t with
        | true =>
          simp only [Bool.not_true, Bool.false_eq_true, if_false] at h
          subst h
          refine ⟨htail, ?_⟩
          rw [ih2]
          constructor
          · intro hall c hc
            rcases List.mem_cons.1 hc with rfl | hc
            · exact ht
            · exact hall c hc
          · intro hall c hc
            exact hall c (List.mem_cons_of_mem _ hc)
        | false =>
          simp only [Bool.not_false, if_true] at h
          subst h
          refine ⟨?_, ?_⟩
          · intro r hr1
            rcases List.mem_cons.1 hr1 with rfl | hr1
            · exact ⟨0, clause, by simp, by simp, ht⟩
            · exact htail r hr1
          · constructor
            · intro h1
              cases h1
            · intro hall
              have := hall clause (by simp)
              rw [ht] at this
              cases this

theorem falseClausesFrom_isSome (assignment : Assignment) :
    ∀ (problem : Problem) (i : Nat), Covers problem assignment →
      ∃ l, falseClausesFrom assignment i problem = some l
  | [], _, _ => ⟨[], rfl⟩
  | clause :: rest, i, h => by
    obtain ⟨l, hl⟩ := falseClausesFrom_isSome assignment rest (i + 1)
      (fun c hc => h c (List.mem_cons_of_mem _ hc))
    rw [falseClausesFrom_cons, IsTrue_eq_decide clause assignment (h clause (by simp)), hl]
    exact ⟨_, rfl⟩

theorem mem_of_index {α : Type} {xs : List α} {e : Int} {x : α}
    (h : MarkovFilter.index xs e = some x) : x ∈ xs := by
  unfold MarkovFilter.index at h
  split at h
  · cases h
  · exact List.getElem?_mem h

/-- An answer of `-1` means that `IsTrue` returned `true` on every clause,
whatever the assignment covers. -/
theorem all_true_of_randomFalseClause (problem : Problem) (assignment : Assignment)
    (intn : Nat → Int) (h : randomFalseClause problem assignment intn = some (-1)) :
    ∀ clause ∈ problem, IsTrue clause assignment = some true := by
  unfold randomFalseClause at h
  cases hl : falseClausesFrom assignment 0 problem with
  | none => rw [hl] at h; cases h
  | some l =>
    rw [hl, Option.some_bind] at h
    obtain ⟨h1, h2⟩ := falseClausesFrom_spec assignment problem 0 l hl
    by_cases hlen : l.length = 0
    · exact h2.1 (List.length_eq_zero.1 hlen)
    · rw [if_neg hlen] at h
      obtain ⟨k, _, hk, _⟩ := h1 _ (mem_of_index h)
      omega

/-- When the loop of `singleSolveRandom` is left with `terminated` set,
`IsTrue` returns `true` on every clause under the assignment reached. -/
theorem solveLoop_terminated (problem : Problem) :
    ∀ (rnds : List Outcomes) (assignment final : Assignment),
      solveLoop problem rnds assignment = some (true, final) →
      ∀ clause ∈ problem, IsTrue clause final = some true
  | [], assignment, final, h => by
    simp [solveLoop] at h
  | rnd :: rest, assignment, final, h => by
    rw [solveLoop] at h
    cases hr : randomFalseClause problem assignment rnd.clauseIntn with
    | none => rw [hr] at h; cases h
    | some clause =>
      rw [hr, Option.some_bind] at h
      by_cases hc : clause = -1
      · rw [if_pos hc] at h
        have hf : assignment = final := by
          have := Option.some.inj h
          exact (Prod.mk.inj this).2
        subst hf
        subst hc
        exact all_true_of_randomFalseClause problem assignment rnd.clauseIntn hr
      · rw [if_neg hc] at h
        cases hv : (if rnd.randomSwap then randomVariable problem clause rnd.variableIntn
            else bestVariable problem clause assignment) with
        | none => rw [hv] at h; cases h
        | some variableToSwap =>
          rw [hv, Option.some_bind] at h
          cases hs : swapVariable assignment variableToSwap with
          | none => rw [hs] at h; cases h
          | some swapped =>
            rw [hs, Option.some_bind] at h
            exact solveLoop_terminated problem rest swapped final h

/-- C20: for every problem, every assignment that covers its variables and
every outcome `intn` of `rand.Intn` (a value in `[0, n)`), `IsTrue` returns
whether some literal of the clause agrees with the assignment;
`randomFalseClause` returns, and its answer is `-1` exactly when `IsTrue` is
`true` on every clause, and otherwise the index of a clause of the problem on
which `IsTrue` is `false`; and whenever the loop of `singleSolveRandom` is left
with `terminated` set, every clause is true under (and satisfied by) the
assignment reached. -/
theorem randomFalseClause_spec (problem : Problem) (assignment : Assignment)
    (intn : Nat → Int) (hcover : Covers problem assignment)
    (hintn : ∀ n : Nat, 0 < n → 0 ≤ intn n ∧ intn n < n) :
    (∀ clause ∈ problem,
      IsTrue clause assignment = some (decide (Satisfied clause assignment))) ∧
    (∃ r, randomFalseClause problem assignment intn = some r ∧
      (r = -1 ↔ ∀ clause ∈ problem, IsTrue clause assignment = some true) ∧
      (r ≠ -1 → ∃ (i : Nat) (clause : Clause), r = (i : Int) ∧ i < problem.length ∧
        problem[i]? = some clause ∧ MarkovFilter.index problem r = some clause ∧
        IsTrue clause assignment = some false)) ∧
    (∀ (rnds : List Outcomes) (final : Assignment),
      solveLoop problem rnds assignment = some (true, final) →
      ∀ clause ∈ problem, IsTrue clause final = some true ∧ Satisfied clause final) := by
  refine ⟨fun clause hc => IsTrue_eq_decide clause assignment (hcover clause hc), ?_, ?_⟩
  · obtain ⟨l, hl⟩ := falseClausesFrom_isSome assignment problem 0 hcover
    obtain ⟨h1, h2⟩ := falseClausesFrom_spec assignment problem 0 l hl
    unfold randomFalseClause
    rw [hl, Option.some_bind]
    by_cases hlen : l.length = 0
    · rw [if_pos hlen]
      have hnil := List.length_eq_zero.1 hlen
      exact ⟨-1, rfl, ⟨fun _ => h2.1 hnil, fun _ => rfl⟩, fun h => absurd rfl h⟩
    · rw [if_neg hlen]
      obtain ⟨hi0, hi1⟩ := hintn l.length (Nat.pos_of_ne_zero hlen)
      obtain ⟨r, hr, _⟩ := MarkovFilter.index_eq_some hi0 hi1
      obtain ⟨k, clause, hk, hget, hfalse⟩ := h1 r (mem_of_index hr)
      have hk0 : r = (k : Int) := by rw [hk]; congr 1; omega
      have hlt : k < problem.length := by
        rcases Nat.lt_or_ge k problem.length with h | h
        · exact h
        · rw [List.getElem?_eq_none h] at hget
          cases hget
      refine ⟨r, hr, ⟨fun h => by omega, fun hall => ?_⟩, fun _ =>
        ⟨k, clause, hk0, hlt, hget, ?_, hfalse⟩⟩
      · exact absurd (List.length_eq_zero.2 (h2.2 hall)) hlen
      · unfold MarkovFilter.index
        rw [if_neg (by omega), hk0, Int.toNat_ofNat]
        exact hget
  · intro rnds final h clause hc
    have := solveLoop_terminated problem rnds assignment final h clause hc
    exact ⟨this, satisfied_of_IsTrue clause final this⟩

theorem randomFalseClause_spec_witness :
    Covers sampleProblem [true, true, true] ∧
    randomFalseClause sampleProblem [true, true, true] (fun _ => 0) = some 2 ∧
    solveLoop sampleProblem
      [⟨fun _ => 0, false, fun _ => 0⟩, ⟨fun _ => 0, false, fun _ => 0⟩]
      [true, true, true] = some (true, [true, true, false]) ∧
    ((∀ clause ∈ sampleProblem,
      IsTrue clause [true, true, true]
        = some (decide (Satisfied clause [true, true, true]))) ∧
    (∃ r, randomFalseClause sampleProblem [true, true, true] (fun _ => 0) = some r ∧
      (r = -1 ↔ ∀ clause ∈ sampleProblem, IsTrue clause [true, true, true] = some true) ∧
      (r ≠ -1 → ∃ (i : Nat) (clause : Clause), r = (i : Int) ∧ i < sampleProblem.length ∧
        sampleProblem[i]? = some clause ∧ MarkovFilter.index sampleProblem r = some clause ∧
        IsTrue clause [true, true, true] = some false)) ∧
    (∀ (rnds : List Outcomes) (final : Assignment),
      solveLoop sampleProblem rnds [true, true, true] = some (true, final) →
      ∀ clause ∈ sampleProblem, IsTrue clause final = some true ∧ Satisfied clause final)) :=
  ⟨by decide, by decide, by decide,
    randomFalseClause_spec sampleProblem [true, true, true] (fun _ => 0) (by decide)
      (fun n hn => ⟨le_refl _, by show (0 : Int) < (n : Int); exact_mod_cast hn⟩)⟩

end WalkSat
